import Mathlib

/-!
Verification of the shared-memory computation kernel of the showcase
repository (Rust WASM sources: `sorting.rs`, `image.rs`, `lib.rs`).

Modelling conventions (shallow embedding):

* A mutable `&mut [T]` slice is a `List` value threaded through the
  translated control flow; `slice[i]` becomes `List.getD l i d` and
  `slice[i] = v` becomes `List.set l i v`.  All actual executions of the
  translated code access in bounds, so the `getD` default is never the
  value read; where the Rust code can panic (index out of bounds or
  usize underflow) the embedding returns `Option` and models the panic
  as `none`.
* `f32` values that are only compared, swapped and copied (the sorting
  routines) are modelled by integers: a NaN-free `f32` order embeds in a
  linear order and the routines are purely comparison based.  Where
  `f32` arithmetic matters (image filters), `f32` is modelled exactly as
  a rational together with `roundF32`, IEEE-754 round-to-nearest-even at
  24 significand bits (all values reached there are zero or normal, far
  from overflow, so neither subnormals nor infinities arise).
* `u8` bytes are naturals (in-range hypotheses `< 256` where needed),
  `u32` accumulation wraps modulo `2 ^ 32` as in release builds,
  `i32` division and remainder truncate toward zero (`Int.tdiv`,
  `Int.tmod`) exactly as in Rust.
-/

namespace Elide

/-! ## List access toolkit -/

/-- Swap of two list positions, the translation of `slice.swap(i, j)`:
both old values are read first, then written crosswise.  (`f32` array
elements are modelled as rationals, as justified with `sortByLe`
below.) -/
def swapL (l : List ℚ) (i j : ℕ) : List ℚ :=
  (l.set i (l.getD j 0)).set j (l.getD i 0)

/-- The sub-slice `l[a..b]` of a buffer (used to reason about the
slice windows `arr[left..right]` the algorithms operate on). -/
def seg {α : Type} (l : List α) (a b : ℕ) : List α :=
  (l.drop a).take (b - a)

/-- Overwriting the window starting at position `k` with the list
`xs`, the effect of a run of consecutive `temp[k] = …` writes. -/
def setSeg {α : Type} (t : List α) (k : ℕ) (xs : List α) : List α :=
  t.take k ++ xs ++ t.drop (k + xs.length)

/-! ## Matrix engine (`lib.rs`, `matrix_multiply`)

`C = A * B` with `A` an `m×n`, `B` an `n×p`, `C` an `m×p` row-major
buffer.  The `f32` arithmetic is kept abstract: the embedding is
parametric in the addition, the multiplication and the zero literal, so
the theorem states exactly in which order the machine operations are
applied (the `f32` instance is obtained by instantiating `add`/`mul`
with the rounded operations).  The source matrices are only read, so
they are modelled as functions from flat indices; the destination is
mutated and stays a list. -/

/-- Body of the inner `for j in 0..p` loop: `c[i*p+j] += a_val * b[k*p+j]`
(`a_val = a[i*n+k]`, hoisted out of the loop in the source but a pure
read, so inlined here). -/
def matMulUpd {α : Type} (add mul : α → α → α) (z : α) (a b : ℕ → α)
    (n p i k : ℕ) (c : List α) (j : ℕ) : List α :=
  c.set (i * p + j)
    (add (c.getD (i * p + j) z) (mul (a (i * n + k)) (b (k * p + j))))

/-- Inner `for j in 0..p` loop. -/
def matMulInner {α : Type} (add mul : α → α → α) (z : α) (a b : ℕ → α)
    (n p i k : ℕ) (c : List α) : List α :=
  (List.range p).foldl (matMulUpd add mul z a b n p i k) c

/-- Middle `for k in 0..n` loop for one row `i`. -/
def matMulRow {α : Type} (add mul : α → α → α) (z : α) (a b : ℕ → α)
    (n p i : ℕ) (c : List α) : List α :=
  (List.range n).foldl (fun c k => matMulInner add mul z a b n p i k c) c

/-- Translation of `matrix_multiply`: zero-initialise the whole
destination slice (`for val in c.iter_mut() { *val = 0.0; }`), then the
three nested loops `i`, `k`, `j`. -/
def matrix_multiply {α : Type} (add mul : α → α → α) (z : α) (a b : ℕ → α)
    (m n p : ℕ) (c0 : List α) : List α :=
  (List.range m).foldl (fun c i => matMulRow add mul z a b n p i c)
    (c0.map (fun _ => z))

/-- The specified per-entry value: the sum over `k` of
`A[i*n+k] * B[k*p+j]`, accumulated in increasing `k` order starting
from the zero literal. -/
def matMulEntry {α : Type} (add mul : α → α → α) (z : α) (a b : ℕ → α)
    (n p i j : ℕ) : α :=
  (List.range n).foldl (fun acc k => add acc (mul (a (i * n + k)) (b (k * p + j)))) z

/-! ## Sobel edge detection (`image.rs`, `sobel_edge_detect`)

The source reads the red channel of a 3×3 neighbourhood, convolves the
two kernels in `i32`, and writes `sqrt(gx²+gy²)` into the RGB channels
and 255 into alpha of every interior pixel.  The RGBA buffer is a list
of bytes (naturals). -/

/-- Horizontal Sobel kernel, row-major, as in the source. -/
def sobelGx : List ℤ := [-1, 0, 1, -2, 0, 2, -1, 0, 1]

/-- Vertical Sobel kernel, row-major, as in the source. -/
def sobelGy : List ℤ := [-1, -2, -1, 0, 0, 0, 1, 2, 1]

/-- The two kernel accumulations `gx_sum`, `gy_sum` for pixel `(x, y)`:
the `for ky in 0..3 { for kx in 0..3 { … } }` loops (`i32` arithmetic;
the sums are bounded by 4·255 in magnitude so no wrap occurs and `ℤ` is
exact). -/
def sobelSums (src : List ℕ) (w x y : ℕ) : ℤ × ℤ :=
  (List.range 3).foldl (fun s ky => (List.range 3).foldl (fun s kx =>
    ((s.1 + (src.getD (((y + ky - 1) * w + (x + kx - 1)) * 4) 0 : ℕ)
        * sobelGx.getD (ky * 3 + kx) 0,
      s.2 + (src.getD (((y + ky - 1) * w + (x + kx - 1)) * 4) 0 : ℕ)
        * sobelGy.getD (ky * 3 + kx) 0) : ℤ × ℤ)) s) (0, 0)

/-- `((gx_sum*gx_sum + gy_sum*gy_sum) as f32).sqrt() as u8`.  The
operand is an integer of magnitude at most 2·(4·255)² = 2 080 800 < 2²⁴,
so the `as f32` conversion is exact; on that range the truncation of the
correctly rounded `f32` square root equals the integer square root
(the root is below 2¹¹, where the ulp is 2⁻¹³: round-to-nearest could
only cross the next integer `k+1` if the true root were within 2⁻¹⁴ of
it, which would force the integer operand up to `(k+1)²` itself), and
the `as u8` cast truncates saturating at 255. -/
def sobelMagnitude (src : List ℕ) (w x y : ℕ) : ℕ :=
  min 255 (Nat.sqrt ((sobelSums src w x y).1 * (sobelSums src w x y).1
    + (sobelSums src w x y).2 * (sobelSums src w x y).2).toNat)

/-- The four byte stores of one interior pixel: RGB to the magnitude,
alpha to 255. -/
def sobelWritePixel (src : List ℕ) (w : ℕ) (d : List ℕ) (x y : ℕ) : List ℕ :=
  ((((d.set ((y * w + x) * 4) (sobelMagnitude src w x y)).set
      ((y * w + x) * 4 + 1) (sobelMagnitude src w x y)).set
      ((y * w + x) * 4 + 2) (sobelMagnitude src w x y)).set
      ((y * w + x) * 4 + 3) 255)

/-- Translation of `sobel_edge_detect`: `for y in 1..(height-1) { for x
in 1..(width-1) { … } }` (`List.range' 1 (h-2)` enumerates exactly
`1, …, h-2`; for `h ≤ 1` the Rust range `1..(h-1)` is also empty — the
`h = 0` underflow of `height - 1` only concerns an image with an empty
pixel buffer). -/
def sobel_edge_detect (src dst : List ℕ) (w h : ℕ) : List ℕ :=
  (List.range' 1 (h - 2)).foldl
    (fun d y => (List.range' 1 (w - 2)).foldl
      (fun d x => sobelWritePixel src w d x y) d) dst

/-! ## Exact `f32` model

Every `f32` value reached by the image filters is zero or a normal
positive number between `2⁻³²` and `2³²` (the constants are near `0.1`,
the largest intermediate is a window sum below `2³²`), far from
overflow and from the subnormal range.  On that range IEEE-754
`binary32` arithmetic is: compute the exact rational result, then round
to the nearest number `m·2^(e-23)` (`2²³ ≤ m < 2²⁴`), ties to even.
The model represents values as exact rationals; `roundF32` implements
that rounding (the exponent search is a bounded scan, sufficient for
the stated range). -/

/-- Round a rational to the nearest integer, ties to the even one. -/
def rneInt (q : ℚ) : ℤ :=
  if q - ⌊q⌋ < 1 / 2 then ⌊q⌋
  else if 1 / 2 < q - ⌊q⌋ then ⌊q⌋ + 1
  else if 2 ∣ ⌊q⌋ then ⌊q⌋ else ⌊q⌋ + 1

/-- `⌊log₂ q⌋` for `2⁻³² ≤ q < 2³³`: the largest `e ∈ [-32, 32]` with
`2^e ≤ q` (the fold keeps the last satisfying element of the ascending
list). -/
def floorLog2Q (q : ℚ) : ℤ :=
  ((List.range 65).map (fun (i : ℕ) => (i : ℤ) - 32)).foldl
    (fun acc e => if (2 : ℚ) ^ e ≤ q then e else acc) (-32)

/-- Round a positive rational to 24 significand bits. -/
def roundPos (q : ℚ) : ℚ :=
  (rneInt (q * 2 ^ ((23 : ℤ) - floorLog2Q q)) : ℚ) * 2 ^ (floorLog2Q q - 23)

/-- IEEE-754 `binary32` rounding (round to nearest, ties to even) on
the zero/normal range described above. -/
def roundF32 (q : ℚ) : ℚ :=
  if q = 0 then 0 else if q < 0 then -roundPos (-q) else roundPos q

/-- `f32` addition: exact sum, then rounding. -/
def f32add (x y : ℚ) : ℚ := roundF32 (x + y)

/-- `f32` multiplication: exact product, then rounding. -/
def f32mul (x y : ℚ) : ℚ := roundF32 (x * y)

/-- `f32` division: exact quotient, then rounding. -/
def f32div (x y : ℚ) : ℚ := roundF32 (x / y)

/-- The `f32` literal `0.299`. -/
def c299 : ℚ := roundF32 (299 / 1000)

/-- The `f32` literal `0.587`. -/
def c587 : ℚ := roundF32 (587 / 1000)

/-- The `f32` literal `0.114`. -/
def c114 : ℚ := roundF32 (114 / 1000)

/-- `v as u8` for an `f32` value `v ≥ 0` (all casts here are): truncate
toward zero, saturating at 255. -/
def toU8 (q : ℚ) : ℕ := min 255 ⌊q⌋.toNat

/-- The luminance expression `0.299 * r + 0.587 * g + 0.114 * b` in
`f32` (left-associated, as parsed in Rust; the `u8 → f32` conversions
are exact). -/
def grayLum (r g b : ℕ) : ℚ :=
  f32add (f32add (f32mul c299 r) (f32mul c587 g)) (f32mul c114 b)

/-- `(0.299*r + 0.587*g + 0.114*b) as u8`, shared by `grayscale_rgba`
and `threshold`. -/
def grayPix (r g b : ℕ) : ℕ := toU8 (grayLum r g b)

/-! ## Statistics (`lib.rs`, `median_f32`) and partial sort
(`sorting.rs`, `partial_sort_smallest_k`)

`f32` elements are modelled as rationals: these routines only compare,
move and (for the even-length median) average two elements, and on the
NaN-free inputs of the claims the comparator
`a.partial_cmp(b).unwrap_or(Equal)` is the total order `≤`.  Rust's
`slice::sort_by` is the standard library's stable sort; it is modelled
by `List.mergeSort`, the stable merge sort. -/

/-- `slice.sort_by(|a, b| a.partial_cmp(b).unwrap_or(Equal))`. -/
def sortByLe (l : List ℚ) : List ℚ := l.mergeSort (fun a b => a ≤ b)

/-- Translation of `median_f32`: returns the scalar result (the `NaN`
sentinel for the empty slice is modelled as `none`) together with the
mutated buffer.  The even case computes
`(slice[len/2 - 1] + slice[len/2]) / 2.0` in `f32`: the sum is rounded
(`f32add`) before the division by the exact constant `2.0` rounds
again (`f32div`), so the returned scalar can differ from the exact
average of the two middle elements. -/
def median_f32 (l : List ℚ) : Option ℚ × List ℚ :=
  if l.length = 0 then (none, l)
  else if l.length % 2 = 0 then
    (some (f32div (f32add ((sortByLe l).getD (l.length / 2 - 1) 0)
      ((sortByLe l).getD (l.length / 2) 0)) 2), sortByLe l)
  else (some ((sortByLe l).getD (l.length / 2) 0), sortByLe l)

/-- The `while j > 0 && slice[j-1] > val { slice[j] = slice[j-1]; j -= 1 }
… slice[j] = val` insertion loop of `partial_sort_smallest_k`. -/
def insertShift (arr : List ℚ) (v : ℚ) (j : ℕ) : List ℚ :=
  if 0 < j ∧ v < arr.getD (j - 1) 0 then
    insertShift (arr.set j (arr.getD (j - 1) 0)) v (j - 1)
  else arr.set j v
termination_by j
decreasing_by omega

/-- The `for i in k..len` scan of `partial_sort_smallest_k`.  The body
evaluates `slice[i] < slice[k - 1]`; for `k = 0` the index `k - 1`
underflows `usize` (a panic in debug builds, a wrapped index far out of
bounds — hence an index panic — in release builds): the panic is
modelled as `none`. -/
def psLoop (arr : List ℚ) (k i : ℕ) : Option (List ℚ) :=
  if i < arr.length then
    if k = 0 then none
    else if arr.getD i 0 < arr.getD (k - 1) 0 then
      psLoop (insertShift arr (arr.getD i 0) (k - 1)) k (i + 1)
    else psLoop arr k (i + 1)
  else some arr
termination_by arr.length - i
decreasing_by
  · have hlen : ∀ (j : ℕ) (a : List ℚ) (v : ℚ), (insertShift a v j).length = a.length := by
      intro j
      induction j with
      | zero =>
        intro a v
        rw [insertShift]
        simp
      | succ n ih =>
        intro a v
        rw [insertShift]
        split
        · simpa using ih (a.set (n + 1) (a.getD n 0)) v
        · simp
    rw [hlen]
    omega
  · omega

/-- Translation of `partial_sort_smallest_k`: clamp `k` to the length,
stable-sort the first `k` elements, then scan the rest.  (The source
symbol name starts with a word this development cannot use for a Lean
name, hence `sortSmallestK`.) -/
def sortSmallestK (l : List ℚ) (k : ℕ) : Option (List ℚ) :=
  psLoop (sortByLe (l.take (min k l.length)) ++ l.drop (min k l.length))
    (min k l.length) (min k l.length)

/-- Functional model of one scan step of `partial_sort_smallest_k`: the
window of the `k` currently-smallest elements after seeing value `v`
(insert, keep the `k` smallest). -/
def stepK (k : ℕ) (w : List ℚ) (v : ℚ) : List ℚ :=
  (List.orderedInsert (· ≤ ·) v w).take k

/-! ## Quicksort (`sorting.rs`, `quicksort_f32`)

As for `median_f32`, the `f32` elements are modelled as rationals: the
sort only compares (`arr[j] <= pivot`, `arr[left] > arr[largest]`) and
moves elements, and on the NaN-free inputs of claim C1 the `f32`
comparisons are the total order on the represented values. -/

/-- The `for j in low..high { if arr[j] <= pivot { arr.swap(i, j); i += 1 } }`
scan of `partition`; returns the mutated slice and the final `i`. -/
def partitionLoop (arr : List ℚ) (pivot : ℚ) (high i j : ℕ) : List ℚ × ℕ :=
  if j < high then
    if arr.getD j 0 ≤ pivot then
      partitionLoop (swapL arr i j) pivot high (i + 1) (j + 1)
    else partitionLoop arr pivot high i (j + 1)
  else (arr, i)
termination_by high - j
decreasing_by all_goals omega

/-- `partition(arr, low, high)`: Lomuto partition with pivot `arr[high]`,
final `arr.swap(i, high)`, returning the slice and the pivot index. -/
def partition (arr : List ℚ) (low high : ℕ) : List ℚ × ℕ :=
  (swapL (partitionLoop arr (arr.getD high 0) high low low).1
      (partitionLoop arr (arr.getD high 0) high low low).2 high,
    (partitionLoop arr (arr.getD high 0) high low low).2)

/-- `quicksort_recursive(arr, low, high)`: recurse on `low..pivot-1`
(guarded by `pivot > 0` against `usize` underflow) and `pivot+1..high`. -/
def quicksortRec (arr : List ℚ) (low high : ℕ) : List ℚ :=
  if low < high then
    quicksortRec
      (if 0 < (partition arr low high).2 then
        quicksortRec (partition arr low high).1 low ((partition arr low high).2 - 1)
      else (partition arr low high).1)
      ((partition arr low high).2 + 1) high
  else arr
termination_by high - low
decreasing_by
all_goals
  have hb : ∀ (n : ℕ) (a : List ℚ) (pv : ℚ) (hg i j : ℕ), hg - j ≤ n → i ≤ j → j ≤ hg →
      i ≤ (partitionLoop a pv hg i j).2 ∧ (partitionLoop a pv hg i j).2 ≤ hg := by
    intro n
    induction n with
    | zero =>
      intro a pv hg i j h1 h2 h3
      rw [partitionLoop, if_neg (by omega)]
      exact ⟨le_rfl, h2.trans h3⟩
    | succ n ih =>
      intro a pv hg i j h1 h2 h3
      rw [partitionLoop]
      by_cases hj : j < hg
      · rw [if_pos hj]
        by_cases hle : a.getD j 0 ≤ pv
        · rw [if_pos hle]
          have h4 := ih (swapL a i j) pv hg (i + 1) (j + 1) (by omega) (by omega) (by omega)
          exact ⟨by omega, h4.2⟩
        · rw [if_neg hle]
          exact ih a pv hg i (j + 1) (by omega) (by omega) (by omega)
      · rw [if_neg hj]
        exact ⟨le_rfl, h2.trans h3⟩
  have hp := hb (high - low) arr (arr.getD high 0) high low low le_rfl le_rfl (by omega)
  simp only [partition]
  omega

/-- Entry point `quicksort_f32`: `quicksort_recursive(slice, 0,
slice.len().saturating_sub(1))`. -/
def quicksort_f32 (l : List ℚ) : List ℚ := quicksortRec l 0 (l.length - 1)

/-! ## Heapsort (`sorting.rs`, `heapsort_f32`) -/

/-- The `largest` computed by `heapify`: start at `i`, move to the left
child if `left < n && arr[left] > arr[largest]`, then to the right child
if `right < n && arr[right] > arr[largest]` (against the updated
`largest`). -/
def heapLargest (arr : List ℚ) (n i : ℕ) : ℕ :=
  if 2 * i + 2 < n ∧
      (arr.getD (if 2 * i + 1 < n ∧ arr.getD i 0 < arr.getD (2 * i + 1) 0
        then 2 * i + 1 else i) 0) < arr.getD (2 * i + 2) 0 then
    2 * i + 2
  else if 2 * i + 1 < n ∧ arr.getD i 0 < arr.getD (2 * i + 1) 0 then 2 * i + 1 else i

/-- `heapify(arr, n, i)`: sift the root `i` down the size-`n` max-heap,
swapping with the largest child while one exceeds it. -/
def heapify (arr : List ℚ) (n i : ℕ) : List ℚ :=
  if heapLargest arr n i ≠ i then
    heapify (swapL arr i (heapLargest arr n i)) n (heapLargest arr n i)
  else arr
termination_by n - i
decreasing_by
  have h : heapLargest arr n i ≠ i := by assumption
  have h2 : i < heapLargest arr n i ∧ heapLargest arr n i < n := by
    simp only [heapLargest] at h ⊢
    split_ifs at h ⊢ <;> omega
  omega

/-- `heapsort_f32`: build a max-heap (`for i in (0..len/2).rev()`), then
extract (`for i in (1..len).rev() { slice.swap(0, i); heapify(slice, i, 0) }`). -/
def heapsort_f32 (l : List ℚ) : List ℚ :=
  ((List.range' 1 (l.length - 1)).reverse.foldl (fun a i => heapify (swapL a 0 i) i 0)
    ((List.range (l.length / 2)).reverse.foldl (fun a i => heapify a l.length i) l))

/-- The max-heap property at node `j` of the size-`n` heap prefix: each
child in range is `≤` its parent (the invariant `heapify` establishes). -/
def heapCond (a : List ℚ) (n j : ℕ) : Prop :=
  (2 * j + 1 < n → a.getD (2 * j + 1) 0 ≤ a.getD j 0)
  ∧ (2 * j + 2 < n → a.getD (2 * j + 2) 0 ≤ a.getD j 0)

/-! ## Mergesort (`sorting.rs`, `mergesort_f32` / `merge`)

The code sorts `f32` values with the comparison `arr[i] <= arr[j]`.  To
state stability (claim C6) the translation is generic in the element
type `α` and sorts by a rational key `key : α → ℚ`, the comparison
being `key (arr[i]) ≤ key (arr[j])`; `mergesort_f32` is the instance
`α := ℚ`, `key := id`, which is the source code verbatim, and claim C6
instantiates records `α := ℚ × ℚ` keyed by the first component.
`d` is the `getD` default (the `f32` reads are all in bounds; the
default never surfaces). -/

/-- The `while i < mid { temp[k] = arr[i]; i += 1; k += 1 }` drain of
`merge`'s left run. -/
def mergeCopyLeft {α : Type} (arr : List α) (d : α) (mid : ℕ)
    (temp : List α) (i k : ℕ) : List α :=
  if i < mid then mergeCopyLeft arr d mid (temp.set k (arr.getD i d)) (i + 1) (k + 1)
  else temp
termination_by mid - i
decreasing_by omega

/-- The `while j < right { temp[k] = arr[j]; j += 1; k += 1 }` drain of
`merge`'s right run. -/
def mergeCopyRight {α : Type} (arr : List α) (d : α) (right : ℕ)
    (temp : List α) (j k : ℕ) : List α :=
  if j < right then mergeCopyRight arr d right (temp.set k (arr.getD j d)) (j + 1) (k + 1)
  else temp
termination_by right - j
decreasing_by omega

/-- The main `while i < mid && j < right` loop of `merge` followed by the
two drains; after the main loop, `k` has advanced by exactly the number
of consumed elements, so the first drain starts at `k` and the second at
`k + (mid - i)`. -/
def mergeLoop {α : Type} (key : α → ℚ) (arr : List α) (d : α) (mid right : ℕ)
    (temp : List α) (i j k : ℕ) : List α :=
  if i < mid ∧ j < right then
    if key (arr.getD i d) ≤ key (arr.getD j d) then
      mergeLoop key arr d mid right (temp.set k (arr.getD i d)) (i + 1) j (k + 1)
    else
      mergeLoop key arr d mid right (temp.set k (arr.getD j d)) i (j + 1) (k + 1)
  else
    mergeCopyRight arr d right (mergeCopyLeft arr d mid temp i k) j (k + (mid - i))
termination_by (mid - i) + (right - j)
decreasing_by all_goals omega

/-- `merge(arr, temp, left, mid, right)`: run the merge loops (with
`i = left`, `j = mid`, `k = left`), then
`arr[left..right].copy_from_slice(&temp[left..right])`; returns the new
`arr` and the new `temp`. -/
def merge {α : Type} (key : α → ℚ) (d : α) (arr temp : List α)
    (left mid right : ℕ) : List α × List α :=
  (arr.take left ++ seg (mergeLoop key arr d mid right temp left mid left) left right
      ++ arr.drop right,
    mergeLoop key arr d mid right temp left mid left)

/-- `mergesort_recursive(arr, temp, left, right)`: return at windows of
size `≤ 1`, otherwise split at `mid = left + (right - left) / 2`, sort
both halves and merge. -/
def mergesortRec {α : Type} (key : α → ℚ) (d : α) (arr temp : List α)
    (left right : ℕ) : List α × List α :=
  if right - left ≤ 1 then (arr, temp)
  else
    merge key d
      (mergesortRec key d
        (mergesortRec key d arr temp left (left + (right - left) / 2)).1
        (mergesortRec key d arr temp left (left + (right - left) / 2)).2
        (left + (right - left) / 2) right).1
      (mergesortRec key d
        (mergesortRec key d arr temp left (left + (right - left) / 2)).1
        (mergesortRec key d arr temp left (left + (right - left) / 2)).2
        (left + (right - left) / 2) right).2
      left (left + (right - left) / 2) right
termination_by right - left
decreasing_by all_goals omega

/-- Entry point `mergesort_f32`: allocate `temp = vec![0.0; len]` and
sort the whole window `0..len` (instance `α := ℚ`, `key := id` of the
generic translation — the source code verbatim). -/
def mergesort_f32 (l : List ℚ) : List ℚ :=
  (mergesortRec (fun a => a) 0 l (List.replicate l.length 0) 0 l.length).1

/-- The same mergesort run on keyed records `(key, payload)`, sorted by
the first component with the source's `<=` comparison — the "keyed
payload where keys tie" instance claim C6 speaks about. -/
def mergesortRecords (l : List (ℚ × ℚ)) : List (ℚ × ℚ) :=
  (mergesortRec Prod.fst (0, 0) l (List.replicate l.length (0, 0)) 0 l.length).1

/-- Functional model of the mergesort: split in half, recurse, and
`List.merge` with the same left-biased comparison.  `mergesortRec` is
proved to compute exactly this on its window. -/
def funMSort {α : Type} (key : α → ℚ) (l : List α) : List α :=
  if l.length ≤ 1 then l
  else
    List.merge (funMSort key (l.take (l.length / 2)))
      (funMSort key (l.drop (l.length / 2)))
      (fun a b => decide (key a ≤ key b))
termination_by l.length
decreasing_by
all_goals simp only [List.length_take, List.length_drop]; omega

/-! ## Radix sort (`sorting.rs`, `radixsort_i32` / `counting_sort_by_digit`)

`i32` values are modelled as integers (no intermediate here can reach
the `i32` limits for inputs away from `i32::MIN`, and the claims
quantify over mathematical integer contents); `/` and `%` on `i32`
truncate toward zero, i.e. `Int.tdiv` and `Int.tmod`. -/

/-- `((num / exp) % 10).abs() as usize`: the decimal-digit bucket of
`num` for the pass `exp`. -/
def digitOf (num exp : ℤ) : ℕ := ((num.tdiv exp).tmod 10).natAbs

/-- The `count` histogram after the first loop of
`counting_sort_by_digit` (`count[digit] += 1` per element), as a
function from bucket index to count. -/
def countDigits (arr : List ℤ) (exp : ℤ) : ℕ → ℕ :=
  arr.foldl (fun c num d => if d = digitOf num exp then c d + 1 else c d) (fun _ => 0)

/-- The `for i in 1..10 { count[i] += count[i - 1] }` prefix-sum pass. -/
def cumulative (c : ℕ → ℕ) : ℕ → ℕ :=
  (List.range' 1 9).foldl (fun c i d => if d = i then c i + c (i - 1) else c d) c

/-- One step of the reverse fill loop of `counting_sort_by_digit`:
`count[digit] -= 1; output[count[digit]] = num` (state: the `count`
function and the `output` buffer). -/
def fillLoop (exp : ℤ) (st : (ℕ → ℕ) × List ℤ) (num : ℤ) : (ℕ → ℕ) × List ℤ :=
  (fun d => if d = digitOf num exp then st.1 (digitOf num exp) - 1 else st.1 d,
    st.2.set (st.1 (digitOf num exp) - 1) num)

/-- `counting_sort_by_digit(arr, output, exp)`: histogram, prefix sums,
reverse fill, then `arr.copy_from_slice(output)` (callers always pass
buffers of equal length, so the copy is modelled by returning the
filled output as the new `arr`). -/
def counting_sort_by_digit (arr output : List ℤ) (exp : ℤ) : List ℤ :=
  (arr.reverse.foldl (fillLoop exp) (cumulative (countDigits arr exp), output)).2

/-- `slice.iter().map(|&x| x.abs()).max().unwrap_or(0)`: since every
`|x|` is `≥ 0`, folding `max` from `0` gives exactly the maximum of the
absolute values, and `0` for the empty slice. -/
def maxAbs (l : List ℤ) : ℤ := l.foldl (fun m x => max m |x|) 0

/-- The `while max_val / exp > 0 { counting_sort_by_digit(…); exp *= 10 }`
driver; `exp` is always the power `10^t` reached so far, and both the
slice and the scratch `output` hold the filled buffer after a pass. -/
def radixPasses (arr output : List ℤ) (maxVal : ℤ) (t : ℕ) : List ℤ :=
  if 0 < maxVal.tdiv (10 ^ t) then
    radixPasses (counting_sort_by_digit arr output (10 ^ t))
      (counting_sort_by_digit arr output (10 ^ t)) maxVal (t + 1)
  else arr
termination_by maxVal.toNat + 1 - 10 ^ t
decreasing_by
  have h : 0 < maxVal.tdiv (10 ^ t) := by assumption
  have hb : (0:ℤ) < 10 ^ t := by positivity
  have hmax : (10:ℤ) ^ t ≤ maxVal := by
    by_contra hlt
    push_neg at hlt
    rcases le_or_lt 0 maxVal with h0 | h0
    · have h1 : maxVal.tdiv (10 ^ t) = 0 := Int.tdiv_eq_zero_of_lt h0 hlt
      omega
    · have h1 : 0 ≤ (-maxVal).tdiv (10 ^ t) := Int.tdiv_nonneg (by omega) (le_of_lt hb)
      rw [Int.neg_tdiv] at h1
      omega
  have hc : ((10 ^ t : ℕ) : ℤ) = (10:ℤ) ^ t := by push_cast; ring
  have hd : ((10 ^ (t + 1) : ℕ) : ℤ) = (10:ℤ) ^ (t + 1) := by push_cast; ring
  have he : (10:ℤ) ^ (t + 1) = 10 * 10 ^ t := by ring
  have hf : (10:ℕ) ^ t < 10 ^ (t + 1) := by
    have := pow_lt_pow_right₀ (by norm_num : (1:ℕ) < 10) (Nat.lt_succ_self t)
    omega
  omega

/-- Entry point `radixsort_i32`: return on empty input, otherwise run the
digit passes starting at `exp = 1 = 10^0` with `output = vec![0; len]`. -/
def radixsort_i32 (l : List ℤ) : List ℤ :=
  if l.length = 0 then l
  else radixPasses l (List.replicate l.length 0) (maxAbs l) 0

/-! ## Per-pixel image transforms (`image.rs`) -/

/-- The pixel loop `for i in (0..len).step_by(4)` shared by the in-place
transforms: fold the per-pixel body over the start indices
`0, 4, 8, …`. -/
def pixLoop (body : List ℕ → ℕ → List ℕ) (len : ℕ) (px : List ℕ) : List ℕ :=
  ((List.range ((len + 3) / 4)).map (· * 4)).foldl body px

/-- Loop body of `grayscale_rgba`: read `r`, `g`, `b`, write the gray
level to all three colour channels, leave alpha alone. -/
def grayscaleBody (px : List ℕ) (i : ℕ) : List ℕ :=
  ((px.set i (grayPix (px.getD i 0) (px.getD (i + 1) 0) (px.getD (i + 2) 0))).set
    (i + 1) (grayPix (px.getD i 0) (px.getD (i + 1) 0) (px.getD (i + 2) 0))).set
    (i + 2) (grayPix (px.getD i 0) (px.getD (i + 1) 0) (px.getD (i + 2) 0))

/-- Translation of `grayscale_rgba` (`len = width * height * 4`). -/
def grayscale_rgba (px : List ℕ) (w h : ℕ) : List ℕ :=
  pixLoop grayscaleBody (w * h * 4) px

/-- One pixel of `threshold`: `if gray > threshold { 255 } else { 0 }`. -/
def threshPix (r g b t : ℕ) : ℕ := if t < grayPix r g b then 255 else 0

/-- Loop body of `threshold`. -/
def thresholdBody (t : ℕ) (px : List ℕ) (i : ℕ) : List ℕ :=
  ((px.set i (threshPix (px.getD i 0) (px.getD (i + 1) 0) (px.getD (i + 2) 0) t)).set
    (i + 1) (threshPix (px.getD i 0) (px.getD (i + 1) 0) (px.getD (i + 2) 0) t)).set
    (i + 2) (threshPix (px.getD i 0) (px.getD (i + 1) 0) (px.getD (i + 2) 0) t)

/-- Translation of `threshold`. -/
def threshold (px : List ℕ) (w h t : ℕ) : List ℕ :=
  pixLoop (thresholdBody t) (w * h * 4) px

/-- Loop body of `invert_colors`: `pixels[i+c] = 255 - pixels[i+c]` for
the three colour channels (`u8` subtraction, in range since bytes are
at most 255). -/
def invertBody (px : List ℕ) (i : ℕ) : List ℕ :=
  ((px.set i (255 - px.getD i 0)).set
    (i + 1) (255 - px.getD (i + 1) 0)).set
    (i + 2) (255 - px.getD (i + 2) 0)

/-- Translation of `invert_colors`. -/
def invert_colors (px : List ℕ) (w h : ℕ) : List ℕ :=
  pixLoop invertBody (w * h * 4) px

/-! ## Box blur (`image.rs`, `box_blur`)

The four channel sums are `u32` accumulators (wrapping modulo `2³²` as
in release builds), the window coordinates are `i32` clamped to the
image bounds, and each output byte is `(sum as f32 / area) as u8` with
`area = (diameter * diameter) as f32`.  (`usize`/`i32` conversions are
exact for the image sizes and radii considered, all far below `2³¹`.) -/

/-- Rust's `v.clamp(lo, hi)` on `i32` (for `lo ≤ hi`). -/
def clampI (v lo hi : ℤ) : ℤ := min (max v lo) hi

/-- One window position: add the four channel bytes of the clamped
neighbour pixel into the `u32` sums. -/
def blurAdd (src : List ℕ) (w h radius x y : ℕ) (s : ℕ × ℕ × ℕ × ℕ)
    (dyi dxi : ℕ) : ℕ × ℕ × ℕ × ℕ :=
  ((s.1 + src.getD (((clampI ((y : ℤ) + ((dyi : ℤ) - radius)) 0 ((h : ℤ) - 1)).toNat * w
      + (clampI ((x : ℤ) + ((dxi : ℤ) - radius)) 0 ((w : ℤ) - 1)).toNat) * 4) 0) % 2 ^ 32,
   (s.2.1 + src.getD (((clampI ((y : ℤ) + ((dyi : ℤ) - radius)) 0 ((h : ℤ) - 1)).toNat * w
      + (clampI ((x : ℤ) + ((dxi : ℤ) - radius)) 0 ((w : ℤ) - 1)).toNat) * 4 + 1) 0) % 2 ^ 32,
   (s.2.2.1 + src.getD (((clampI ((y : ℤ) + ((dyi : ℤ) - radius)) 0 ((h : ℤ) - 1)).toNat * w
      + (clampI ((x : ℤ) + ((dxi : ℤ) - radius)) 0 ((w : ℤ) - 1)).toNat) * 4 + 2) 0) % 2 ^ 32,
   (s.2.2.2 + src.getD (((clampI ((y : ℤ) + ((dyi : ℤ) - radius)) 0 ((h : ℤ) - 1)).toNat * w
      + (clampI ((x : ℤ) + ((dxi : ℤ) - radius)) 0 ((w : ℤ) - 1)).toNat) * 4 + 3) 0) % 2 ^ 32)

/-- The `for dy in -(radius)..=(radius) { for dx in … }` window loops
(`List.range (2*radius+1)` with offset `- radius` enumerates the
inclusive `i32` range). -/
def blurSums (src : List ℕ) (w h radius x y : ℕ) : ℕ × ℕ × ℕ × ℕ :=
  (List.range (2 * radius + 1)).foldl (fun s dyi =>
    (List.range (2 * radius + 1)).foldl
      (fun s dxi => blurAdd src w h radius x y s dyi dxi) s)
    (0, 0, 0, 0)

/-- `let area = (diameter * diameter) as f32`. -/
def blurArea (radius : ℕ) : ℚ :=
  roundF32 (((2 * radius + 1) * (2 * radius + 1) : ℕ) : ℚ)

/-- The four byte stores of one blurred pixel:
`dst[idx+c] = (c_sum as f32 / area) as u8`. -/
def blurWritePixel (src : List ℕ) (w h radius : ℕ) (d : List ℕ) (x y : ℕ) : List ℕ :=
  (((d.set ((y * w + x) * 4)
      (toU8 (f32div (roundF32 ((blurSums src w h radius x y).1 : ℚ)) (blurArea radius)))).set
    ((y * w + x) * 4 + 1)
      (toU8 (f32div (roundF32 ((blurSums src w h radius x y).2.1 : ℚ)) (blurArea radius)))).set
    ((y * w + x) * 4 + 2)
      (toU8 (f32div (roundF32 ((blurSums src w h radius x y).2.2.1 : ℚ)) (blurArea radius)))).set
    ((y * w + x) * 4 + 3)
      (toU8 (f32div (roundF32 ((blurSums src w h radius x y).2.2.2 : ℚ)) (blurArea radius)))

/-- Translation of `box_blur`: the `for y in 0..height { for x in
0..width { … } }` loops writing every pixel of the destination. -/
def box_blur (src dst : List ℕ) (w h radius : ℕ) : List ℕ :=
  (List.range h).foldl (fun d y => (List.range w).foldl
    (fun d x => blurWritePixel src w h radius d x y) d) dst

end Elide

namespace Elide

/-! ## Toolkit lemmas -/

theorem getD_set {α : Type} (l : List α) (i j : ℕ) (a d : α) :
    (l.set i a).getD j d = if i = j ∧ i < l.length then a else l.getD j d := by
  simp only [List.getD_eq_getElem?_getD, List.getElem?_set]
  by_cases h1 : i = j
  · subst h1
    by_cases h2 : i < l.length <;>
      simp [h2, List.getElem?_eq_none, Nat.le_of_not_lt]
  · simp [h1]

theorem getD_set_self {α : Type} (l : List α) (i : ℕ) (a d : α)
    (h : i < l.length) : (l.set i a).getD i d = a := by
  simp [getD_set, h]

theorem getD_set_ne {α : Type} (l : List α) (i j : ℕ) (a d : α)
    (h : i ≠ j) : (l.set i a).getD j d = l.getD j d := by
  simp [getD_set, h]

theorem getD_map_const {α : Type} (l : List α) (z d : α) (i : ℕ)
    (h : i < l.length) : (l.map (fun _ => z)).getD i d = z := by
  simp [List.getD_eq_getElem?_getD, List.getElem?_map, List.getElem?_eq_getElem h,
    List.getElem?_replicate, h]

/-- Row-major index arithmetic: entries of distinct rows have distinct
flat indices. -/
theorem rowIdx_ne {i i' j j' p : ℕ} (hj : j < p) (hj' : j' < p)
    (h : i ≠ i') : i * p + j ≠ i' * p + j' := by
  rcases Nat.lt_or_ge i i' with h1 | h1
  · have : i * p + j < i' * p + j' := by
      calc i * p + j < i * p + p := by omega
      _ = (i + 1) * p := by ring
      _ ≤ i' * p := Nat.mul_le_mul_right p h1
      _ ≤ i' * p + j' := Nat.le_add_right _ _
    omega
  · have h2 : i' < i := by omega
    have : i' * p + j' < i * p + j := by
      calc i' * p + j' < i' * p + p := by omega
      _ = (i' + 1) * p := by ring
      _ ≤ i * p := Nat.mul_le_mul_right p h2
      _ ≤ i * p + j := Nat.le_add_right _ _
    omega

/-! ## Matrix multiply (claim C5) -/

theorem matMulInnerAux {α : Type} (add mul : α → α → α) (z : α) (a b : ℕ → α)
    (n p i k : ℕ) (c : List α) (hc : i * p + p ≤ c.length) (t : ℕ) (ht : t ≤ p) :
    ((List.range t).foldl (matMulUpd add mul z a b n p i k) c).length = c.length ∧
    (∀ q : ℕ, (∀ j : ℕ, j < t → q ≠ i * p + j) →
      ((List.range t).foldl (matMulUpd add mul z a b n p i k) c).getD q z = c.getD q z) ∧
    (∀ j : ℕ, j < t →
      ((List.range t).foldl (matMulUpd add mul z a b n p i k) c).getD (i * p + j) z
        = add (c.getD (i * p + j) z) (mul (a (i * n + k)) (b (k * p + j)))) := by
  induction t with
  | zero => simp
  | succ t ih =>
    obtain ⟨ihl, ihq, ihw⟩ := ih (Nat.le_of_succ_le ht)
    rw [List.range_succ, List.foldl_append]
    simp only [List.foldl_cons, List.foldl_nil]
    set F := (List.range t).foldl (matMulUpd add mul z a b n p i k) c with hF
    have hFt : F.getD (i * p + t) z = c.getD (i * p + t) z := by
      refine ihq _ (fun j hj => ?_)
      have : j ≠ t := by omega
      omega
    have hlen : (matMulUpd add mul z a b n p i k F t).length = F.length := by
      simp [matMulUpd]
    refine ⟨by rw [hlen, ihl], ?_, ?_⟩
    · intro q hq
      have hqt : q ≠ i * p + t := hq t (Nat.lt_succ_self t)
      rw [matMulUpd, getD_set_ne _ _ _ _ _ (fun h => hqt h.symm)]
      exact ihq q (fun j hj => hq j (Nat.lt_succ_of_lt hj))
    · intro j hj
      rcases Nat.lt_or_ge j t with hjt | hjt
      · have hne : i * p + t ≠ i * p + j := by omega
        rw [matMulUpd, getD_set_ne _ _ _ _ _ hne]
        exact ihw j hjt
      · have hjeq : j = t := by omega
        subst hjeq
        have hb : i * p + j < F.length := by
          rw [ihl]; omega
        rw [matMulUpd, getD_set_self _ _ _ _ hb, hFt]

theorem matMulInner_getD {α : Type} (add mul : α → α → α) (z : α) (a b : ℕ → α)
    (n p i k : ℕ) (c : List α) (hc : i * p + p ≤ c.length) :
    (matMulInner add mul z a b n p i k c).length = c.length ∧
    (∀ q : ℕ, (∀ j : ℕ, j < p → q ≠ i * p + j) →
      (matMulInner add mul z a b n p i k c).getD q z = c.getD q z) ∧
    (∀ j : ℕ, j < p →
      (matMulInner add mul z a b n p i k c).getD (i * p + j) z
        = add (c.getD (i * p + j) z) (mul (a (i * n + k)) (b (k * p + j)))) :=
  matMulInnerAux add mul z a b n p i k c hc p le_rfl

theorem matMulRowAux {α : Type} (add mul : α → α → α) (z : α) (a b : ℕ → α)
    (n p i : ℕ) (c : List α) (hc : i * p + p ≤ c.length) (s : ℕ) :
    ((List.range s).foldl (fun c k => matMulInner add mul z a b n p i k c) c).length
      = c.length ∧
    (∀ q : ℕ, (∀ j : ℕ, j < p → q ≠ i * p + j) →
      ((List.range s).foldl (fun c k => matMulInner add mul z a b n p i k c) c).getD q z
        = c.getD q z) ∧
    (∀ j : ℕ, j < p →
      ((List.range s).foldl (fun c k => matMulInner add mul z a b n p i k c) c).getD
          (i * p + j) z
        = (List.range s).foldl
            (fun acc k => add acc (mul (a (i * n + k)) (b (k * p + j))))
            (c.getD (i * p + j) z)) := by
  induction s with
  | zero => simp
  | succ s ih =>
    obtain ⟨ihl, ihq, ihw⟩ := ih
    rw [List.range_succ, List.foldl_append]
    simp only [List.foldl_cons, List.foldl_nil]
    set F := (List.range s).foldl (fun c k => matMulInner add mul z a b n p i k c) c
      with hF
    have hcF : i * p + p ≤ F.length := by rw [ihl]; exact hc
    obtain ⟨jl, jq, jw⟩ := matMulInner_getD add mul z a b n p i s F hcF
    refine ⟨by rw [jl, ihl], ?_, ?_⟩
    · intro q hq
      rw [jq q hq]; exact ihq q hq
    · intro j hj
      simp only [List.foldl_append, List.foldl_cons, List.foldl_nil]
      rw [jw j hj, ihw j hj]

theorem matrix_multiply_entry {α : Type} (add mul : α → α → α) (z : α)
    (a b : ℕ → α) (m n p : ℕ) (c0 : List α) (h0 : c0.length = m * p) (r : ℕ)
    (hr : r ≤ m) :
    ((List.range r).foldl (fun c i => matMulRow add mul z a b n p i c)
        (c0.map (fun _ => z))).length = m * p ∧
    (∀ i j : ℕ, i < r → j < p →
      ((List.range r).foldl (fun c i => matMulRow add mul z a b n p i c)
          (c0.map (fun _ => z))).getD (i * p + j) z
        = matMulEntry add mul z a b n p i j) ∧
    (∀ i j : ℕ, r ≤ i → i < m → j < p →
      ((List.range r).foldl (fun c i => matMulRow add mul z a b n p i c)
          (c0.map (fun _ => z))).getD (i * p + j) z = z) := by
  induction r with
  | zero =>
    refine ⟨by simp [h0], by simp, ?_⟩
    intro i j _ hi hj
    simp only [List.range_zero, List.foldl_nil]
    have hb : i * p + j < c0.length := by
      rw [h0]
      calc i * p + j < i * p + p := by omega
      _ = (i + 1) * p := by ring
      _ ≤ m * p := Nat.mul_le_mul_right p hi
    exact getD_map_const c0 z z _ hb
  | succ r ih =>
    have hrm : r < m := hr
    obtain ⟨ihl, ihw, ihz⟩ := ih (Nat.le_of_succ_le hr)
    rw [List.range_succ, List.foldl_append]
    simp only [List.foldl_cons, List.foldl_nil]
    set F := (List.range r).foldl (fun c i => matMulRow add mul z a b n p i c)
      (c0.map (fun _ => z)) with hFdef
    have hcF : r * p + p ≤ F.length := by
      rw [ihl]
      calc r * p + p = (r + 1) * p := by ring
      _ ≤ m * p := Nat.mul_le_mul_right p hrm
    obtain ⟨rl, rq, rw'⟩ := matMulRowAux add mul z a b n p r F hcF n
    rw [matMulRow] at *
    refine ⟨by rw [rl, ihl], ?_, ?_⟩
    · intro i j hi hj
      rcases Nat.lt_or_ge i r with hir | hir
      · have hq : ∀ j' : ℕ, j' < p → i * p + j ≠ r * p + j' := by
          intro j' hj'
          exact rowIdx_ne hj hj' (by omega)
        rw [rq _ hq]
        exact ihw i j hir hj
      · have hieq : i = r := by omega
        subst hieq
        rw [rw' j hj, ihz i j le_rfl hrm hj]
        rfl
    · intro i j hi him hj
      have hq : ∀ j' : ℕ, j' < p → i * p + j ≠ r * p + j' := by
        intro j' hj'
        exact rowIdx_ne hj hj' (by omega)
      rw [rq _ hq]
      exact ihz i j (by omega) him hj

/-- C5: `matrix_multiply` zero-initialises the destination and stores
`C[i*p+j] = Σₖ A[i*n+k]·B[k*p+j]` accumulated in increasing `k` order,
for every prior destination content; concretely
`[[1,2],[3,4]] * [[5,6],[7,8]] = [[19,22],[43,50]]`. -/
theorem c5_matrix_multiply_correct {α : Type} (add mul : α → α → α) (z : α)
    (a b : ℕ → α) (m n p : ℕ) (c0 : List α) (h0 : c0.length = m * p) :
    ((matrix_multiply add mul z a b m n p c0).length = m * p ∧
      ∀ i j : ℕ, i < m → j < p →
        (matrix_multiply add mul z a b m n p c0).getD (i * p + j) z
          = matMulEntry add mul z a b n p i j) ∧
    matrix_multiply (α := ℤ) (· + ·) (· * ·) 0
        (fun idx => [1, 2, 3, 4].getD idx 0) (fun idx => [5, 6, 7, 8].getD idx 0)
        2 2 2 [9, 9, 9, 9] = [19, 22, 43, 50] := by
  obtain ⟨hl, hw, _⟩ := matrix_multiply_entry add mul z a b m n p c0 h0 m le_rfl
  exact ⟨⟨hl, fun i j hi hj => hw i j hi hj⟩, by decide⟩

/-! ## Sobel border bytes (claim C9) -/

theorem foldl_getD_invariant {β : Type} (f : List ℕ → β → List ℕ) (l : List β)
    (q : ℕ) (h : ∀ d b, b ∈ l → (f d b).getD q 0 = d.getD q 0) :
    ∀ d : List ℕ, (l.foldl f d).getD q 0 = d.getD q 0 := by
  induction l with
  | nil => intro d; rfl
  | cons b l ih =>
    intro d
    rw [List.foldl_cons, ih (fun d b' hb' => h d b' (List.mem_cons_of_mem b hb')),
      h d b (List.mem_cons_self b l)]

/-- The flat pixel index of a border pixel differs from that of every
interior pixel. -/
theorem borderPix_ne_interiorPix {w h x y x' y' : ℕ}
    (hx : x < w) (hy : y < h)
    (hb : x = 0 ∨ x = w - 1 ∨ y = 0 ∨ y = h - 1)
    (hx1 : 1 ≤ x') (hx2 : x' < w - 1) (hy1 : 1 ≤ y') (hy2 : y' < h - 1) :
    y' * w + x' ≠ y * w + x := by
  intro hAB
  have hx'w : x' < w := by omega
  rcases eq_or_ne y' y with hyy | hyy
  · subst hyy
    have hxx : x' = x := Nat.add_left_cancel hAB
    omega
  · exact absurd hAB (rowIdx_ne hx'w hx hyy)

/-- C9: `sobel_edge_detect` writes only interior pixels; every byte of
the 1-pixel border of the destination keeps exactly its prior value. -/
theorem c9_sobel_border_untouched (src dst : List ℕ) (w h x y c : ℕ)
    (hx : x < w) (hy : y < h) (hc : c < 4)
    (hb : x = 0 ∨ x = w - 1 ∨ y = 0 ∨ y = h - 1) :
    (sobel_edge_detect src dst w h).getD ((y * w + x) * 4 + c) 0
      = dst.getD ((y * w + x) * 4 + c) 0 := by
  rw [sobel_edge_detect]
  refine foldl_getD_invariant _ _ _ ?_ dst
  intro d y' hy'
  obtain ⟨hy1, hy2⟩ := List.mem_range'_1.mp hy'
  refine foldl_getD_invariant _ _ _ ?_ d
  intro d2 x' hx'
  obtain ⟨hx1, hx2⟩ := List.mem_range'_1.mp hx'
  have hpix : y' * w + x' ≠ y * w + x :=
    borderPix_ne_interiorPix hx hy hb hx1 (by omega) hy1 (by omega)
  rw [sobelWritePixel]
  have hbyte : ∀ c' : ℕ, c' < 4 → (y' * w + x') * 4 + c' ≠ (y * w + x) * 4 + c := by
    intro c' hc'
    set A := y' * w + x' with hA
    set B := y * w + x with hB
    omega
  have hbyte0 : (y' * w + x') * 4 ≠ (y * w + x) * 4 + c := by
    have := hbyte 0 (by omega)
    omega
  rw [getD_set_ne _ _ _ _ _ (hbyte 3 (by omega)), getD_set_ne _ _ _ _ _ (hbyte 2 (by omega)),
    getD_set_ne _ _ _ _ _ (hbyte 1 (by omega)), getD_set_ne _ _ _ _ _ hbyte0]

/-- Witness for C9 at a concrete image: 3×3 image, corner byte 0. -/
theorem c9_sobel_border_untouched_witness :
    (sobel_edge_detect (List.replicate 36 9)
        ((List.range 36).map (fun i => i + 1)) 3 3).getD ((0 * 3 + 0) * 4 + 0) 0
      = ((List.range 36).map (fun i => i + 1)).getD ((0 * 3 + 0) * 4 + 0) 0 :=
  c9_sobel_border_untouched _ _ 3 3 0 0 0 (by decide) (by decide) (by decide)
    (Or.inl rfl)

/-! ## Median (claim C10) and partial sort panic (claim C3) -/

theorem sortByLe_sorted (l : List ℚ) : (sortByLe l).Sorted (· ≤ ·) := by
  have h := @List.sorted_mergeSort ℚ (fun a b : ℚ => decide (a ≤ b))
    (fun a b c hab hbc => by
      simp only [decide_eq_true_eq] at *
      exact le_trans hab hbc)
    (fun a b => by simp [le_total]) l
  exact h.imp (fun {x y} h => by simpa using h)

theorem sortByLe_perm (l : List ℚ) : (sortByLe l).Perm l :=
  List.mergeSort_perm l _

theorem sortByLe_length (l : List ℚ) : (sortByLe l).length = l.length :=
  (sortByLe_perm l).length_eq

/-- C10 (amended): `median_f32` sorts its buffer in place (a
non-decreasing permutation of the input) and returns the middle element
for odd length; for even length it returns the `f32` average of the two
middle elements of the sorted buffer — the rounded `f32` sum divided by
`2.0` with another rounding — which can differ from their exact
average. -/
theorem c10_median_mutates_and_selects (l : List ℚ) (h : l ≠ []) :
    (median_f32 l).2.Sorted (· ≤ ·) ∧ (median_f32 l).2.Perm l ∧
    (median_f32 l).1 = some (if l.length % 2 = 0 then
        f32div (f32add ((median_f32 l).2.getD (l.length / 2 - 1) 0)
          ((median_f32 l).2.getD (l.length / 2) 0)) 2
      else (median_f32 l).2.getD (l.length / 2) 0) := by
  have hl : l.length ≠ 0 := by simpa [List.length_eq_zero] using h
  by_cases hp : l.length % 2 = 0 <;>
    simp [median_f32, hl, hp, sortByLe_sorted, sortByLe_perm]

/-- Witness for C10 on `[3, 1, 2]`. -/
theorem c10_median_mutates_and_selects_witness :
    (median_f32 [3, 1, 2]).2.Sorted (· ≤ ·) ∧ (median_f32 [3, 1, 2]).2.Perm [3, 1, 2] ∧
    (median_f32 [3, 1, 2]).1 = some (if ([3, 1, 2] : List ℚ).length % 2 = 0 then
        f32div (f32add ((median_f32 [3, 1, 2]).2.getD (([3, 1, 2] : List ℚ).length / 2 - 1) 0)
          ((median_f32 [3, 1, 2]).2.getD (([3, 1, 2] : List ℚ).length / 2) 0)) 2
      else (median_f32 [3, 1, 2]).2.getD (([3, 1, 2] : List ℚ).length / 2) 0) :=
  c10_median_mutates_and_selects [3, 1, 2] (by simp)

/-- C3 (failing input): `partial_sort_smallest_k` with `k = 0` on any
non-empty slice evaluates `slice[k - 1]`, whose index computation
underflows `usize`, and panics — it does not behave as a no-op. -/
theorem c3_smallest_k_panics_on_k0 : sortSmallestK [1] 0 = none := by
  rw [sortSmallestK]
  norm_num [List.mergeSort, sortByLe]
  rw [psLoop]
  norm_num

/-! ## Partial sort window invariant (claim C4) -/

theorem take_set_of_le {α : Type} (l : List α) (m t : ℕ) (x : α) (h : t ≤ m) :
    (l.set m x).take t = l.take t := by
  apply List.ext_getElem?
  intro n
  simp only [List.getElem?_take, List.getElem?_set]
  by_cases hn : n < t
  · have : m ≠ n := by omega
    simp [hn, this]
  · simp [hn]

theorem orderedInsert_append_singleton (S : List ℚ) (v b : ℚ) (h : v ≤ b) :
    List.orderedInsert (· ≤ ·) v (S ++ [b])
      = List.orderedInsert (· ≤ ·) v S ++ [b] := by
  induction S with
  | nil => simp [List.orderedInsert, h]
  | cons x S ih =>
    simp only [List.cons_append, List.orderedInsert]
    by_cases hvx : v ≤ x
    · simp [hvx]
    · simp [hvx, ih]

theorem orderedInsert_of_forall_le (S : List ℚ) (v : ℚ)
    (hs : S.Sorted (· ≤ ·)) (h : ∀ x ∈ S, x ≤ v) :
    List.orderedInsert (· ≤ ·) v S = S ++ [v] := by
  refine List.eq_of_perm_of_sorted ?_ (List.Sorted.orderedInsert v S hs) ?_
  · exact (List.perm_orderedInsert _ v S).trans (List.perm_append_singleton v S).symm
  · rw [List.Sorted, List.pairwise_append]
    exact ⟨hs, List.pairwise_singleton _ _, fun a ha b hb => by
      rw [List.mem_singleton] at hb
      rw [hb]
      exact h a ha⟩

theorem take_cons_take (x : ℚ) (S : List ℚ) (t : ℕ) :
    (x :: S.take t).take t = (x :: S).take t := by
  match t with
  | 0 => rfl
  | u + 1 =>
    rw [List.take_succ_cons, List.take_succ_cons, List.take_take,
      Nat.min_eq_left (Nat.le_succ u)]

theorem take_orderedInsert_take (v : ℚ) (S : List ℚ) :
    ∀ k : ℕ, (List.orderedInsert (· ≤ ·) v (S.take k)).take k
      = (List.orderedInsert (· ≤ ·) v S).take k := by
  induction S with
  | nil => intro k; simp
  | cons x S ih =>
    intro k
    match k with
    | 0 => simp
    | t + 1 =>
      rw [show (x :: S).take (t + 1) = x :: S.take t from List.take_succ_cons]
      simp only [List.orderedInsert]
      by_cases hvx : v ≤ x
      · simp only [hvx, if_true]
        rw [List.take_succ_cons, List.take_succ_cons]
        congr 1
        exact take_cons_take x S t
      · simp only [hvx, if_false]
        rw [List.take_succ_cons, List.take_succ_cons]
        congr 1
        exact ih t

theorem window_concat_last (W : List ℚ) (k : ℕ) (hW : W.length = k)
    (hk : 1 ≤ k) : W = W.take (k - 1) ++ [W.getD (k - 1) 0] := by
  have hlt : k - 1 < W.length := by omega
  conv_lhs => rw [← List.take_append_drop (k - 1) W]
  congr 1
  rw [List.drop_eq_getElem_cons hlt, List.drop_eq_nil_of_le (by omega)]
  simp [List.getD_eq_getElem?_getD, List.getElem?_eq_getElem hlt]

theorem sorted_take_of_sorted_take_succ {arr : List ℚ} {j : ℕ}
    (h : (arr.take (j + 1)).Sorted (· ≤ ·)) (t : ℕ) (ht : t ≤ j + 1) :
    (arr.take t).Sorted (· ≤ ·) := by
  have hsub : (arr.take t).Sublist (arr.take (j + 1)) := by
    rw [← Nat.min_eq_left ht, ← List.take_take]
    exact List.take_sublist t _
  exact List.Pairwise.sublist hsub h

theorem forall_take_le {arr : List ℚ} {j : ℕ} (hj : j < arr.length)
    (hs : (arr.take (j + 1)).Sorted (· ≤ ·)) (v : ℚ)
    (hg : arr.getD j 0 ≤ v) : ∀ x ∈ arr.take (j + 1), x ≤ v := by
  have hdecomp : arr.take (j + 1) = arr.take j ++ [arr.getD j 0] := by
    rw [List.take_succ, List.getElem?_eq_getElem hj]
    simp [List.getD_eq_getElem?_getD, List.getElem?_eq_getElem hj]
  intro x hx
  rw [hdecomp] at hs hx
  rw [List.Sorted, List.pairwise_append] at hs
  rcases List.mem_append.mp hx with hx1 | hx1
  · exact le_trans (hs.2.2 x hx1 _ (List.mem_singleton_self _)) hg
  · rw [List.mem_singleton] at hx1
    rw [hx1]
    exact hg

/-- `insertShift` with a sorted first `j+1` segment computes the ordered
insertion of `v` into the first `j` elements (the value at position `j`
is shifted out or overwritten), leaving the rest of the list alone. -/
theorem ins_spec : ∀ (j : ℕ) (arr : List ℚ) (v : ℚ), j < arr.length →
    (arr.take (j + 1)).Sorted (· ≤ ·) →
    insertShift arr v j
      = List.orderedInsert (· ≤ ·) v (arr.take j) ++ arr.drop (j + 1) := by
  intro j
  induction j with
  | zero =>
    intro arr v hlt _
    rw [insertShift]
    simp only [Nat.lt_irrefl, false_and, if_false]
    rw [List.set_eq_take_append_cons_drop]
    simp [hlt]
  | succ j ih =>
    intro arr v hlt hs
    have hjlt : j < arr.length := by omega
    have htake : arr.take (j + 1 + 1) = arr.take (j + 1) ++ [arr.getD (j + 1) 0] := by
      rw [List.take_succ, List.getElem?_eq_getElem hlt]
      simp [List.getD_eq_getElem?_getD, List.getElem?_eq_getElem hlt]
    have htakej : arr.take (j + 1) = arr.take j ++ [arr.getD j 0] := by
      rw [List.take_succ, List.getElem?_eq_getElem hjlt]
      simp [List.getD_eq_getElem?_getD, List.getElem?_eq_getElem hjlt]
    rw [insertShift]
    by_cases hv : v < arr.getD (j + 1 - 1) 0
    · simp only [Nat.succ_sub_one] at hv ⊢
      rw [if_pos ⟨Nat.succ_pos j, hv⟩]
      set g := arr.getD j 0 with hg
      have harr2 : j < (arr.set (j + 1) g).length := by
        simp [hjlt]
      have hs2 : ((arr.set (j + 1) g).take (j + 1)).Sorted (· ≤ ·) := by
        rw [take_set_of_le _ _ _ _ le_rfl]
        exact sorted_take_of_sorted_take_succ hs (j + 1) (Nat.le_succ _)
      rw [ih (arr.set (j + 1) g) v harr2 hs2]
      have ht2 : (arr.set (j + 1) g).take j = arr.take j :=
        take_set_of_le _ _ _ _ (Nat.le_succ j)
      have hd2 : (arr.set (j + 1) g).drop (j + 1) = g :: arr.drop (j + 2) := by
        rw [List.set_eq_take_append_cons_drop]
        simp only [hlt, if_true]
        rw [List.drop_append_eq_append_drop]
        simp [List.length_take, Nat.min_eq_left (Nat.le_of_lt hlt)]
      rw [ht2, hd2, htakej, orderedInsert_append_singleton _ _ _ (le_of_lt hv)]
      simp [List.append_assoc]
    · simp only [Nat.succ_sub_one] at hv ⊢
      rw [if_neg (by intro hcon; exact hv hcon.2)]
      have hvge : arr.getD j 0 ≤ v := le_of_not_lt hv
      have hall : ∀ x ∈ arr.take (j + 1), x ≤ v :=
        forall_take_le hjlt (sorted_take_of_sorted_take_succ hs (j + 1) (Nat.le_succ _)) v hvge
      rw [List.set_eq_take_append_cons_drop]
      simp only [hlt, if_true]
      rw [orderedInsert_of_forall_le _ _
        (sorted_take_of_sorted_take_succ hs (j + 1) (Nat.le_succ _)) hall]
      simp

theorem stepK_length (k : ℕ) (w : List ℚ) (v : ℚ) (hW : w.length = k) :
    (stepK k w v).length = k := by
  rw [stepK, List.length_take, List.orderedInsert_length]
  omega

theorem stepK_eq_insert_front (k : ℕ) (W : List ℚ) (v : ℚ) (hW : W.length = k)
    (hk : 1 ≤ k) (hv : v < W.getD (k - 1) 0) :
    stepK k W v = List.orderedInsert (· ≤ ·) v (W.take (k - 1)) := by
  rw [stepK]
  conv_lhs => rw [window_concat_last W k hW hk]
  rw [orderedInsert_append_singleton _ _ _ (le_of_lt hv)]
  have hlen : (List.orderedInsert (· ≤ ·) v (W.take (k - 1))).length = k := by
    rw [List.orderedInsert_length, List.length_take]
    omega
  exact List.take_left' hlen

theorem stepK_eq_self (k : ℕ) (W : List ℚ) (v : ℚ) (hW : W.length = k)
    (hk : 1 ≤ k) (hs : W.Sorted (· ≤ ·)) (hv : W.getD (k - 1) 0 ≤ v) :
    stepK k W v = W := by
  have hWtake : W.take (k - 1 + 1) = W := List.take_of_length_le (by omega)
  have hall : ∀ x ∈ W, x ≤ v := by
    have := @forall_take_le W (k - 1) (by omega)
      (by rw [hWtake]; exact hs) v hv
    rw [hWtake] at this
    exact this
  rw [stepK, orderedInsert_of_forall_le _ _ hs hall, ← hW, List.take_left]

theorem sorted_take (l : List ℚ) (t : ℕ) (h : l.Sorted (· ≤ ·)) :
    (l.take t).Sorted (· ≤ ·) :=
  List.Pairwise.sublist (List.take_sublist t l) h

/-- The scan loop of `partial_sort_smallest_k`, characterised: starting
from a sorted window `W` of size `k ≥ 1` followed by an already
processed part `P` and a part `T` still to scan, the loop never panics
and folds `stepK` over `T`, touching only the window. -/
theorem psLoop_go (k : ℕ) (hk : 1 ≤ k) :
    ∀ (T W P : List ℚ), W.length = k → W.Sorted (· ≤ ·) →
      psLoop (W ++ (P ++ T)) k (k + P.length)
        = some ((T.foldl (stepK k) W) ++ (P ++ T)) := by
  intro T
  induction T with
  | nil =>
    intro W P hW hs
    rw [psLoop]
    simp [hW]
  | cons v T ih =>
    intro W P hW hs
    have hklen : k + P.length < (W ++ (P ++ (v :: T))).length := by
      simp [hW]
    rw [psLoop, if_pos hklen, if_neg (by omega)]
    have hgv : (W ++ (P ++ (v :: T))).getD (k + P.length) 0 = v := by
      rw [List.getD_append_right _ _ _ _ (by omega), hW]
      rw [List.getD_append_right _ _ _ _ (by omega)]
      simp
    have hgw : (W ++ (P ++ (v :: T))).getD (k - 1) 0 = W.getD (k - 1) 0 :=
      List.getD_append _ _ _ _ (by omega)
    rw [hgv, hgw]
    by_cases hv : v < W.getD (k - 1) 0
    · rw [if_pos hv]
      have hjlt : k - 1 < (W ++ (P ++ (v :: T))).length := by
        simp [hW]
        omega
      have hstake : ((W ++ (P ++ (v :: T))).take (k - 1 + 1)).Sorted (· ≤ ·) := by
        have heq : (W ++ (P ++ (v :: T))).take (k - 1 + 1) = W := by
          have h1 : k - 1 + 1 = k := by omega
          rw [List.take_append_eq_append_take, hW, h1, Nat.sub_self,
            List.take_zero, List.append_nil, ← hW, List.take_length]
        rw [heq]
        exact hs
      rw [ins_spec (k - 1) _ v hjlt hstake]
      have htk : (W ++ (P ++ (v :: T))).take (k - 1) = W.take (k - 1) := by
        rw [List.take_append_eq_append_take, hW,
          Nat.sub_eq_zero_of_le (by omega : k - 1 ≤ k),
          List.take_zero, List.append_nil]
      have hdk : (W ++ (P ++ (v :: T))).drop (k - 1 + 1) = P ++ (v :: T) := by
        have : k - 1 + 1 = W.length := by omega
        rw [this, List.drop_left]
      rw [htk, hdk]
      set W2 := List.orderedInsert (· ≤ ·) v (W.take (k - 1)) with hW2
      have hW2len : W2.length = k := by
        rw [hW2, List.orderedInsert_length, List.length_take]
        omega
      have hW2s : W2.Sorted (· ≤ ·) :=
        List.Sorted.orderedInsert v _ (sorted_take W _ hs)
      have hPT : P ++ (v :: T) = (P ++ [v]) ++ T := by simp
      have hidx : k + P.length + 1 = k + (P ++ [v]).length := by
        rw [List.length_append, List.length_singleton]
        omega
      rw [hPT, hidx, ih W2 (P ++ [v]) hW2len hW2s]
      rw [List.foldl_cons, stepK_eq_insert_front k W v hW hk hv, ← hW2]
    · rw [if_neg hv]
      have hPT : P ++ (v :: T) = (P ++ [v]) ++ T := by simp
      have hidx : k + P.length + 1 = k + (P ++ [v]).length := by
        rw [List.length_append, List.length_singleton]
        omega
      rw [hPT, hidx, ih W (P ++ [v]) hW hs]
      rw [List.foldl_cons, stepK_eq_self k W v hW hk hs (le_of_not_lt hv)]

/-- Sorting one more element into a sorted list: the stable sort of
`U ++ [v]` is the ordered insertion of `v` into the stable sort of `U`
(as value lists; both sides are sorted and permute `U ++ [v]`). -/
theorem sortByLe_append_singleton (U : List ℚ) (v : ℚ) :
    sortByLe (U ++ [v]) = List.orderedInsert (· ≤ ·) v (sortByLe U) := by
  refine List.eq_of_perm_of_sorted ?_ (sortByLe_sorted _)
    (List.Sorted.orderedInsert v _ (sortByLe_sorted U))
  refine ((sortByLe_perm _).trans ?_).trans (List.perm_orderedInsert _ v _).symm
  exact (List.perm_append_singleton v U).trans
    (List.Perm.cons v (sortByLe_perm U).symm)

theorem stepFold (k : ℕ) :
    ∀ (T U : List ℚ), T.foldl (stepK k) ((sortByLe U).take k)
      = (sortByLe (U ++ T)).take k := by
  intro T
  induction T with
  | nil => intro U; simp
  | cons v T ih =>
    intro U
    rw [List.foldl_cons]
    have hstep : stepK k ((sortByLe U).take k) v = (sortByLe (U ++ [v])).take k := by
      rw [stepK, take_orderedInsert_take, ← sortByLe_append_singleton]
    rw [hstep, ih (U ++ [v])]
    simp

/-- Full characterisation of `partial_sort_smallest_k` for `1 ≤ k ≤ len`:
it completes, the first `k` positions become the sorted `k` smallest
elements and positions `k, …, len-1` keep their original values. -/
theorem sortSmallestK_spec (l : List ℚ) (k : ℕ) (hk1 : 1 ≤ k)
    (hk2 : k ≤ l.length) :
    sortSmallestK l k = some ((sortByLe l).take k ++ l.drop k) := by
  have hmin : min k l.length = k := Nat.min_eq_left hk2
  have hS0len : (sortByLe (l.take k)).length = k := by
    rw [sortByLe_length, List.length_take]
    exact hmin
  have hS0s : (sortByLe (l.take k)).Sorted (· ≤ ·) := sortByLe_sorted _
  rw [sortSmallestK, hmin]
  have hgo := psLoop_go k hk1 (l.drop k) (sortByLe (l.take k)) [] hS0len hS0s
  simp only [List.nil_append, List.length_nil, Nat.add_zero] at hgo
  rw [hgo]
  have : (l.drop k).foldl (stepK k) (sortByLe (l.take k))
      = (sortByLe l).take k := by
    have htk : (sortByLe (l.take k)).take k = sortByLe (l.take k) :=
      List.take_of_length_le (by omega)
    rw [← htk, stepFold k (l.drop k) (l.take k), List.take_append_drop]
  rw [this]

/-- C4 counterexample: on `[5, 3, 9, 1]` with `k = 2` the call returns
`[1, 3, 9, 1]` — the first `k` entries are the two smallest, sorted, but
the result is NOT a permutation of the input (the `5` is lost). -/
theorem c4_counterexample :
    sortSmallestK [5, 3, 9, 1] 2 = some [1, 3, 9, 1] ∧
    ¬ (([1, 3, 9, 1] : List ℚ).Perm [5, 3, 9, 1]) := by
  constructor
  · rw [sortSmallestK_spec [5, 3, 9, 1] 2 (by norm_num) (by norm_num)]
    norm_num [sortByLe, List.mergeSort]
  · intro hp
    have := hp.count_eq 5
    simp [List.count_cons] at this

/-- C4 amended: for `1 ≤ k ≤ len` the call completes; the first `k`
positions afterwards hold the `k` smallest elements of the input in
non-decreasing order, and the positions from `k` on keep their original
values unchanged (so the whole buffer is in general not a permutation
of the input). -/
theorem c4_smallest_k_window (l : List ℚ) (k : ℕ) (hk1 : 1 ≤ k)
    (hk2 : k ≤ l.length) :
    sortSmallestK l k = some ((sortByLe l).take k ++ l.drop k) ∧
    ((sortByLe l).take k).Sorted (· ≤ ·) :=
  ⟨sortSmallestK_spec l k hk1 hk2, sorted_take _ _ (sortByLe_sorted l)⟩

/-- Witness for C4's amended theorem on `[5, 3, 9, 1]`, `k = 2`. -/
theorem c4_smallest_k_window_witness :
    sortSmallestK [5, 3, 9, 1] 2
      = some ((sortByLe [5, 3, 9, 1]).take 2 ++ ([5, 3, 9, 1] : List ℚ).drop 2) ∧
    ((sortByLe [5, 3, 9, 1]).take 2).Sorted (· ≤ ·) :=
  c4_smallest_k_window [5, 3, 9, 1] 2 (by norm_num) (by norm_num)

/-! ## Analysis of the `f32` rounding model -/

theorem foldl_ite_of_none (q : ℚ) (l : List ℤ) (acc : ℤ)
    (h : ∀ x ∈ l, ¬ (2 : ℚ) ^ x ≤ q) :
    l.foldl (fun acc e => if (2 : ℚ) ^ e ≤ q then e else acc) acc = acc := by
  induction l generalizing acc with
  | nil => rfl
  | cons x l ih =>
    rw [List.foldl_cons, if_neg (h x (List.mem_cons_self x l))]
    exact ih acc (fun y hy => h y (List.mem_cons_of_mem x hy))

theorem foldl_ite_lastSat (q : ℚ) (e : ℤ) : ∀ (l : List ℤ) (acc : ℤ),
    l.Pairwise (· < ·) → e ∈ l → (2 : ℚ) ^ e ≤ q →
    (∀ x ∈ l, (2 : ℚ) ^ x ≤ q → x ≤ e) →
    l.foldl (fun acc e => if (2 : ℚ) ^ e ≤ q then e else acc) acc = e := by
  intro l
  induction l with
  | nil =>
    intro acc _ hmem _ _
    exact absurd hmem (List.not_mem_nil e)
  | cons x l ih =>
    intro acc hpw hmem hsat hbd
    rcases List.mem_cons.mp hmem with hx | hx
    · subst hx
      rw [List.foldl_cons, if_pos hsat]
      refine foldl_ite_of_none q l e (fun y hy hsy => ?_)
      have h1 : e < y := (List.pairwise_cons.mp hpw).1 y hy
      have h2 : y ≤ e := hbd y (List.mem_cons_of_mem e hy) hsy
      omega
    · rw [List.foldl_cons]
      exact ih _ (List.pairwise_cons.mp hpw).2 hx hsat
        (fun y hy => hbd y (List.mem_cons_of_mem x hy))

theorem floorLog2Q_eq (q : ℚ) (e : ℤ) (h1 : -32 ≤ e) (h2 : e ≤ 32)
    (hle : (2 : ℚ) ^ e ≤ q) (hlt : q < (2 : ℚ) ^ (e + 1)) :
    floorLog2Q q = e := by
  rw [floorLog2Q]
  refine foldl_ite_lastSat q e _ _ ?_ ?_ hle ?_
  · apply List.Pairwise.map (R := fun a b : ℕ => a < b)
    · intro a b hab
      omega
    · exact List.pairwise_lt_range 65
  · refine List.mem_map.mpr ⟨(e + 32).toNat, List.mem_range.mpr (by omega), ?_⟩
    omega
  · intro x hx hsx
    by_contra hc
    push_neg at hc
    have hge : (2 : ℚ) ^ (e + 1) ≤ (2 : ℚ) ^ x := by
      rcases eq_or_lt_of_le (show e + 1 ≤ x by omega) with heq | hlt2
      · rw [heq]
      · exact le_of_lt (zpow_lt_zpow_right₀ (show (1 : ℚ) < 2 by norm_num) hlt2)
    linarith

theorem foldl_ite_sat (q : ℚ) : ∀ (l : List ℤ) (acc : ℤ), (2 : ℚ) ^ acc ≤ q →
    (2 : ℚ) ^ (l.foldl (fun acc e => if (2 : ℚ) ^ e ≤ q then e else acc) acc) ≤ q := by
  intro l
  induction l with
  | nil => intro acc h; exact h
  | cons x l ih =>
    intro acc h
    rw [List.foldl_cons]
    by_cases hx : (2 : ℚ) ^ x ≤ q
    · rw [if_pos hx]; exact ih x hx
    · rw [if_neg hx]; exact ih acc h

theorem foldl_ite_le (q : ℚ) (b : ℤ) : ∀ (l : List ℤ) (acc : ℤ), acc ≤ b →
    (∀ x ∈ l, (2 : ℚ) ^ x ≤ q → x ≤ b) →
    l.foldl (fun acc e => if (2 : ℚ) ^ e ≤ q then e else acc) acc ≤ b := by
  intro l
  induction l with
  | nil => intro acc h _; exact h
  | cons x l ih =>
    intro acc h hb
    rw [List.foldl_cons]
    by_cases hx : (2 : ℚ) ^ x ≤ q
    · rw [if_pos hx]
      exact ih x (hb x (List.mem_cons_self x l) hx)
        (fun y hy => hb y (List.mem_cons_of_mem x hy))
    · rw [if_neg hx]
      exact ih acc h (fun y hy => hb y (List.mem_cons_of_mem x hy))

theorem floorLog2Q_sat (q : ℚ) (h : (2 : ℚ) ^ (-32 : ℤ) ≤ q) :
    (2 : ℚ) ^ floorLog2Q q ≤ q := by
  rw [floorLog2Q]
  exact foldl_ite_sat q _ _ h

theorem floorLog2Q_le (q : ℚ) (b : ℤ) (hb : -32 ≤ b)
    (h : q < (2 : ℚ) ^ (b + 1)) : floorLog2Q q ≤ b := by
  rw [floorLog2Q]
  refine foldl_ite_le q b _ _ hb (fun x _ hsx => ?_)
  by_contra hc
  push_neg at hc
  have hge : (2 : ℚ) ^ (b + 1) ≤ (2 : ℚ) ^ x := by
    rcases eq_or_lt_of_le (show b + 1 ≤ x by omega) with heq | hlt2
    · rw [heq]
    · exact le_of_lt (zpow_lt_zpow_right₀ (show (1 : ℚ) < 2 by norm_num) hlt2)
  linarith

theorem rneInt_intCast (z : ℤ) : rneInt (z : ℚ) = z := by
  rw [rneInt]
  simp

theorem roundF32_eq_of (q : ℚ) (e m : ℤ) (h1 : -32 ≤ e) (h2 : e ≤ 32)
    (hle : (2 : ℚ) ^ e ≤ q) (hlt : q < (2 : ℚ) ^ (e + 1))
    (hm : rneInt (q * 2 ^ ((23 : ℤ) - e)) = m) :
    roundF32 q = (m : ℚ) * 2 ^ (e - 23) := by
  have hq0 : 0 < q := lt_of_lt_of_le (zpow_pos (by norm_num) e) hle
  rw [roundF32, if_neg (ne_of_gt hq0), if_neg (not_lt.mpr (le_of_lt hq0)),
    roundPos, floorLog2Q_eq q e h1 h2 hle hlt, hm]

/-- Integers below `2²⁴` are exactly representable: rounding is the
identity on them. -/
theorem roundF32_natCast (n : ℕ) (h : n < 2 ^ 24) : roundF32 (n : ℚ) = n := by
  rcases Nat.eq_zero_or_pos n with h0 | h0
  · subst h0
    rw [roundF32, if_pos (by norm_num)]
    norm_num
  have hn1 : (1 : ℚ) ≤ (n : ℚ) := by exact_mod_cast h0
  have hq0 : (0 : ℚ) < n := by linarith
  have hsat : (2 : ℚ) ^ floorLog2Q n ≤ n :=
    floorLog2Q_sat _ (le_trans (by norm_num) hn1)
  have h24 : ((n : ℚ)) < (2 : ℚ) ^ ((23 : ℤ) + 1) := by
    have hh : ((n : ℚ)) < ((2 ^ 24 : ℕ) : ℚ) := by exact_mod_cast h
    norm_num at hh ⊢
    exact hh
  have hle23 : floorLog2Q (n : ℚ) ≤ 23 := floorLog2Q_le _ 23 (by norm_num) h24
  set e := floorLog2Q (n : ℚ) with he
  set s : ℕ := (23 - e).toNat with hs
  have hexp : (23 : ℤ) - e = (s : ℤ) := by omega
  have hcast : (n : ℚ) * 2 ^ ((23 : ℤ) - e) = (((n * 2 ^ s : ℤ)) : ℚ) := by
    rw [hexp, zpow_natCast]
    push_cast
    ring
  rw [roundF32, if_neg (ne_of_gt hq0), if_neg (not_lt.mpr (le_of_lt hq0)),
    roundPos, hcast, rneInt_intCast]
  push_cast
  rw [mul_assoc, ← zpow_natCast (2 : ℚ) s, ← zpow_add₀ (by norm_num : (2 : ℚ) ≠ 0)]
  have hz : (s : ℤ) + (e - 23) = 0 := by omega
  rw [hz, zpow_zero, mul_one]

/-- C10 (counterexample to the original exact-average reading): on the
NaN-free even-length input `[2.0, 16777215.0]` the sorted buffer's two
middle elements are `2` and `16777215`, whose exact average is
`16777217 / 2`; but the `f32` sum `2.0 + 16777215.0` rounds
`2²⁴ + 1` to `2²⁴` (ties to even), and the program returns
`8388608.0`, not the exact average (which no `f32` even represents). -/
theorem c10_counterexample :
    (median_f32 [2, 16777215]).2 = [2, 16777215]
    ∧ (median_f32 [2, 16777215]).1 = some 8388608
    ∧ ((2 : ℚ) + 16777215) / 2 ≠ 8388608 := by
  have hsort : sortByLe [2, 16777215] = [2, 16777215] := by
    norm_num [sortByLe, List.mergeSort]
  have hadd : f32add (2 : ℚ) 16777215 = 16777216 := by
    rw [f32add, show (2 : ℚ) + 16777215 = 16777217 from by norm_num,
      roundF32_eq_of _ 24 8388608 (by norm_num) (by norm_num) (by norm_num)
        (by norm_num) (by norm_num [rneInt])]
    norm_num
  have hdiv : f32div (16777216 : ℚ) 2 = 8388608 := by
    rw [f32div, show (16777216 : ℚ) / 2 = 8388608 from by norm_num,
      roundF32_eq_of _ 23 8388608 (by norm_num) (by norm_num) (by norm_num)
        (by norm_num) (by norm_num [rneInt])]
    norm_num
  refine ⟨?_, ?_, by norm_num⟩
  · rw [median_f32, if_neg (by simp), if_pos (by simp)]
    simp [hsort]
  · rw [median_f32, if_neg (by simp), if_pos (by simp)]
    simp only [hsort]
    norm_num [hadd, hdiv]

/-! ## Concrete `f32` luminance values (for claim C7) -/

theorem c299_val : c299 = 10032775 / 33554432 := by
  rw [c299, roundF32_eq_of (299 / 1000) (-2) 10032775 (by norm_num) (by norm_num)
    (by norm_num) (by norm_num) (by norm_num [rneInt])]
  norm_num

theorem c587_val : c587 = 4924113 / 8388608 := by
  rw [c587, roundF32_eq_of (587 / 1000) (-1) 9848226 (by norm_num) (by norm_num)
    (by norm_num) (by norm_num) (by norm_num [rneInt])]
  norm_num

theorem c114_val : c114 = 15300821 / 134217728 := by
  rw [c114, roundF32_eq_of (114 / 1000) (-4) 15300821 (by norm_num) (by norm_num)
    (by norm_num) (by norm_num) (by norm_num [rneInt])]
  norm_num

/-- `grayPix 0 56 37 = 37`: a pixel whose luminance lands exactly on 37. -/
theorem grayPix_A : grayPix 0 56 37 = 37 := by
  have h1 : f32mul c299 ((0 : ℕ) : ℚ) = 0 := by
    rw [f32mul, roundF32]
    norm_num
  have h2 : f32mul c587 ((56 : ℕ) : ℚ) = 4308599 / 131072 := by
    rw [f32mul, c587_val,
      roundF32_eq_of _ 5 8617198 (by norm_num) (by norm_num) (by norm_num)
        (by norm_num) (by norm_num [rneInt])]
    norm_num
  have h3 : f32mul c114 ((37 : ℕ) : ℚ) = 8845787 / 2097152 := by
    rw [f32mul, c114_val,
      roundF32_eq_of _ 2 8845787 (by norm_num) (by norm_num) (by norm_num)
        (by norm_num) (by norm_num [rneInt])]
    norm_num
  have h4 : f32add 0 (4308599 / 131072) = 4308599 / 131072 := by
    rw [f32add, zero_add,
      roundF32_eq_of _ 5 8617198 (by norm_num) (by norm_num) (by norm_num)
        (by norm_num) (by norm_num [rneInt])]
    norm_num
  have h5 : f32add (4308599 / 131072) (8845787 / 2097152) = 9722921 / 262144 := by
    rw [f32add,
      roundF32_eq_of _ 5 9722921 (by norm_num) (by norm_num) (by norm_num)
        (by norm_num) (by norm_num [rneInt])]
    norm_num
  rw [grayPix, grayLum, h1, h2, h3, h4, h5, toU8]
  norm_num
  decide

/-- `grayPix 37 37 37 = 36`: the uniform gray 37 drops to 36. -/
theorem grayPix_B : grayPix 37 37 37 = 36 := by
  have h1 : f32mul c299 ((37 : ℕ) : ℚ) = 2900099 / 262144 := by
    rw [f32mul, c299_val,
      roundF32_eq_of _ 3 11600396 (by norm_num) (by norm_num) (by norm_num)
        (by norm_num) (by norm_num [rneInt])]
    norm_num
  have h2 : f32mul c587 ((37 : ℕ) : ℚ) = 11387011 / 524288 := by
    rw [f32mul, c587_val,
      roundF32_eq_of _ 4 11387011 (by norm_num) (by norm_num) (by norm_num)
        (by norm_num) (by norm_num [rneInt])]
    norm_num
  have h3 : f32mul c114 ((37 : ℕ) : ℚ) = 8845787 / 2097152 := by
    rw [f32mul, c114_val,
      roundF32_eq_of _ 2 8845787 (by norm_num) (by norm_num) (by norm_num)
        (by norm_num) (by norm_num [rneInt])]
    norm_num
  have h4 : f32add (2900099 / 262144) (11387011 / 524288) = 2148401 / 65536 := by
    rw [f32add,
      roundF32_eq_of _ 5 8593604 (by norm_num) (by norm_num) (by norm_num)
        (by norm_num) (by norm_num [rneInt])]
    norm_num
  have h5 : f32add (2148401 / 65536) (8845787 / 2097152) = 9699327 / 262144 := by
    rw [f32add,
      roundF32_eq_of _ 5 9699327 (by norm_num) (by norm_num) (by norm_num)
        (by norm_num) (by norm_num [rneInt])]
    norm_num
  rw [grayPix, grayLum, h1, h2, h3, h4, h5, toU8]
  norm_num
  decide

/-- `grayPix 255 255 255 = 255`: full white is a fixed point (needed
for the idempotence of `threshold`). -/
theorem grayPix_white : grayPix 255 255 255 = 255 := by
  have h1 : f32mul c299 ((255 : ℕ) : ℚ) = 624599 / 8192 := by
    rw [f32mul, c299_val,
      roundF32_eq_of _ 6 9993584 (by norm_num) (by norm_num) (by norm_num)
        (by norm_num) (by norm_num [rneInt])]
    norm_num
  have h2 : f32mul c587 ((255 : ℕ) : ℚ) = 2452439 / 16384 := by
    rw [f32mul, c587_val,
      roundF32_eq_of _ 7 9809756 (by norm_num) (by norm_num) (by norm_num)
        (by norm_num) (by norm_num [rneInt])]
    norm_num
  have h3 : f32mul c114 ((255 : ℕ) : ℚ) = 3810263 / 131072 := by
    rw [f32mul, c114_val,
      roundF32_eq_of _ 4 15241052 (by norm_num) (by norm_num) (by norm_num)
        (by norm_num) (by norm_num [rneInt])]
    norm_num
  have h4 : f32add (624599 / 8192) (2452439 / 16384) = 3701637 / 16384 := by
    rw [f32add,
      roundF32_eq_of _ 7 14806548 (by norm_num) (by norm_num) (by norm_num)
        (by norm_num) (by norm_num [rneInt])]
    norm_num
  have h5 : f32add (3701637 / 16384) (3810263 / 131072) = 255 := by
    rw [f32add,
      roundF32_eq_of _ 7 16711680 (by norm_num) (by norm_num) (by norm_num)
        (by norm_num) (by norm_num [rneInt])]
    norm_num
  rw [grayPix, grayLum, h1, h2, h3, h4, h5, toU8]
  norm_num

/-- `grayPix 0 0 0 = 0` (needed for the idempotence of `threshold`). -/
theorem grayPix_black : grayPix 0 0 0 = 0 := by
  have h1 : f32mul c299 ((0 : ℕ) : ℚ) = 0 := by
    rw [f32mul, roundF32]
    norm_num
  have h2 : f32mul c587 ((0 : ℕ) : ℚ) = 0 := by
    rw [f32mul, roundF32]
    norm_num
  have h3 : f32mul c114 ((0 : ℕ) : ℚ) = 0 := by
    rw [f32mul, roundF32]
    norm_num
  have h4 : f32add 0 0 = 0 := by
    rw [f32add, roundF32]
    norm_num
  rw [grayPix, grayLum, h1, h2, h3, h4, h4, toU8]
  norm_num

theorem grayPix_le (r g b : ℕ) : grayPix r g b ≤ 255 := by
  rw [grayPix, toU8]
  exact Nat.min_le_left 255 _

/-! ## Pixel-loop structure (claim C7) -/

theorem foldl_body_shift (body : List ℕ → ℕ → List ℕ)
    (hshift : ∀ (a b c d : ℕ) (t : List ℕ) (i : ℕ),
      body (a :: b :: c :: d :: t) (i + 4) = a :: b :: c :: d :: body t i) :
    ∀ (idxs : List ℕ) (a b c d : ℕ) (t : List ℕ),
      (idxs.map (· + 4)).foldl body (a :: b :: c :: d :: t)
        = a :: b :: c :: d :: idxs.foldl body t := by
  intro idxs
  induction idxs with
  | nil => intro a b c d t; rfl
  | cons i rest ih =>
    intro a b c d t
    rw [List.map_cons, List.foldl_cons, List.foldl_cons, hshift, ih]

theorem pixLoop_cons_of (body : List ℕ → ℕ → List ℕ)
    (hshift : ∀ (a b c d : ℕ) (t : List ℕ) (i : ℕ),
      body (a :: b :: c :: d :: t) (i + 4) = a :: b :: c :: d :: body t i)
    (n : ℕ) {a b c d v1 v2 v3 v4 : ℕ} {t : List ℕ}
    (hw : body (a :: b :: c :: d :: t) 0 = v1 :: v2 :: v3 :: v4 :: t) :
    pixLoop body (4 * (n + 1)) (a :: b :: c :: d :: t)
      = v1 :: v2 :: v3 :: v4 :: pixLoop body (4 * n) t := by
  rw [pixLoop, pixLoop, show (4 * (n + 1) + 3) / 4 = n + 1 by omega,
    show (4 * n + 3) / 4 = n by omega]
  rw [List.range_succ_eq_map, List.map_cons, List.foldl_cons, Nat.zero_mul, hw]
  rw [List.map_map]
  have hmap : (List.range n).map ((fun i => i * 4) ∘ Nat.succ)
      = ((List.range n).map (· * 4)).map (· + 4) := by
    rw [List.map_map]
    refine List.map_congr_left (fun i _ => ?_)
    simp only [Function.comp]
    omega
  rw [hmap, foldl_body_shift body hshift]

theorem pixLoop_zero (body : List ℕ → ℕ → List ℕ) (px : List ℕ) :
    pixLoop body (4 * 0) (px) = px := by
  rw [pixLoop]
  norm_num

theorem grayscaleBody_shift (a b c d : ℕ) (t : List ℕ) (i : ℕ) :
    grayscaleBody (a :: b :: c :: d :: t) (i + 4)
      = a :: b :: c :: d :: grayscaleBody t i := by
  simp [grayscaleBody]

theorem grayscaleBody_writes (r g b a : ℕ) (t : List ℕ) :
    grayscaleBody (r :: g :: b :: a :: t) 0
      = grayPix r g b :: grayPix r g b :: grayPix r g b :: a :: t := by
  simp [grayscaleBody]

theorem thresholdBody_shift (tr : ℕ) (a b c d : ℕ) (t : List ℕ) (i : ℕ) :
    thresholdBody tr (a :: b :: c :: d :: t) (i + 4)
      = a :: b :: c :: d :: thresholdBody tr t i := by
  simp [thresholdBody]

theorem thresholdBody_writes (tr : ℕ) (r g b a : ℕ) (t : List ℕ) :
    thresholdBody tr (r :: g :: b :: a :: t) 0
      = threshPix r g b tr :: threshPix r g b tr :: threshPix r g b tr :: a :: t := by
  simp [thresholdBody]

theorem invertBody_shift (a b c d : ℕ) (t : List ℕ) (i : ℕ) :
    invertBody (a :: b :: c :: d :: t) (i + 4)
      = a :: b :: c :: d :: invertBody t i := by
  simp [invertBody]

theorem invertBody_writes (r g b a : ℕ) (t : List ℕ) :
    invertBody (r :: g :: b :: a :: t) 0
      = (255 - r) :: (255 - g) :: (255 - b) :: a :: t := by
  simp [invertBody]

/-- One threshold pass maps every pixel to black or white; a second pass
with the same threshold leaves black and white fixed. -/
theorem threshPix_idem (r g b t : ℕ) :
    threshPix (threshPix r g b t) (threshPix r g b t) (threshPix r g b t) t
      = threshPix r g b t := by
  by_cases h : t < grayPix r g b
  · have hin : threshPix r g b t = 255 := by rw [threshPix, if_pos h]
    rw [hin, threshPix, grayPix_white,
      if_pos (lt_of_lt_of_le h (grayPix_le r g b))]
  · have hin : threshPix r g b t = 0 := by rw [threshPix, if_neg h]
    rw [hin, threshPix, grayPix_black, if_neg (Nat.not_lt_zero t)]

theorem threshold_idem_loop (t : ℕ) : ∀ (n : ℕ) (px : List ℕ), px.length = 4 * n →
    pixLoop (thresholdBody t) (4 * n) (pixLoop (thresholdBody t) (4 * n) px)
      = pixLoop (thresholdBody t) (4 * n) px := by
  intro n
  induction n with
  | zero => intro px _; rw [pixLoop_zero, pixLoop_zero]
  | succ n ih =>
    intro px hlen
    match px with
    | r :: g :: b :: a :: rest =>
      have hrest : rest.length = 4 * n := by
        simp only [List.length_cons] at hlen
        omega
      rw [pixLoop_cons_of _ (thresholdBody_shift t) n (thresholdBody_writes t r g b a rest)]
      rw [pixLoop_cons_of _ (thresholdBody_shift t) n
        (thresholdBody_writes t _ _ _ a (pixLoop (thresholdBody t) (4 * n) rest))]
      rw [threshPix_idem, ih rest hrest]
    | [] => simp at hlen
    | [x] => simp at hlen; omega
    | [x, y] => simp at hlen; omega
    | [x, y, z] => simp at hlen; omega

theorem invert_invol_loop : ∀ (n : ℕ) (px : List ℕ), px.length = 4 * n →
    (∀ x ∈ px, x < 256) →
    pixLoop invertBody (4 * n) (pixLoop invertBody (4 * n) px) = px := by
  intro n
  induction n with
  | zero => intro px _ _; rw [pixLoop_zero, pixLoop_zero]
  | succ n ih =>
    intro px hlen hb
    match px with
    | r :: g :: b :: a :: rest =>
      have hrest : rest.length = 4 * n := by
        simp only [List.length_cons] at hlen
        omega
      have hbrest : ∀ x ∈ rest, x < 256 := by
        intro x hx
        exact hb x (by simp [hx])
      rw [pixLoop_cons_of _ invertBody_shift n (invertBody_writes r g b a rest)]
      rw [pixLoop_cons_of _ invertBody_shift n
        (invertBody_writes _ _ _ a (pixLoop invertBody (4 * n) rest))]
      have h1 : 255 - (255 - r) = r := by
        have := hb r (by simp)
        omega
      have h2 : 255 - (255 - g) = g := by
        have := hb g (by simp)
        omega
      have h3 : 255 - (255 - b) = b := by
        have := hb b (by simp)
        omega
      rw [h1, h2, h3, ih rest hrest hbrest]
    | [] => simp at hlen
    | [x] => simp at hlen; omega
    | [x, y] => simp at hlen; omega
    | [x, y, z] => simp at hlen; omega

/-- C7 counterexample: grayscale is NOT idempotent.  On the single
pixel `(0, 56, 37, 255)` one pass yields gray `37`; a second pass maps
the uniform gray `(37, 37, 37)` to `36` because the `f32` luminance of
gray 37 is `36.99999…`, truncated by the `as u8` cast. -/
theorem c7_counterexample :
    grayscale_rgba (grayscale_rgba [0, 56, 37, 255] 1 1) 1 1
      ≠ grayscale_rgba [0, 56, 37, 255] 1 1 := by
  have h1 : grayscale_rgba [0, 56, 37, 255] 1 1 = [37, 37, 37, 255] := by
    rw [grayscale_rgba, show 1 * 1 * 4 = 4 * (0 + 1) from rfl,
      pixLoop_cons_of _ grayscaleBody_shift 0 (grayscaleBody_writes 0 56 37 255 []),
      grayPix_A, pixLoop_zero]
  have h2 : grayscale_rgba [37, 37, 37, 255] 1 1 = [36, 36, 36, 255] := by
    rw [grayscale_rgba, show 1 * 1 * 4 = 4 * (0 + 1) from rfl,
      pixLoop_cons_of _ grayscaleBody_shift 0 (grayscaleBody_writes 37 37 37 255 []),
      grayPix_B, pixLoop_zero]
  rw [h1, h2]
  simp

/-- C7 amended: `threshold` (same threshold twice) is idempotent and
`invert_colors` is involutive; `grayscale_rgba`, by contrast, is not
idempotent in general (see the counterexample). -/
theorem c7_threshold_idem_invert_invol (px : List ℕ) (w h t : ℕ)
    (hlen : px.length = w * h * 4) (hbytes : ∀ x ∈ px, x < 256) :
    threshold (threshold px w h t) w h t = threshold px w h t ∧
    invert_colors (invert_colors px w h) w h = px := by
  have h4 : w * h * 4 = 4 * (w * h) := by ring
  constructor
  · rw [threshold, threshold, h4]
    exact threshold_idem_loop t (w * h) px (by rw [hlen, h4])
  · rw [invert_colors, invert_colors, h4]
    exact invert_invol_loop (w * h) px (by rw [hlen, h4]) hbytes

/-- Witness for C7's amended theorem on a one-pixel image. -/
theorem c7_threshold_idem_invert_invol_witness :
    threshold (threshold [10, 20, 30, 40] 1 1 25) 1 1 25
      = threshold [10, 20, 30, 40] 1 1 25 ∧
    invert_colors (invert_colors [10, 20, 30, 40] 1 1) 1 1 = [10, 20, 30, 40] :=
  c7_threshold_idem_invert_invol [10, 20, 30, 40] 1 1 25 (by simp)
    (by intro x hx; fin_cases hx <;> omega)

/-! ## Sorting toolkit: segments, swaps, counts -/

theorem eq_of_getD {α : Type} (l1 l2 : List α) (d : α) (hlen : l1.length = l2.length)
    (h : ∀ m, m < l1.length → l1.getD m d = l2.getD m d) : l1 = l2 := by
  apply List.ext_getElem hlen
  intro m h1 h2
  have h3 := h m h1
  rwa [List.getD_eq_getElem _ _ h1, List.getD_eq_getElem _ _ h2] at h3

theorem getD_take {α : Type} (l : List α) (n m : ℕ) (d : α) (hm : m < n) :
    (l.take n).getD m d = l.getD m d := by
  simp [List.getD_eq_getElem?_getD, List.getElem?_take, hm]

theorem getD_drop {α : Type} (l : List α) (n m : ℕ) (d : α) :
    (l.drop n).getD m d = l.getD (n + m) d := by
  simp [List.getD_eq_getElem?_getD, List.getElem?_drop]

theorem length_seg {α : Type} (l : List α) (a b : ℕ) (hb : b ≤ l.length) :
    (seg l a b).length = b - a := by
  simp only [seg, List.length_take, List.length_drop]
  omega

theorem getD_seg {α : Type} (l : List α) (a b m : ℕ) (d : α) (hm : m < b - a) :
    (seg l a b).getD m d = l.getD (a + m) d := by
  rw [seg, getD_take _ _ _ _ hm, getD_drop]

theorem seg_decomp {α : Type} (l : List α) (a b : ℕ) (hab : a ≤ b) (hb : b ≤ l.length) :
    l.take a ++ seg l a b ++ l.drop b = l := by
  have h1 : l.drop b = (l.drop a).drop (b - a) := by
    rw [List.drop_drop]
    congr 1
    omega
  rw [seg, List.append_assoc, h1, List.take_append_drop, List.take_append_drop]

theorem mem_seg {α : Type} (l : List α) (a b : ℕ) (x d : α) (hb : b ≤ l.length)
    (h : x ∈ seg l a b) : ∃ m, a ≤ m ∧ m < b ∧ l.getD m d = x := by
  obtain ⟨i, hi, hx⟩ := List.getElem_of_mem h
  have hlen : (seg l a b).length = b - a := length_seg l a b hb
  rw [hlen] at hi
  refine ⟨a + i, by omega, by omega, ?_⟩
  rw [← getD_seg l a b i d hi, List.getD_eq_getElem _ _ (by rw [hlen]; exact hi), hx]

theorem seg_getD_mem {α : Type} (l : List α) (a b p : ℕ) (d : α) (ha : a ≤ p)
    (hp : p < b) (hb : b ≤ l.length) : l.getD p d ∈ seg l a b := by
  have h1 : p = a + (p - a) := by omega
  have h2 : p - a < (seg l a b).length := by rw [length_seg l a b hb]; omega
  rw [h1, ← getD_seg l a b (p - a) d (by omega), List.getD_eq_getElem _ _ h2]
  exact List.getElem_mem _

theorem length_swapL (l : List ℚ) (i j : ℕ) : (swapL l i j).length = l.length := by
  simp [swapL]

theorem getD_swapL (l : List ℚ) (i j p : ℕ) (hi : i < l.length) (hj : j < l.length) :
    (swapL l i j).getD p 0 =
      if p = j then l.getD i 0
      else if p = i then l.getD j 0
      else l.getD p 0 := by
  simp only [swapL]
  by_cases hpj : p = j
  · subst hpj
    rw [getD_set_self _ _ _ _ (by simpa using hj)]
    simp
  · rw [getD_set_ne _ _ _ _ _ (fun hh => hpj hh.symm)]
    by_cases hpi : p = i
    · subst hpi
      rw [getD_set_self _ _ _ _ hi]
      simp [hpj]
    · rw [getD_set_ne _ _ _ _ _ (fun hh => hpi hh.symm)]
      simp [hpj, hpi]

theorem count_set (l : List ℚ) (n : ℕ) (a : ℚ) (hn : n < l.length) (x : ℚ) :
    (l.set n a).count x + (if l.getD n 0 = x then 1 else 0)
      = l.count x + (if a = x then 1 else 0) := by
  conv_lhs => rw [List.set_eq_take_append_cons_drop, if_pos hn]
  conv_rhs => rw [← List.take_append_drop n l]
  conv_rhs => rw [List.drop_eq_getElem_cons hn]
  rw [List.getD_eq_getElem _ _ hn]
  simp only [List.count_append, List.count_cons, beq_iff_eq]
  split_ifs <;> omega

theorem swapL_perm (l : List ℚ) (i j : ℕ) (hi : i < l.length) (hj : j < l.length) :
    (swapL l i j).Perm l := by
  rw [List.perm_iff_count]
  intro x
  have hlen1 : (l.set i (l.getD j 0)).length = l.length := by simp
  have c1 := count_set l i (l.getD j 0) hi x
  have c2 := count_set (l.set i (l.getD j 0)) j (l.getD i 0) (by omega) x
  by_cases hij : i = j
  · subst hij
    rw [getD_set_self _ _ _ _ hi] at c2
    simp only [swapL]
    split_ifs at c1 c2 <;> omega
  · rw [getD_set_ne _ _ _ _ _ hij] at c2
    simp only [swapL]
    split_ifs at c1 c2 <;> omega

theorem take_eq_of_agree {α : Type} (l1 l2 : List α) (n : ℕ) (d : α)
    (hn1 : n ≤ l1.length) (hn2 : n ≤ l2.length)
    (h : ∀ p, p < n → l1.getD p d = l2.getD p d) : l1.take n = l2.take n := by
  apply eq_of_getD _ _ d
  · simp only [List.length_take]
    omega
  · intro m hm
    simp only [List.length_take] at hm
    rw [getD_take _ _ _ _ (by omega), getD_take _ _ _ _ (by omega)]
    exact h m (by omega)

theorem drop_eq_of_agree {α : Type} (l1 l2 : List α) (n : ℕ) (d : α)
    (hlen : l1.length = l2.length)
    (h : ∀ p, n ≤ p → l1.getD p d = l2.getD p d) : l1.drop n = l2.drop n := by
  apply eq_of_getD _ _ d
  · simp [hlen]
  · intro m hm
    rw [getD_drop, getD_drop]
    exact h (n + m) (by omega)

/-- If two buffers of equal length are permutations and agree outside
the window `[a, b)`, then the windows themselves are permutations. -/
theorem seg_perm_mid (l1 l2 : List ℚ) (a b : ℕ) (hlen : l1.length = l2.length)
    (hperm : l1.Perm l2) (hb : b ≤ l1.length)
    (hout : ∀ p, p < a ∨ b ≤ p → l1.getD p 0 = l2.getD p 0) :
    (seg l1 a b).Perm (seg l2 a b) := by
  rcases le_or_lt a b with hab | hab
  · have e1 := seg_decomp l1 a b hab hb
    have e2 := seg_decomp l2 a b hab (by omega)
    have ht : l1.take a = l2.take a :=
      take_eq_of_agree l1 l2 a 0 (by omega) (by omega)
        (fun p hp => hout p (Or.inl hp))
    have hd : l1.drop b = l2.drop b :=
      drop_eq_of_agree l1 l2 b 0 hlen (fun p hp => hout p (Or.inr hp))
    have hperm2 : (l1.take a ++ seg l1 a b ++ l1.drop b).Perm
        (l1.take a ++ seg l2 a b ++ l1.drop b) := by
      rw [e1]
      conv_rhs => rw [ht, hd, e2]
      exact hperm
    rw [List.append_assoc, List.append_assoc] at hperm2
    rw [List.perm_append_left_iff] at hperm2
    rwa [List.perm_append_right_iff] at hperm2
  · have h1 : seg l1 a b = [] := by simp [seg, Nat.sub_eq_zero_of_le (le_of_lt hab)]
    have h2 : seg l2 a b = [] := by simp [seg, Nat.sub_eq_zero_of_le (le_of_lt hab)]
    rw [h1, h2]

/-- Transfer a pointwise property across a window permutation. -/
theorem seg_forall_transfer (l1 l2 : List ℚ) (a b : ℕ) (P : ℚ → Prop)
    (hperm : (seg l1 a b).Perm (seg l2 a b)) (hb1 : b ≤ l1.length) (hb2 : b ≤ l2.length)
    (h : ∀ q, a ≤ q → q < b → P (l2.getD q 0)) :
    ∀ p, a ≤ p → p < b → P (l1.getD p 0) := by
  intro p hap hpb
  have h1 : l1.getD p 0 ∈ seg l1 a b := seg_getD_mem l1 a b p 0 hap hpb hb1
  have h2 : l1.getD p 0 ∈ seg l2 a b := hperm.subset h1
  obtain ⟨m, hm1, hm2, hm3⟩ := mem_seg l2 a b _ 0 hb2 h2
  rw [← hm3]
  exact h m hm1 hm2

/-! ## Mergesort: the imperative loops compute a functional merge sort -/

theorem length_setSeg {α : Type} (t : List α) (k : ℕ) (xs : List α)
    (h : k + xs.length ≤ t.length) : (setSeg t k xs).length = t.length := by
  simp only [setSeg, List.length_append, List.length_take, List.length_drop]
  omega

theorem setSeg_nil {α : Type} (t : List α) (k : ℕ) : setSeg t k [] = t := by
  simp [setSeg]

theorem getD_setSeg {α : Type} (t : List α) (k : ℕ) (xs : List α) (p : ℕ) (d : α)
    (h : k + xs.length ≤ t.length) :
    (setSeg t k xs).getD p d =
      if p < k then t.getD p d
      else if p < k + xs.length then xs.getD (p - k) d
      else t.getD p d := by
  simp only [setSeg]
  have hk : (t.take k).length = k := by simp only [List.length_take]; omega
  have hka : (t.take k ++ xs).length = k + xs.length := by
    simp only [List.length_append, hk]
  by_cases h2 : p < k + xs.length
  · rw [List.getD_append _ _ _ _ (by omega)]
    by_cases h1 : p < k
    · rw [List.getD_append _ _ _ _ (by omega), getD_take _ _ _ _ h1]
      simp [h1]
    · rw [List.getD_append_right _ _ _ _ (by omega), hk]
      simp [h1, h2]
  · rw [List.getD_append_right _ _ _ _ (by omega), hka, getD_drop]
    have h3 : k + xs.length + (p - (k + xs.length)) = p := by omega
    rw [h3]
    have h1 : ¬p < k := by omega
    simp [h1, h2]

theorem setSeg_set_cons {α : Type} (t : List α) (k : ℕ) (v : α) (xs : List α)
    (h : k + 1 + xs.length ≤ t.length) :
    setSeg (t.set k v) (k + 1) xs = setSeg t k (v :: xs) := by
  have hlen : (t.set k v).length = t.length := by simp
  apply eq_of_getD _ _ v
  · rw [length_setSeg _ _ _ (by rw [hlen]; omega),
      length_setSeg _ _ _ (by simp only [List.length_cons]; omega)]
    exact hlen
  · intro m hm
    rw [length_setSeg _ _ _ (by rw [hlen]; omega), hlen] at hm
    rw [getD_setSeg _ _ _ _ _ (by rw [hlen]; omega),
      getD_setSeg _ _ _ _ _ (by simp only [List.length_cons]; omega)]
    rcases lt_trichotomy m k with h1 | h1 | h1
    · rw [if_pos (by omega), if_pos h1, getD_set_ne _ _ _ _ _ (by omega)]
    · subst h1
      rw [if_pos (by omega), if_neg (by omega),
        if_pos (by simp only [List.length_cons]; omega),
        getD_set_self _ _ _ _ (by omega)]
      simp
    · rw [if_neg (show ¬m < k + 1 by omega), if_neg (show ¬m < k by omega)]
      by_cases h2 : m < k + 1 + xs.length
      · rw [if_pos (by omega), if_pos (by simp only [List.length_cons]; omega)]
        have h3 : m - k = (m - (k + 1)) + 1 := by omega
        rw [h3, List.getD_cons_succ]
      · rw [if_neg (by omega), if_neg (by simp only [List.length_cons]; omega),
          getD_set_ne _ _ _ _ _ (by omega)]

theorem seg_cons {α : Type} (l : List α) (a b : ℕ) (d : α) (hab : a < b)
    (hb : b ≤ l.length) : seg l a b = l.getD a d :: seg l (a + 1) b := by
  rw [seg, seg, List.drop_eq_getElem_cons (by omega : a < l.length)]
  have h1 : b - a = (b - (a + 1)) + 1 := by omega
  rw [h1, List.take_succ_cons, List.getD_eq_getElem _ _ (by omega)]

theorem seg_empty {α : Type} (l : List α) (a b : ℕ) (h : b ≤ a) : seg l a b = [] := by
  simp [seg, Nat.sub_eq_zero_of_le h]

theorem mergeCopyLeft_spec {α : Type} (d : α) :
    ∀ (n : ℕ) (arr : List α) (mid : ℕ) (temp : List α) (i k : ℕ),
    mid - i ≤ n → mid ≤ arr.length → k + (mid - i) ≤ temp.length →
    mergeCopyLeft arr d mid temp i k = setSeg temp k (seg arr i mid) := by
  intro n
  induction n with
  | zero =>
    intro arr mid temp i k h1 h2 h3
    rw [mergeCopyLeft, if_neg (by omega), seg_empty _ _ _ (by omega), setSeg_nil]
  | succ n ih =>
    intro arr mid temp i k h1 h2 h3
    by_cases hi : i < mid
    · rw [mergeCopyLeft, if_pos hi,
        ih arr mid _ (i + 1) (k + 1) (by omega) h2
          (by simp only [List.length_set]; omega),
        seg_cons arr i mid d hi h2,
        ← setSeg_set_cons temp k _ _ (by rw [length_seg arr (i + 1) mid h2]; omega)]
    · rw [mergeCopyLeft, if_neg hi, seg_empty _ _ _ (by omega), setSeg_nil]

theorem mergeCopyRight_spec {α : Type} (d : α) :
    ∀ (n : ℕ) (arr : List α) (right : ℕ) (temp : List α) (j k : ℕ),
    right - j ≤ n → right ≤ arr.length → k + (right - j) ≤ temp.length →
    mergeCopyRight arr d right temp j k = setSeg temp k (seg arr j right) := by
  intro n
  induction n with
  | zero =>
    intro arr right temp j k h1 h2 h3
    rw [mergeCopyRight, if_neg (by omega), seg_empty _ _ _ (by omega), setSeg_nil]
  | succ n ih =>
    intro arr right temp j k h1 h2 h3
    by_cases hj : j < right
    · rw [mergeCopyRight, if_pos hj,
        ih arr right _ (j + 1) (k + 1) (by omega) h2
          (by simp only [List.length_set]; omega),
        seg_cons arr j right d hj h2,
        ← setSeg_set_cons temp k _ _ (by rw [length_seg arr (j + 1) right h2]; omega)]
    · rw [mergeCopyRight, if_neg hj, seg_empty _ _ _ (by omega), setSeg_nil]

theorem merge_nil_right {α : Type} (l : List α) (cmp : α → α → Bool) :
    List.merge l [] cmp = l := by
  cases l <;> simp [List.merge]

theorem mergeLoop_spec {α : Type} (key : α → ℚ) (d : α) :
    ∀ (n : ℕ) (arr : List α) (mid right : ℕ) (temp : List α) (i j k : ℕ),
    (mid - i) + (right - j) ≤ n → mid ≤ arr.length → right ≤ arr.length →
    k + (mid - i) + (right - j) ≤ temp.length →
    mergeLoop key arr d mid right temp i j k
      = setSeg temp k (List.merge (seg arr i mid) (seg arr j right)
          (fun a b => decide (key a ≤ key b))) := by
  intro n
  induction n with
  | zero =>
    intro arr mid right temp i j k h1 hmid hright h4
    rw [mergeLoop, if_neg (by omega), mergeCopyLeft, if_neg (by omega),
      mergeCopyRight, if_neg (by omega), seg_empty _ _ _ (by omega),
      List.nil_merge, seg_empty _ _ _ (by omega), setSeg_nil]
  | succ n ih =>
    intro arr mid right temp i j k h1 hmid hright h4
    by_cases hij : i < mid ∧ j < right
    · obtain ⟨hi, hj⟩ := hij
      rw [mergeLoop, if_pos ⟨hi, hj⟩]
      by_cases hle : key (arr.getD i d) ≤ key (arr.getD j d)
      · rw [if_pos hle,
          ih arr mid right _ (i + 1) j (k + 1) (by omega) hmid hright
            (by simp only [List.length_set]; omega)]
        conv_rhs => rw [seg_cons arr i mid d hi hmid, seg_cons arr j right d hj hright,
          List.cons_merge_cons]
        rw [if_pos (by simpa using hle), ← seg_cons arr j right d hj hright,
          ← setSeg_set_cons temp k _ _
            (by rw [List.length_merge, length_seg arr (i + 1) mid hmid,
              length_seg arr j right hright]; omega)]
      · rw [if_neg hle,
          ih arr mid right _ i (j + 1) (k + 1) (by omega) hmid hright
            (by simp only [List.length_set]; omega)]
        conv_rhs => rw [seg_cons arr i mid d hi hmid, seg_cons arr j right d hj hright,
          List.cons_merge_cons]
        rw [if_neg (by simpa using hle), ← seg_cons arr i mid d hi hmid,
          ← setSeg_set_cons temp k _ _
            (by rw [List.length_merge, length_seg arr i mid hmid,
              length_seg arr (j + 1) right hright]; omega)]
    · rw [mergeLoop, if_neg hij]
      push_neg at hij
      by_cases hi : i < mid
      · have hjr : right ≤ j := hij hi
        rw [mergeCopyRight, if_neg (by omega),
          mergeCopyLeft_spec d (mid - i) arr mid temp i k le_rfl hmid (by omega),
          seg_empty arr j right (by omega), merge_nil_right]
      · rw [mergeCopyLeft, if_neg (by omega)]
        have hmi : mid - i = 0 := by omega
        rw [hmi, Nat.add_zero,
          mergeCopyRight_spec d (right - j) arr right temp j k le_rfl hright (by omega),
          seg_empty arr i mid (by omega), List.nil_merge]

theorem merge_spec {α : Type} (key : α → ℚ) (d : α) (arr temp : List α)
    (left mid right : ℕ) (h1 : left ≤ mid) (h2 : mid ≤ right) (h3 : right ≤ arr.length)
    (h4 : right ≤ temp.length) :
    (merge key d arr temp left mid right).1
      = arr.take left ++ List.merge (seg arr left mid) (seg arr mid right)
          (fun a b => decide (key a ≤ key b)) ++ arr.drop right
    ∧ (merge key d arr temp left mid right).2.length = temp.length := by
  have hM : (List.merge (seg arr left mid) (seg arr mid right)
      (fun a b => decide (key a ≤ key b))).length = right - left := by
    rw [List.length_merge, length_seg _ _ _ (by omega), length_seg _ _ _ h3]
    omega
  have hloop := mergeLoop_spec key d ((mid - left) + (right - mid)) arr mid right temp
    left mid left le_rfl (by omega) h3 (by omega)
  constructor
  · simp only [merge]
    rw [hloop]
    congr 1
    congr 1
    apply eq_of_getD _ _ d
    · rw [length_seg _ _ _ (by rw [length_setSeg _ _ _ (by omega)]; omega), hM]
    · intro m hmlt
      rw [length_seg _ _ _ (by rw [length_setSeg _ _ _ (by omega)]; omega)] at hmlt
      rw [getD_seg _ _ _ _ _ hmlt, getD_setSeg _ _ _ _ _ (by omega),
        if_neg (by omega), if_pos (by omega)]
      congr 1
      omega
  · simp only [merge]
    rw [hloop, length_setSeg _ _ _ (by omega)]

theorem funMSort_length {α : Type} (key : α → ℚ) :
    ∀ (n : ℕ) (l : List α), l.length ≤ n → (funMSort key l).length = l.length := by
  intro n
  induction n with
  | zero =>
    intro l h
    rw [funMSort, if_pos (by omega)]
  | succ n ih =>
    intro l h
    by_cases h1 : l.length ≤ 1
    · rw [funMSort, if_pos h1]
    · rw [funMSort, if_neg h1, List.length_merge,
        ih _ (by simp only [List.length_take]; omega),
        ih _ (by simp only [List.length_drop]; omega),
        List.length_take, List.length_drop]
      omega

theorem funMSort_len {α : Type} (key : α → ℚ) (l : List α) :
    (funMSort key l).length = l.length :=
  funMSort_length key l.length l le_rfl

theorem mergesortRec_spec {α : Type} (key : α → ℚ) (d : α) :
    ∀ (n : ℕ) (arr temp : List α) (left right : ℕ),
    right - left ≤ n → left ≤ right → right ≤ arr.length → temp.length = arr.length →
    (mergesortRec key d arr temp left right).1
        = arr.take left ++ funMSort key (seg arr left right) ++ arr.drop right
      ∧ (mergesortRec key d arr temp left right).1.length = arr.length
      ∧ (mergesortRec key d arr temp left right).2.length = arr.length := by
  intro n
  induction n with
  | zero =>
    intro arr temp left right h1 h2 h3 h4
    rw [mergesortRec, if_pos (by omega)]
    refine ⟨?_, rfl, h4⟩
    rw [funMSort, if_pos (by rw [length_seg _ _ _ h3]; omega)]
    exact (seg_decomp arr left right h2 h3).symm
  | succ n ih =>
    intro arr temp left right h1 h2 h3 h4
    by_cases hbase : right - left ≤ 1
    · rw [mergesortRec, if_pos hbase]
      refine ⟨?_, rfl, h4⟩
      rw [funMSort, if_pos (by rw [length_seg _ _ _ h3]; omega)]
      exact (seg_decomp arr left right h2 h3).symm
    · rw [mergesortRec, if_neg hbase]
      set mid := left + (right - left) / 2 with hmid
      have hlm : left ≤ mid := by omega
      have hmr : mid ≤ right := by omega
      obtain ⟨e1, e1len, e1tlen⟩ := ih arr temp left mid (by omega) hlm (by omega) h4
      set r1 := mergesortRec key d arr temp left mid with hr1
      obtain ⟨e2, e2len, e2tlen⟩ := ih r1.1 r1.2 mid right (by omega) hmr (by omega)
        (by omega)
      set r2 := mergesortRec key d r1.1 r1.2 mid right with hr2
      set F1 := funMSort key (seg arr left mid) with hF1def
      set F2 := funMSort key (seg arr mid right) with hF2def
      have hA : (arr.take left).length = left := by
        rw [List.length_take]
        omega
      have hF1 : F1.length = mid - left := by
        rw [hF1def, funMSort_len, length_seg _ _ _ (by omega)]
      have hF2 : F2.length = right - mid := by
        rw [hF2def, funMSort_len, length_seg _ _ _ h3]
      have hAF1 : (arr.take left ++ F1).length = mid := by
        rw [List.length_append, hA, hF1]
        omega
      have htake_mid : r1.1.take mid = arr.take left ++ F1 := by
        rw [e1, ← hAF1, List.take_left]
      have hdrop_mid : r1.1.drop mid = arr.drop mid := by
        rw [e1, ← hAF1, List.drop_left]
      have hdrop_right : r1.1.drop right = arr.drop right := by
        have hh : ∀ (u : List α), u.drop right = (u.drop mid).drop (right - mid) := by
          intro u
          rw [List.drop_drop]
          congr 1
          omega
        rw [hh r1.1, hh arr, hdrop_mid]
      have hseg_mid : seg r1.1 mid right = seg arr mid right := by
        rw [seg, seg, hdrop_mid]
      have E2 : r2.1 = arr.take left ++ F1 ++ F2 ++ arr.drop right := by
        rw [e2, hseg_mid, htake_mid, hdrop_right]
      have hAll : (arr.take left ++ F1 ++ F2).length = right := by
        rw [List.length_append, hAF1, hF2]
        omega
      obtain ⟨m1, m2⟩ := merge_spec key d r2.1 r2.2 left mid right hlm hmr
        (by omega) (by omega)
      have hE2' : r2.1 = arr.take left ++ (F1 ++ (F2 ++ arr.drop right)) := by
        rw [E2]
        simp [List.append_assoc]
      have hE2'' : r2.1 = (arr.take left ++ F1) ++ (F2 ++ arr.drop right) := by
        rw [E2]
        simp [List.append_assoc]
      have p1 : r2.1.take left = arr.take left := by
        rw [hE2', List.take_left' hA]
      have p2 : seg r2.1 left mid = F1 := by
        rw [seg, hE2', List.drop_left' hA, List.take_left' hF1]
      have p3 : seg r2.1 mid right = F2 := by
        rw [seg, hE2'', List.drop_left' hAF1, List.take_left' hF2]
      have p4 : r2.1.drop right = arr.drop right := by
        rw [E2, List.drop_left' hAll]
      have hsegL : (seg arr left right).length = right - left :=
        length_seg _ _ _ h3
      have htake2 : (seg arr left right).take ((right - left) / 2) = seg arr left mid := by
        apply eq_of_getD _ _ d
        · rw [List.length_take, hsegL, length_seg _ _ _ (by omega)]
          omega
        · intro m hmm
          rw [List.length_take, hsegL] at hmm
          rw [getD_take _ _ _ _ (by omega), getD_seg _ _ _ _ _ (by omega),
            getD_seg _ _ _ _ _ (by omega)]
      have hdrop2 : (seg arr left right).drop ((right - left) / 2) = seg arr mid right := by
        apply eq_of_getD _ _ d
        · rw [List.length_drop, hsegL, length_seg _ _ _ h3]
          omega
        · intro m hmm
          rw [List.length_drop, hsegL] at hmm
          rw [getD_drop, getD_seg _ _ _ _ _ (by omega), getD_seg _ _ _ _ _ (by omega)]
          congr 1
          omega
      have hwhole : funMSort key (seg arr left right)
          = List.merge F1 F2 (fun a b => decide (key a ≤ key b)) := by
        rw [funMSort, if_neg (by rw [hsegL]; omega), hsegL, htake2, hdrop2]
      refine ⟨?_, ?_, ?_⟩
      · rw [m1, p1, p2, p3, p4, hwhole]
      · rw [m1, p1, p2, p3, p4]
        simp only [List.length_append, hA, hF1, hF2, List.length_merge, List.length_drop]
        omega
      · omega

/-! ## Functional merge sort: permutation, sortedness, stability -/

theorem funMSort_perm {α : Type} (key : α → ℚ) :
    ∀ (n : ℕ) (l : List α), l.length ≤ n → (funMSort key l).Perm l := by
  intro n
  induction n with
  | zero =>
    intro l h
    rw [funMSort, if_pos (by omega)]
  | succ n ih =>
    intro l h
    by_cases h1 : l.length ≤ 1
    · rw [funMSort, if_pos h1]
    · rw [funMSort, if_neg h1]
      refine (List.perm_merge _ _ _).trans ?_
      have h2 := ih (l.take (l.length / 2)) (by simp only [List.length_take]; omega)
      have h3 := ih (l.drop (l.length / 2)) (by simp only [List.length_drop]; omega)
      refine (h2.append h3).trans ?_
      rw [List.take_append_drop]

theorem merge_pairwise {α : Type} (key : α → ℚ) :
    ∀ (L : List α), List.Pairwise (fun a b => key a ≤ key b) L →
    ∀ (R : List α), List.Pairwise (fun a b => key a ≤ key b) R →
    List.Pairwise (fun a b => key a ≤ key b)
      (List.merge L R (fun a b => decide (key a ≤ key b))) := by
  intro L
  induction L with
  | nil =>
    intro _ R hR
    rw [List.nil_merge]
    exact hR
  | cons x L ihL =>
    intro hL R
    induction R with
    | nil =>
      intro _
      rw [merge_nil_right]
      exact hL
    | cons y R ihR =>
      intro hR
      rw [List.cons_merge_cons]
      by_cases hxy : key x ≤ key y
      · rw [if_pos (by simpa using hxy)]
        rw [List.pairwise_cons]
        constructor
        · intro z hz
          have hz2 : z ∈ L ++ (y :: R) := (List.perm_merge _ _ _).subset hz
          rw [List.mem_append] at hz2
          rcases hz2 with hz2 | hz2
          · exact (List.pairwise_cons.mp hL).1 z hz2
          · rcases List.mem_cons.mp hz2 with rfl | hz3
            · exact hxy
            · exact hxy.trans ((List.pairwise_cons.mp hR).1 z hz3)
        · exact ihL (List.pairwise_cons.mp hL).2 (y :: R) hR
      · rw [if_neg (by simpa using hxy)]
        rw [List.pairwise_cons]
        have hyx : key y ≤ key x := le_of_not_le hxy
        constructor
        · intro z hz
          have hz2 : z ∈ (x :: L) ++ R := (List.perm_merge _ _ _).subset hz
          rw [List.mem_append] at hz2
          rcases hz2 with hz2 | hz2
          · rcases List.mem_cons.mp hz2 with rfl | hz3
            · exact hyx
            · exact hyx.trans ((List.pairwise_cons.mp hL).1 z hz3)
          · exact (List.pairwise_cons.mp hR).1 z hz2
        · exact ihR (List.pairwise_cons.mp hR).2

theorem merge_filter {α : Type} (key : α → ℚ) (kv : ℚ) :
    ∀ (L : List α), List.Pairwise (fun a b => key a ≤ key b) L → ∀ (R : List α),
    (List.merge L R (fun a b => decide (key a ≤ key b))).filter
        (fun a => decide (key a = kv))
      = L.filter (fun a => decide (key a = kv)) ++ R.filter (fun a => decide (key a = kv)) := by
  intro L
  induction L with
  | nil =>
    intro _ R
    rw [List.nil_merge]
    simp
  | cons x L ihL =>
    intro hL R
    induction R with
    | nil =>
      rw [merge_nil_right]
      simp
    | cons y R ihR =>
      rw [List.cons_merge_cons]
      by_cases hxy : key x ≤ key y
      · rw [if_pos (by simpa using hxy), List.filter_cons,
          ihL (List.pairwise_cons.mp hL).2 (y :: R)]
        conv_rhs => rw [List.filter_cons]
        split_ifs with hx
        · rw [List.cons_append]
        · rfl
      · rw [if_neg (by simpa using hxy), List.filter_cons, ihR]
        have hyx : key y < key x := not_le.mp hxy
        by_cases hy : key y = kv
        · have hnil : (x :: L).filter (fun a => decide (key a = kv)) = [] := by
            rw [List.filter_eq_nil_iff]
            intro z hz
            simp only [decide_eq_true_eq]
            rcases List.mem_cons.mp hz with rfl | hz2
            · rw [← hy]
              exact ne_of_gt hyx
            · rw [← hy]
              have := (List.pairwise_cons.mp hL).1 z hz2
              exact ne_of_gt (lt_of_lt_of_le hyx this)
          have hyR : (y :: R).filter (fun a => decide (key a = kv))
              = y :: R.filter (fun a => decide (key a = kv)) := by
            rw [List.filter_cons, if_pos (by simpa using hy)]
          rw [if_pos (by simpa using hy), hnil, hyR]
          simp
        · have hyR : (y :: R).filter (fun a => decide (key a = kv))
              = R.filter (fun a => decide (key a = kv)) := by
            rw [List.filter_cons, if_neg (by simpa using hy)]
          rw [if_neg (by simpa using hy), hyR]

theorem funMSort_sorted {α : Type} (key : α → ℚ) :
    ∀ (n : ℕ) (l : List α), l.length ≤ n →
    List.Pairwise (fun a b => key a ≤ key b) (funMSort key l) := by
  intro n
  induction n with
  | zero =>
    intro l h
    rw [funMSort, if_pos (by omega)]
    have h0 : l = [] := List.length_eq_zero.mp (by omega)
    rw [h0]
    exact List.Pairwise.nil
  | succ n ih =>
    intro l h
    by_cases h1 : l.length ≤ 1
    · rw [funMSort, if_pos h1]
      rcases l with _ | ⟨a, _ | ⟨b, t⟩⟩
      · exact List.Pairwise.nil
      · exact List.pairwise_singleton _ a
      · simp at h1
    · rw [funMSort, if_neg h1]
      exact merge_pairwise key _
        (ih (l.take (l.length / 2)) (by simp only [List.length_take]; omega)) _
        (ih (l.drop (l.length / 2)) (by simp only [List.length_drop]; omega))

theorem funMSort_filter {α : Type} (key : α → ℚ) (kv : ℚ) :
    ∀ (n : ℕ) (l : List α), l.length ≤ n →
    (funMSort key l).filter (fun a => decide (key a = kv))
      = l.filter (fun a => decide (key a = kv)) := by
  intro n
  induction n with
  | zero =>
    intro l h
    rw [funMSort, if_pos (by omega)]
  | succ n ih =>
    intro l h
    by_cases h1 : l.length ≤ 1
    · rw [funMSort, if_pos h1]
    · rw [funMSort, if_neg h1,
        merge_filter key kv _
          (funMSort_sorted key n _ (by simp only [List.length_take]; omega)) _,
        ih _ (by simp only [List.length_take]; omega),
        ih _ (by simp only [List.length_drop]; omega),
        ← List.filter_append, List.take_append_drop]

theorem mergesortRec_whole {α : Type} (key : α → ℚ) (d : α) (l temp : List α)
    (htemp : temp.length = l.length) :
    (mergesortRec key d l temp 0 l.length).1 = funMSort key l := by
  obtain ⟨e, _, _⟩ := mergesortRec_spec key d l.length l temp 0 l.length
    (by omega) (by omega) le_rfl htemp
  rw [e]
  have hseg : seg l 0 l.length = l := by
    simp [seg]
  rw [hseg]
  simp

theorem mergesort_f32_eq (l : List ℚ) : mergesort_f32 l = funMSort (fun a => a) l := by
  rw [mergesort_f32, mergesortRec_whole _ _ _ _ (by simp)]

theorem mergesortRecords_eq (l : List (ℚ × ℚ)) :
    mergesortRecords l = funMSort Prod.fst l := by
  rw [mergesortRecords, mergesortRec_whole _ _ _ _ (by simp)]

/-- C6: mergesort is stable — on records sorted by a key with the
source's left-biased `<=` comparison, the output is sorted by key and,
for every key value, lists the records carrying that key in exactly
their input order (hence ties keep their original relative order). -/
theorem c6_mergesort_stable (l : List (ℚ × ℚ)) :
    List.Pairwise (fun a b : ℚ × ℚ => a.1 ≤ b.1) (mergesortRecords l)
      ∧ ∀ kv : ℚ, (mergesortRecords l).filter (fun a => decide (a.1 = kv))
          = l.filter (fun a => decide (a.1 = kv)) := by
  rw [mergesortRecords_eq]
  exact ⟨funMSort_sorted Prod.fst l.length l le_rfl,
    fun kv => funMSort_filter Prod.fst kv l.length l le_rfl⟩

/-! ## Quicksort: Lomuto partition invariants and recursion -/

theorem pairwise_of_getD (l : List ℚ)
    (h : ∀ p q, p ≤ q → q < l.length → l.getD p 0 ≤ l.getD q 0) :
    List.Pairwise (fun a b : ℚ => a ≤ b) l := by
  rw [List.pairwise_iff_getElem]
  intro i j hi hj hij
  have h2 := h i j (by omega) hj
  rwa [List.getD_eq_getElem _ _ hi, List.getD_eq_getElem _ _ hj] at h2

theorem partitionLoop_spec :
    ∀ (n : ℕ) (a : List ℚ) (pv : ℚ) (high i j : ℕ),
    high - j ≤ n → i ≤ j → j ≤ high → high ≤ a.length →
    (∀ p, i ≤ p → p < j → pv < a.getD p 0) →
    (partitionLoop a pv high i j).1.length = a.length
    ∧ (partitionLoop a pv high i j).1.Perm a
    ∧ i ≤ (partitionLoop a pv high i j).2 ∧ (partitionLoop a pv high i j).2 ≤ high
    ∧ (∀ p, p < i → (partitionLoop a pv high i j).1.getD p 0 = a.getD p 0)
    ∧ (∀ p, high ≤ p → (partitionLoop a pv high i j).1.getD p 0 = a.getD p 0)
    ∧ (∀ p, i ≤ p → p < (partitionLoop a pv high i j).2 →
        (partitionLoop a pv high i j).1.getD p 0 ≤ pv)
    ∧ (∀ p, (partitionLoop a pv high i j).2 ≤ p → p < high →
        pv < (partitionLoop a pv high i j).1.getD p 0) := by
  intro n
  induction n with
  | zero =>
    intro a pv high i j h1 h2 h3 h4 hmid
    rw [partitionLoop, if_neg (by omega)]
    refine ⟨rfl, List.Perm.refl _, le_rfl, h2.trans h3, fun p _ => rfl, fun p _ => rfl,
      ?_, ?_⟩
    · intro p hp1 hp2
      have hp2' : p < i := hp2
      omega
    · intro p hp1 hp2
      have hp1' : i ≤ p := hp1
      exact hmid p hp1' (by omega)
  | succ n ih =>
    intro a pv high i j h1 h2 h3 h4 hmid
    by_cases hj : j < high
    · rw [partitionLoop, if_pos hj]
      by_cases hle : a.getD j 0 ≤ pv
      · rw [if_pos hle]
        have hilen : i < a.length := by omega
        have hjlen : j < a.length := by omega
        have hswlen : (swapL a i j).length = a.length := length_swapL a i j
        have hswperm := swapL_perm a i j hilen hjlen
        have hmid' : ∀ p, i + 1 ≤ p → p < j + 1 → pv < (swapL a i j).getD p 0 := by
          intro p hp1 hp2
          rw [getD_swapL a i j p hilen hjlen]
          by_cases hpj : p = j
          · rw [if_pos hpj]
            exact hmid i le_rfl (by omega)
          · rw [if_neg hpj, if_neg (by omega)]
            exact hmid p (by omega) (by omega)
        obtain ⟨k1, k2, k3, k4, k5, k6, k7, k8⟩ := ih (swapL a i j) pv high (i + 1) (j + 1)
          (by omega) (by omega) (by omega) (by omega) hmid'
        refine ⟨k1.trans hswlen, k2.trans hswperm, by omega, k4, ?_, ?_, ?_, k8⟩
        · intro p hp
          rw [k5 p (by omega), getD_swapL a i j p hilen hjlen, if_neg (by omega),
            if_neg (by omega)]
        · intro p hp
          rw [k6 p hp, getD_swapL a i j p hilen hjlen, if_neg (by omega),
            if_neg (by omega)]
        · intro p hp1 hp2
          by_cases hpi : p = i
          · rw [k5 p (by omega), getD_swapL a i j p hilen hjlen]
            by_cases hpj : p = j
            · rw [if_pos hpj]
              rw [show i = j by omega]
              exact hle
            · rw [if_neg hpj, if_pos hpi]
              exact hle
          · exact k7 p (by omega) hp2
      · rw [if_neg hle]
        have hmid' : ∀ p, i ≤ p → p < j + 1 → pv < a.getD p 0 := by
          intro p hp1 hp2
          by_cases hpj : p = j
          · subst hpj
            exact not_le.mp hle
          · exact hmid p hp1 (by omega)
        exact ih a pv high i (j + 1) (by omega) (by omega) (by omega) h4 hmid'
    · rw [partitionLoop, if_neg hj]
      refine ⟨rfl, List.Perm.refl _, le_rfl, h2.trans h3, fun p _ => rfl, fun p _ => rfl,
        ?_, ?_⟩
      · intro p hp1 hp2
        have hp2' : p < i := hp2
        omega
      · intro p hp1 hp2
        have hp1' : i ≤ p := hp1
        exact hmid p hp1' (by omega)

theorem partition_spec (a : List ℚ) (low high : ℕ) (hlh : low < high)
    (hhl : high < a.length) :
    (partition a low high).1.length = a.length
    ∧ (partition a low high).1.Perm a
    ∧ low ≤ (partition a low high).2 ∧ (partition a low high).2 ≤ high
    ∧ (∀ q, q < low ∨ high < q →
        (partition a low high).1.getD q 0 = a.getD q 0)
    ∧ (∀ q, low ≤ q → q < (partition a low high).2 →
        (partition a low high).1.getD q 0
          ≤ (partition a low high).1.getD (partition a low high).2 0)
    ∧ (∀ q, (partition a low high).2 < q → q ≤ high →
        (partition a low high).1.getD (partition a low high).2 0
          < (partition a low high).1.getD q 0) := by
  obtain ⟨r1, r2, r3, r4, r5, r6, r7, r8⟩ := partitionLoop_spec (high - low) a
    (a.getD high 0) high low low le_rfl le_rfl (by omega) (by omega)
    (fun p hp1 hp2 => absurd hp2 (by omega))
  simp only [partition]
  set r := partitionLoop a (a.getD high 0) high low low with hr
  have hr2len : r.2 < r.1.length := by omega
  have hhl2 : high < r.1.length := by omega
  have hpv : r.1.getD high 0 = a.getD high 0 := r6 high le_rfl
  have hbp : (swapL r.1 r.2 high).getD r.2 0 = a.getD high 0 := by
    rw [getD_swapL _ _ _ _ hr2len hhl2]
    split_ifs with e1 e2
    · rw [e1]
      exact hpv
    · exact hpv
    · exact absurd rfl e2
  refine ⟨?_, ?_, r3, r4, ?_, ?_, ?_⟩
  · rw [length_swapL]
    exact r1
  · exact (swapL_perm r.1 r.2 high hr2len hhl2).trans r2
  · intro q hq
    rw [getD_swapL _ _ _ _ hr2len hhl2, if_neg (by omega), if_neg (by omega)]
    rcases hq with hq | hq
    · exact r5 q hq
    · exact r6 q (by omega)
  · intro q hq1 hq2
    rw [hbp, getD_swapL _ _ _ _ hr2len hhl2, if_neg (by omega), if_neg (by omega)]
    exact r7 q hq1 hq2
  · intro q hq1 hq2
    rw [hbp]
    by_cases hqh : q = high
    · subst hqh
      rw [getD_swapL _ _ _ _ hr2len hhl2, if_pos rfl]
      exact r8 r.2 le_rfl (by omega)
    · rw [getD_swapL _ _ _ _ hr2len hhl2, if_neg hqh, if_neg (by omega)]
      exact r8 q (by omega) (by omega)

theorem quicksortRec_spec :
    ∀ (n : ℕ) (a : List ℚ) (low high : ℕ),
    high - low ≤ n → high < a.length →
    (quicksortRec a low high).length = a.length
    ∧ (quicksortRec a low high).Perm a
    ∧ (∀ q, q < low ∨ high < q → (quicksortRec a low high).getD q 0 = a.getD q 0)
    ∧ (∀ p q, low ≤ p → p ≤ q → q ≤ high →
        (quicksortRec a low high).getD p 0 ≤ (quicksortRec a low high).getD q 0) := by
  intro n
  induction n with
  | zero =>
    intro a low high h1 h2
    rw [quicksortRec, if_neg (by omega)]
    refine ⟨rfl, List.Perm.refl _, fun q _ => rfl, ?_⟩
    intro p q hp hpq hq
    have hpq2 : p = q := by omega
    rw [hpq2]
  | succ n ih =>
    intro a low high h1 hhigh
    by_cases hlh : low < high
    · rw [quicksortRec, if_pos hlh]
      obtain ⟨hblen, hbperm, hplow, hphigh, hbout, hbleft, hbright⟩ :=
        partition_spec a low high hlh hhigh
      set b := (partition a low high).1 with hbdef
      set p := (partition a low high).2 with hpdef
      have hA1 : (if 0 < p then quicksortRec b low (p - 1) else b).length = a.length
          ∧ (if 0 < p then quicksortRec b low (p - 1) else b).Perm b
          ∧ (∀ q, q < low ∨ p ≤ q →
              (if 0 < p then quicksortRec b low (p - 1) else b).getD q 0 = b.getD q 0)
          ∧ (∀ p1 q1, low ≤ p1 → p1 ≤ q1 → q1 + 1 ≤ p →
              (if 0 < p then quicksortRec b low (p - 1) else b).getD p1 0
                ≤ (if 0 < p then quicksortRec b low (p - 1) else b).getD q1 0) := by
        by_cases hp0 : 0 < p
        · rw [if_pos hp0]
          obtain ⟨l1, l2, l3, l4⟩ := ih b low (p - 1) (by omega) (by omega)
          refine ⟨l1.trans hblen, l2, ?_, ?_⟩
          · intro q hq
            refine l3 q ?_
            rcases hq with hq | hq
            · exact Or.inl hq
            · exact Or.inr (by omega)
          · intro p1 q1 hh1 hh2 hh3
            exact l4 p1 q1 hh1 hh2 (by omega)
        · rw [if_neg hp0]
          refine ⟨hblen, List.Perm.refl _, fun q _ => rfl, ?_⟩
          intro p1 q1 hh1 hh2 hh3
          have : p1 = q1 := by omega
          rw [this]
      set a1 := if 0 < p then quicksortRec b low (p - 1) else b with ha1
      obtain ⟨A1len, A1perm, A1out, A1sorted⟩ := hA1
      obtain ⟨R1, R2, R3, R4⟩ := ih a1 (p + 1) high (by omega) (by omega)
      set r := quicksortRec a1 (p + 1) high with hrdef
      have vp : r.getD p 0 = b.getD p 0 := by
        rw [R3 p (Or.inl (by omega)), A1out p (Or.inr le_rfl)]
      have hsegL : (seg a1 low p).Perm (seg b low p) :=
        seg_perm_mid a1 b low p (by omega) A1perm (by omega)
          (fun pos hpos => A1out pos hpos)
      have hleftA1 : ∀ q, low ≤ q → q < p → a1.getD q 0 ≤ b.getD p 0 :=
        seg_forall_transfer a1 b low p (fun x => x ≤ b.getD p 0) hsegL
          (by omega) (by omega) hbleft
      have hsegR : (seg r (p + 1) (high + 1)).Perm (seg a1 (p + 1) (high + 1)) :=
        seg_perm_mid r a1 (p + 1) (high + 1) (by omega) R2 (by omega)
          (fun pos hpos => R3 pos (by omega))
      have hrightA1 : ∀ q, p + 1 ≤ q → q < high + 1 → b.getD p 0 < a1.getD q 0 := by
        intro q hq1 hq2
        rw [A1out q (Or.inr (by omega))]
        exact hbright q (by omega) (by omega)
      have hrightR : ∀ q, p + 1 ≤ q → q < high + 1 → b.getD p 0 < r.getD q 0 :=
        seg_forall_transfer r a1 (p + 1) (high + 1) (fun x => b.getD p 0 < x) hsegR
          (by omega) (by omega) hrightA1
      refine ⟨R1.trans A1len, R2.trans (A1perm.trans hbperm), ?_, ?_⟩
      · intro q hq
        rw [R3 q (by rcases hq with hq | hq; exact Or.inl (by omega); exact Or.inr hq),
          A1out q (by rcases hq with hq | hq; exact Or.inl hq; exact Or.inr (by omega)),
          hbout q hq]
      · intro p1 q1 hp1 hpq1 hq1
        rcases lt_trichotomy q1 p with hc1 | hc1 | hc1
        · rw [R3 p1 (Or.inl (by omega)), R3 q1 (Or.inl (by omega))]
          exact A1sorted p1 q1 hp1 hpq1 (by omega)
        · rcases eq_or_lt_of_le hpq1 with hc2 | hc2
          · rw [hc2]
          · rw [hc1, vp, R3 p1 (Or.inl (by omega))]
            exact hleftA1 p1 hp1 (by omega)
        · rcases lt_trichotomy p1 p with hd1 | hd1 | hd1
          · rw [R3 p1 (Or.inl (by omega))]
            exact le_trans (hleftA1 p1 hp1 hd1) (le_of_lt (hrightR q1 (by omega) (by omega)))
          · rw [hd1, vp]
            exact le_of_lt (hrightR q1 (by omega) (by omega))
          · exact R4 p1 q1 (by omega) hpq1 (by omega)
    · rw [quicksortRec, if_neg hlh]
      refine ⟨rfl, List.Perm.refl _, fun q _ => rfl, ?_⟩
      intro p q hp hpq hq
      have hpq2 : p = q := by omega
      rw [hpq2]

theorem quicksort_f32_facts (l : List ℚ) :
    (quicksort_f32 l).length = l.length ∧ (quicksort_f32 l).Perm l
      ∧ List.Pairwise (fun a b : ℚ => a ≤ b) (quicksort_f32 l) := by
  rw [quicksort_f32]
  rcases Nat.eq_zero_or_pos l.length with h0 | h0
  · have hl : l = [] := List.length_eq_zero.mp h0
    subst hl
    rw [quicksortRec, if_neg (by omega)]
    exact ⟨rfl, List.Perm.refl _, List.Pairwise.nil⟩
  · obtain ⟨q1, q2, q3, q4⟩ := quicksortRec_spec (l.length - 1) l 0 (l.length - 1)
      le_rfl (by omega)
    refine ⟨q1, q2, pairwise_of_getD _ ?_⟩
    intro p q hpq hq
    rw [q1] at hq
    exact q4 p q (by omega) hpq (by omega)

/-! ## Heapsort: sift-down, heap building and extraction -/

theorem heapLargest_cases (a : List ℚ) (n i : ℕ) :
    heapLargest a n i = i
    ∨ (heapLargest a n i = 2 * i + 1 ∧ 2 * i + 1 < n)
    ∨ (heapLargest a n i = 2 * i + 2 ∧ 2 * i + 2 < n) := by
  rw [heapLargest]
  set L0 := if 2 * i + 1 < n ∧ a.getD i 0 < a.getD (2 * i + 1) 0 then 2 * i + 1 else i
    with hL0
  by_cases c2 : 2 * i + 2 < n ∧ a.getD L0 0 < a.getD (2 * i + 2) 0
  · rw [if_pos c2]
    exact Or.inr (Or.inr ⟨rfl, c2.1⟩)
  · rw [if_neg c2, hL0]
    split_ifs with c1
    · exact Or.inr (Or.inl ⟨rfl, c1.1⟩)
    · exact Or.inl rfl

theorem heapLargest_max (a : List ℚ) (n i : ℕ) :
    a.getD i 0 ≤ a.getD (heapLargest a n i) 0
    ∧ (2 * i + 1 < n → a.getD (2 * i + 1) 0 ≤ a.getD (heapLargest a n i) 0)
    ∧ (2 * i + 2 < n → a.getD (2 * i + 2) 0 ≤ a.getD (heapLargest a n i) 0) := by
  rw [heapLargest]
  set L0 := if 2 * i + 1 < n ∧ a.getD i 0 < a.getD (2 * i + 1) 0 then 2 * i + 1 else i
    with hL0
  have hL0le : a.getD i 0 ≤ a.getD L0 0
      ∧ (2 * i + 1 < n → a.getD (2 * i + 1) 0 ≤ a.getD L0 0) := by
    rw [hL0]
    split_ifs with c
    · exact ⟨le_of_lt c.2, fun _ => le_rfl⟩
    · refine ⟨le_rfl, fun h => ?_⟩
      rcases not_and_or.mp c with c1 | c1
      · exact absurd h c1
      · exact le_of_not_lt c1
  by_cases c2 : 2 * i + 2 < n ∧ a.getD L0 0 < a.getD (2 * i + 2) 0
  · rw [if_pos c2]
    exact ⟨hL0le.1.trans (le_of_lt c2.2), fun h => (hL0le.2 h).trans (le_of_lt c2.2),
      fun _ => le_rfl⟩
  · rw [if_neg c2]
    refine ⟨hL0le.1, hL0le.2, fun h => ?_⟩
    rcases not_and_or.mp c2 with c1 | c1
    · exact absurd h c1
    · exact le_of_not_lt c1

theorem heapify_of_eq (a : List ℚ) (n i : ℕ) (hLi : heapLargest a n i = i)
    (hsub : ∀ j, i < j → heapCond a n j) :
    (heapify a n i).length = a.length
    ∧ (heapify a n i).Perm a
    ∧ (∀ p, p ≠ i → p < 2 * i + 1 → (heapify a n i).getD p 0 = a.getD p 0)
    ∧ (∀ p, n ≤ p → (heapify a n i).getD p 0 = a.getD p 0)
    ∧ ((heapify a n i).getD i 0 = a.getD i 0
        ∨ (2 * i + 1 < n ∧ (heapify a n i).getD i 0 = a.getD (2 * i + 1) 0)
        ∨ (2 * i + 2 < n ∧ (heapify a n i).getD i 0 = a.getD (2 * i + 2) 0))
    ∧ (∀ j, i ≤ j → heapCond (heapify a n i) n j) := by
  rw [heapify, if_neg (not_not_intro hLi)]
  refine ⟨rfl, List.Perm.refl _, fun p _ _ => rfl, fun p _ => rfl, Or.inl rfl, ?_⟩
  intro j hij
  rcases eq_or_lt_of_le hij with heq | hlt
  · rw [← heq]
    have hm := heapLargest_max a n i
    rw [hLi] at hm
    exact ⟨fun h => hm.2.1 h, fun h => hm.2.2 h⟩
  · exact hsub j hlt

theorem heapify_spec :
    ∀ (fuel : ℕ) (a : List ℚ) (n i : ℕ),
    n - i ≤ fuel → n ≤ a.length →
    (∀ j, i < j → heapCond a n j) →
    (heapify a n i).length = a.length
    ∧ (heapify a n i).Perm a
    ∧ (∀ p, p ≠ i → p < 2 * i + 1 → (heapify a n i).getD p 0 = a.getD p 0)
    ∧ (∀ p, n ≤ p → (heapify a n i).getD p 0 = a.getD p 0)
    ∧ ((heapify a n i).getD i 0 = a.getD i 0
        ∨ (2 * i + 1 < n ∧ (heapify a n i).getD i 0 = a.getD (2 * i + 1) 0)
        ∨ (2 * i + 2 < n ∧ (heapify a n i).getD i 0 = a.getD (2 * i + 2) 0))
    ∧ (∀ j, i ≤ j → heapCond (heapify a n i) n j) := by
  intro fuel
  induction fuel with
  | zero =>
    intro a n i h1 h2 hsub
    have hLi : heapLargest a n i = i := by
      rcases heapLargest_cases a n i with h | h | h
      · exact h
      · omega
      · omega
    exact heapify_of_eq a n i hLi hsub
  | succ fuel ih =>
    intro a n i h1 h2 hsub
    by_cases hLi : heapLargest a n i = i
    · exact heapify_of_eq a n i hLi hsub
    · have hLc : (heapLargest a n i = 2 * i + 1 ∧ 2 * i + 1 < n)
          ∨ (heapLargest a n i = 2 * i + 2 ∧ 2 * i + 2 < n) := by
        rcases heapLargest_cases a n i with h | h | h
        · exact absurd h hLi
        · exact Or.inl h
        · exact Or.inr h
      have hmax := heapLargest_max a n i
      set L := heapLargest a n i with hL
      have hiL : i < L := by rcases hLc with ⟨h, _⟩ | ⟨h, _⟩ <;> omega
      have hLn : L < n := by rcases hLc with ⟨h, hn⟩ | ⟨h, hn⟩ <;> omega
      have hL2 : L ≤ 2 * i + 2 := by rcases hLc with ⟨h, _⟩ | ⟨h, _⟩ <;> omega
      have hLlen : L < a.length := by omega
      have hilen : i < a.length := by omega
      rw [heapify, if_pos hLi]
      set sw := swapL a i L with hsw
      have hswlen : sw.length = a.length := length_swapL a i L
      have hswperm : sw.Perm a := swapL_perm a i L hilen hLlen
      have hswD : ∀ p, p ≠ i → p ≠ L → sw.getD p 0 = a.getD p 0 := by
        intro p hp1 hp2
        rw [hsw, getD_swapL a i L p hilen hLlen, if_neg hp2, if_neg hp1]
      have hswi : sw.getD i 0 = a.getD L 0 := by
        rw [hsw, getD_swapL a i L i hilen hLlen, if_neg (by omega), if_pos rfl]
      have hswL : sw.getD L 0 = a.getD i 0 := by
        rw [hsw, getD_swapL a i L L hilen hLlen, if_pos rfl]
      have hsub' : ∀ j, L < j → heapCond sw n j := by
        intro j hj
        have hcj := hsub j (by omega)
        refine ⟨fun hc => ?_, fun hc => ?_⟩
        · rw [hswD (2 * j + 1) (by omega) (by omega), hswD j (by omega) (by omega)]
          exact hcj.1 hc
        · rw [hswD (2 * j + 2) (by omega) (by omega), hswD j (by omega) (by omega)]
          exact hcj.2 hc
      obtain ⟨r1, r2, r3, r4, r5, r6⟩ := ih sw n L (by omega) (by omega) hsub'
      have hri : (heapify sw n L).getD i 0 = a.getD L 0 := by
        rw [r3 i (by omega) (by omega), hswi]
      have hchild : ∀ c, c < n → (c = 2 * i + 1 ∨ c = 2 * i + 2) →
          (heapify sw n L).getD c 0 ≤ a.getD L 0 := by
        intro c hcn hcc
        by_cases hcL : c = L
        · rw [hcL]
          rcases r5 with h5 | ⟨h5n, h5⟩ | ⟨h5n, h5⟩
          · rw [h5, hswL]
            exact hmax.1
          · rw [h5, hswD (2 * L + 1) (by omega) (by omega)]
            exact (hsub L hiL).1 h5n
          · rw [h5, hswD (2 * L + 2) (by omega) (by omega)]
            exact (hsub L hiL).2 h5n
        · have hcbound : c < 2 * L + 1 := by rcases hcc with rfl | rfl <;> omega
          rw [r3 c hcL hcbound, hswD c (by omega) (by omega)]
          rcases hcc with rfl | rfl
          · exact hmax.2.1 hcn
          · exact hmax.2.2 hcn
      refine ⟨r1.trans hswlen, r2.trans hswperm, ?_, ?_, ?_, ?_⟩
      · intro p hp1 hp2
        rw [r3 p (by omega) (by omega), hswD p hp1 (by omega)]
      · intro p hp
        rw [r4 p hp, hswD p (by omega) (by omega)]
      · rcases hLc with ⟨he, hn⟩ | ⟨he, hn⟩
        · exact Or.inr (Or.inl ⟨hn, by rw [hri, he]⟩)
        · exact Or.inr (Or.inr ⟨hn, by rw [hri, he]⟩)
      · intro j hij
        rcases lt_trichotomy j L with hjL | hjL | hjL
        · rcases eq_or_lt_of_le hij with heq | hilt
          · rw [← heq]
            refine ⟨fun hc => ?_, fun hc => ?_⟩
            · rw [hri]
              exact hchild (2 * i + 1) hc (Or.inl rfl)
            · rw [hri]
              exact hchild (2 * i + 2) hc (Or.inr rfl)
          · have hcj := hsub j hilt
            have hframe : ∀ q, i < q → q < 2 * L + 1 → q ≠ L →
                (heapify sw n L).getD q 0 = a.getD q 0 := by
              intro q hq1 hq2 hq3
              rw [r3 q hq3 hq2, hswD q (by omega) (by omega)]
            refine ⟨fun hc => ?_, fun hc => ?_⟩
            · rw [hframe (2 * j + 1) (by omega) (by omega) (by omega),
                hframe j (by omega) (by omega) (by omega)]
              exact hcj.1 hc
            · rw [hframe (2 * j + 2) (by omega) (by omega) (by omega),
                hframe j (by omega) (by omega) (by omega)]
              exact hcj.2 hc
        · rw [hjL]
          exact r6 L le_rfl
        · exact r6 j (by omega)

theorem heap_root_max (a : List ℚ) (n : ℕ) (h : ∀ j, heapCond a n j) :
    ∀ p, p < n → a.getD p 0 ≤ a.getD 0 0 := by
  intro p
  induction p using Nat.strong_induction_on with
  | _ p ih =>
    intro hp
    rcases Nat.eq_zero_or_pos p with h0 | h0
    · rw [h0]
    · have hpar : p = 2 * ((p - 1) / 2) + 1 ∨ p = 2 * ((p - 1) / 2) + 2 := by omega
      have hparlt : (p - 1) / 2 < p := by omega
      have hparn : (p - 1) / 2 < n := by omega
      rcases hpar with hp1 | hp1
      · have h2 := (h ((p - 1) / 2)).1 (by omega)
        rw [← hp1] at h2
        exact h2.trans (ih ((p - 1) / 2) hparlt hparn)
      · have h2 := (h ((p - 1) / 2)).2 (by omega)
        rw [← hp1] at h2
        exact h2.trans (ih ((p - 1) / 2) hparlt hparn)

theorem buildFold_spec :
    ∀ (m : ℕ) (a : List ℚ) (n : ℕ), n ≤ a.length →
    (∀ j, m ≤ j → heapCond a n j) →
    ((List.range m).reverse.foldl (fun x i => heapify x n i) a).length = a.length
    ∧ ((List.range m).reverse.foldl (fun x i => heapify x n i) a).Perm a
    ∧ (∀ j, heapCond ((List.range m).reverse.foldl (fun x i => heapify x n i) a) n j) := by
  intro m
  induction m with
  | zero =>
    intro a n h1 h2
    simp only [List.range_zero, List.reverse_nil, List.foldl_nil]
    exact ⟨by trivial, List.Perm.refl _, fun j => h2 j (Nat.zero_le j)⟩
  | succ m ih =>
    intro a n h1 h2
    rw [List.range_succ, List.reverse_append, List.foldl_append]
    simp only [List.reverse_cons, List.reverse_nil, List.nil_append, List.foldl_cons,
      List.foldl_nil]
    obtain ⟨s1, s2, s3, s4, s5, s6⟩ := heapify_spec n a n m (by omega) h1
      (fun j hj => h2 j (by omega))
    obtain ⟨t1, t2, t3⟩ := ih (heapify a n m) n (by omega) (fun j hj => s6 j hj)
    exact ⟨t1.trans s1, t2.trans s2, t3⟩

theorem extractFold_spec :
    ∀ (m : ℕ) (a : List ℚ), m < a.length →
    (∀ j, heapCond a (m + 1) j) →
    (∀ p q, m < p → p ≤ q → q < a.length → a.getD p 0 ≤ a.getD q 0) →
    (∀ p q, p ≤ m → m < q → q < a.length → a.getD p 0 ≤ a.getD q 0) →
    ((List.range' 1 m).reverse.foldl (fun x i => heapify (swapL x 0 i) i 0) a).length
        = a.length
    ∧ ((List.range' 1 m).reverse.foldl (fun x i => heapify (swapL x 0 i) i 0) a).Perm a
    ∧ (∀ p q, p ≤ q → q < a.length →
        ((List.range' 1 m).reverse.foldl (fun x i => heapify (swapL x 0 i) i 0) a).getD p 0
          ≤ ((List.range' 1 m).reverse.foldl
              (fun x i => heapify (swapL x 0 i) i 0) a).getD q 0) := by
  intro m
  induction m with
  | zero =>
    intro a hm hheap htail hbound
    simp only [List.range'_zero, List.reverse_nil, List.foldl_nil]
    refine ⟨by trivial, List.Perm.refl _, ?_⟩
    intro p q hpq hq
    rcases Nat.eq_zero_or_pos p with hp0 | hp0
    · rcases Nat.eq_zero_or_pos q with hq0 | hq0
      · rw [hp0, hq0]
      · rw [hp0]
        exact hbound 0 q le_rfl hq0 hq
    · exact htail p q hp0 hpq hq
  | succ m ih =>
    intro a hm hheap htail hbound
    rw [List.range'_concat, List.reverse_append, List.foldl_append]
    simp only [List.reverse_cons, List.reverse_nil, List.nil_append, List.foldl_cons,
      List.foldl_nil, one_mul]
    rw [Nat.add_comm 1 m]
    have h0len : 0 < a.length := by omega
    set A := swapL a 0 (m + 1) with hA
    have hAlen : A.length = a.length := length_swapL a 0 (m + 1)
    have hAperm : A.Perm a := swapL_perm a 0 (m + 1) h0len hm
    have hAD : ∀ p, p ≠ 0 → p ≠ m + 1 → A.getD p 0 = a.getD p 0 := by
      intro p hp1 hp2
      rw [hA, getD_swapL a 0 (m + 1) p h0len hm, if_neg hp2, if_neg hp1]
    have hA0 : A.getD 0 0 = a.getD (m + 1) 0 := by
      rw [hA, getD_swapL a 0 (m + 1) 0 h0len hm, if_neg (by omega), if_pos rfl]
    have hAm1 : A.getD (m + 1) 0 = a.getD 0 0 := by
      rw [hA, getD_swapL a 0 (m + 1) (m + 1) h0len hm, if_pos rfl]
    have hroot : ∀ p, p < m + 2 → a.getD p 0 ≤ a.getD 0 0 :=
      heap_root_max a (m + 2) hheap
    have hpre : ∀ j, 0 < j → heapCond A (m + 1) j := by
      intro j hj
      have hcj := hheap j
      refine ⟨fun hc => ?_, fun hc => ?_⟩
      · rw [hAD (2 * j + 1) (by omega) (by omega), hAD j (by omega) (by omega)]
        exact hcj.1 (by omega)
      · rw [hAD (2 * j + 2) (by omega) (by omega), hAD j (by omega) (by omega)]
        exact hcj.2 (by omega)
    obtain ⟨s1, s2, s3, s4, s5, s6⟩ := heapify_spec (m + 1) A (m + 1) 0 (by omega)
      (by omega) hpre
    set B := heapify A (m + 1) 0 with hB
    have hBlen : B.length = a.length := s1.trans hAlen
    have hBperm : B.Perm a := s2.trans hAperm
    have hBm1 : B.getD (m + 1) 0 = a.getD 0 0 := by
      rw [s4 (m + 1) le_rfl, hAm1]
    have hBtail : ∀ q, m + 1 < q → B.getD q 0 = a.getD q 0 := by
      intro q hq
      rw [s4 q (by omega), hAD q (by omega) (by omega)]
    have hsegBA : (seg B 0 (m + 1)).Perm (seg A 0 (m + 1)) :=
      seg_perm_mid B A 0 (m + 1) (by omega) s2 (by omega)
        (fun pos hpos => by
          rcases hpos with hpos | hpos
          · omega
          · exact s4 pos hpos)
    have hAbound : ∀ pos, 0 ≤ pos → pos < m + 1 → A.getD pos 0 ≤ a.getD 0 0 := by
      intro pos _ hpos
      by_cases hp0 : pos = 0
      · rw [hp0, hA0]
        exact hroot (m + 1) (by omega)
      · rw [hAD pos hp0 (by omega)]
        exact hroot pos (by omega)
    have hBbound : ∀ pos, 0 ≤ pos → pos < m + 1 → B.getD pos 0 ≤ a.getD 0 0 :=
      seg_forall_transfer B A 0 (m + 1) (fun x => x ≤ a.getD 0 0) hsegBA
        (by omega) (by omega) hAbound
    have ht2 : ∀ p q, m < p → p ≤ q → q < B.length → B.getD p 0 ≤ B.getD q 0 := by
      intro p q hp hpq hq
      by_cases hp1 : p = m + 1
      · rw [hp1, hBm1]
        by_cases hq1 : q = m + 1
        · rw [hq1, hBm1]
        · rw [hBtail q (by omega)]
          exact hbound 0 q (by omega) (by omega) (by omega)
      · rw [hBtail p (by omega), hBtail q (by omega)]
        exact htail p q (by omega) hpq (by omega)
    have ht3 : ∀ p q, p ≤ m → m < q → q < B.length → B.getD p 0 ≤ B.getD q 0 := by
      intro p q hp hq hqlen
      have h1 : B.getD p 0 ≤ a.getD 0 0 := hBbound p (Nat.zero_le p) (by omega)
      by_cases hq1 : q = m + 1
      · rw [hq1, hBm1]
        exact h1
      · rw [hBtail q (by omega)]
        exact h1.trans (hbound 0 q (by omega) (by omega) (by omega))
    obtain ⟨t1, t2, t3⟩ := ih B (by omega) (fun j => s6 j (Nat.zero_le j)) ht2 ht3
    refine ⟨t1.trans hBlen, t2.trans hBperm, ?_⟩
    intro p q hpq hq
    exact t3 p q hpq (by omega)

theorem heapsort_f32_facts (l : List ℚ) :
    (heapsort_f32 l).length = l.length ∧ (heapsort_f32 l).Perm l
      ∧ List.Pairwise (fun a b : ℚ => a ≤ b) (heapsort_f32 l) := by
  rw [heapsort_f32]
  have hinit : ∀ j, l.length / 2 ≤ j → heapCond l l.length j := by
    intro j hj
    exact ⟨fun h => absurd h (by omega), fun h => absurd h (by omega)⟩
  obtain ⟨b1, b2, b3⟩ := buildFold_spec (l.length / 2) l l.length le_rfl hinit
  rcases Nat.eq_zero_or_pos l.length with h0 | h0
  · have hnil : l = [] := List.length_eq_zero.mp h0
    subst hnil
    simp only [List.length_nil, Nat.zero_div, Nat.zero_sub, List.range_zero,
      List.range'_zero, List.reverse_nil, List.foldl_nil]
    exact ⟨by trivial, List.Perm.refl _, List.Pairwise.nil⟩
  · set built := (List.range (l.length / 2)).reverse.foldl (fun x i => heapify x l.length i) l
      with hbuiltdef
    have hm : l.length - 1 < built.length := by omega
    have hheap2 : ∀ j, heapCond built (l.length - 1 + 1) j := by
      intro j
      have h2 := b3 j
      rwa [show l.length - 1 + 1 = l.length by omega]
    have htail2 : ∀ p q, l.length - 1 < p → p ≤ q → q < built.length →
        built.getD p 0 ≤ built.getD q 0 := by
      intro p q hp hpq hq
      exact absurd hq (by omega)
    have hbound2 : ∀ p q, p ≤ l.length - 1 → l.length - 1 < q → q < built.length →
        built.getD p 0 ≤ built.getD q 0 := by
      intro p q hp hq hqlen
      exact absurd hqlen (by omega)
    obtain ⟨t1, t2, t3⟩ := extractFold_spec (l.length - 1) built hm hheap2 htail2 hbound2
    refine ⟨t1.trans b1, t2.trans b2, pairwise_of_getD _ ?_⟩
    intro p q hpq hq
    rw [t1.trans b1] at hq
    exact t3 p q hpq (by omega)

/-- C1: on every NaN-free `f32` array (modelled by its rational values),
each of `quicksort_f32`, `mergesort_f32` and `heapsort_f32` leaves the
array non-decreasing, and the result is a permutation (same multiset) of
the input. -/
theorem c1_sorts_sorted_perm (l : List ℚ) :
    (List.Pairwise (fun a b : ℚ => a ≤ b) (quicksort_f32 l) ∧ (quicksort_f32 l).Perm l)
    ∧ (List.Pairwise (fun a b : ℚ => a ≤ b) (mergesort_f32 l) ∧ (mergesort_f32 l).Perm l)
    ∧ (List.Pairwise (fun a b : ℚ => a ≤ b) (heapsort_f32 l) ∧ (heapsort_f32 l).Perm l) := by
  obtain ⟨q1, q2, q3⟩ := quicksort_f32_facts l
  obtain ⟨e1, e2, e3⟩ := heapsort_f32_facts l
  refine ⟨⟨q3, q2⟩, ⟨?_, ?_⟩, ⟨e3, e2⟩⟩
  · rw [mergesort_f32_eq]
    exact funMSort_sorted (fun a => a) l.length l le_rfl
  · rw [mergesort_f32_eq]
    exact funMSort_perm (fun a => a) l.length l le_rfl

/-! ## Radix sort: counting sort passes -/

theorem digitOf_lt (num exp : ℤ) : digitOf num exp < 10 := by
  rw [digitOf]
  have h1 : (num.tdiv exp).tmod 10 < 10 := Int.tmod_lt_of_pos _ (by norm_num)
  have h2 : (-(num.tdiv exp)).tmod 10 < 10 := Int.tmod_lt_of_pos _ (by norm_num)
  have h3 : (-(num.tdiv exp)).tmod 10 = -((num.tdiv exp).tmod 10) := by
    simp [Int.tmod_def, Int.neg_tdiv]
    ring
  omega

theorem countDigits_aux (exp : ℤ) :
    ∀ (arr : List ℤ) (c : ℕ → ℕ) (d : ℕ),
    (arr.foldl (fun c num d2 => if d2 = digitOf num exp then c d2 + 1 else c d2) c) d
      = c d + (arr.filter (fun x => decide (digitOf x exp = d))).length := by
  intro arr
  induction arr with
  | nil =>
    intro c d
    simp
  | cons x arr ih =>
    intro c d
    rw [List.foldl_cons, ih, List.filter_cons]
    by_cases hd : digitOf x exp = d
    · rw [if_pos hd.symm, if_pos (by simpa using hd)]
      simp only [List.length_cons]
      omega
    · rw [if_neg (fun hcon => hd hcon.symm), if_neg (by simpa using hd)]

theorem countDigits_eq (arr : List ℤ) (exp : ℤ) (d : ℕ) :
    countDigits arr exp d = (arr.filter (fun x => decide (digitOf x exp = d))).length := by
  rw [countDigits, countDigits_aux]
  omega

theorem cumLoop_spec :
    ∀ (k : ℕ) (c : ℕ → ℕ) (d : ℕ),
    ((List.range' 1 k).foldl (fun c i d2 => if d2 = i then c i + c (i - 1) else c d2) c) d
      = if 1 ≤ d ∧ d ≤ k then ((List.range (d + 1)).map c).sum else c d := by
  intro k
  induction k with
  | zero =>
    intro c d
    rw [List.range'_zero, List.foldl_nil, if_neg (by omega)]
  | succ k ih =>
    intro c d
    rw [List.range'_concat, List.foldl_append]
    simp only [one_mul, List.foldl_cons, List.foldl_nil, Nat.add_sub_cancel]
    rw [Nat.add_comm 1 k]
    by_cases hd : d = k + 1
    · rw [if_pos hd, ih, ih, if_neg (by omega), Nat.add_sub_cancel]
      by_cases hk : 1 ≤ k
      · rw [if_pos (by omega), if_pos (by omega), hd]
        conv_rhs => rw [List.range_succ]
        simp only [List.map_append, List.sum_append, List.map_cons, List.map_nil,
          List.sum_cons, List.sum_nil]
        omega
      · have hk0 : k = 0 := by omega
        subst hk0
        rw [if_neg (by omega), if_pos (by omega), hd]
        have : List.range 2 = [0, 1] := by rfl
        rw [this]
        simp only [List.map_cons, List.map_nil, List.sum_cons, List.sum_nil, Nat.zero_add]
        omega
    · rw [if_neg hd, ih]
      by_cases hdk : 1 ≤ d ∧ d ≤ k
      · rw [if_pos hdk, if_pos (by omega)]
      · rw [if_neg hdk, if_neg (by omega)]

theorem cumulative_eq_sum (c : ℕ → ℕ) (d : ℕ) (hd : d ≤ 9) :
    cumulative c d = ((List.range (d + 1)).map c).sum := by
  rw [cumulative, cumLoop_spec]
  by_cases h0 : 1 ≤ d
  · rw [if_pos ⟨h0, hd⟩]
  · rw [if_neg (by omega)]
    have hd0 : d = 0 := by omega
    subst hd0
    rw [show List.range 1 = [0] from rfl]
    simp

theorem sumTo_succ (c : ℕ → ℕ) (d : ℕ) :
    ((List.range (d + 1 + 1)).map c).sum = ((List.range (d + 1)).map c).sum + c (d + 1) := by
  conv_lhs => rw [List.range_succ]
  simp [List.map_append, List.sum_append]

theorem sumTo_mono (c : ℕ → ℕ) : ∀ d1 d2, d1 ≤ d2 →
    ((List.range (d1 + 1)).map c).sum ≤ ((List.range (d2 + 1)).map c).sum := by
  intro d1 d2 h
  induction d2 with
  | zero =>
    have hd0 : d1 = 0 := by omega
    rw [hd0]
  | succ d2 ih =>
    rcases eq_or_lt_of_le h with heq | hlt
    · rw [heq]
    · refine le_trans (ih (by omega)) ?_
      rw [sumTo_succ]
      omega

theorem sum_indicator (v K : ℕ) : ∀ n,
    ((List.range n).map (fun d => if v = d then K else 0)).sum = if v < n then K else 0 := by
  intro n
  induction n with
  | zero => simp
  | succ n ih =>
    rw [List.range_succ]
    simp only [List.map_append, List.sum_append, List.map_cons, List.map_nil,
      List.sum_cons, List.sum_nil, ih]
    split_ifs <;> omega

theorem sum_map_add_split (f g : ℕ → ℕ) :
    ∀ ds : List ℕ, (ds.map (fun d => f d + g d)).sum = (ds.map f).sum + (ds.map g).sum := by
  intro ds
  induction ds with
  | nil => simp
  | cons d ds ih =>
    simp only [List.map_cons, List.sum_cons, ih]
    omega

theorem filter_digit_total (exp : ℤ) (arr : List ℤ) :
    ((List.range 10).map
      (fun d => (arr.filter (fun x => decide (digitOf x exp = d))).length)).sum
      = arr.length := by
  induction arr with
  | nil => simp
  | cons x arr ih =>
    have h1 : ∀ d ∈ List.range 10,
        ((x :: arr).filter (fun y => decide (digitOf y exp = d))).length
          = (fun d => (arr.filter (fun y => decide (digitOf y exp = d))).length) d
            + (fun d => if digitOf x exp = d then 1 else 0) d := by
      intro d _
      simp only []
      rw [List.filter_cons]
      by_cases h : digitOf x exp = d
      · rw [if_pos (by simpa using h), if_pos h]
        simp
      · rw [if_neg (by simpa using h), if_neg h]
        simp
    rw [List.map_congr_left h1, sum_map_add_split, ih, sum_indicator,
      if_pos (digitOf_lt x exp), List.length_cons]

theorem fillLoop_fst (exp : ℤ) (st : (ℕ → ℕ) × List ℤ) (num : ℤ) (d : ℕ) :
    (fillLoop exp st num).1 d
      = if d = digitOf num exp then st.1 (digitOf num exp) - 1 else st.1 d := rfl

theorem fillLoop_snd (exp : ℤ) (st : (ℕ → ℕ) × List ℤ) (num : ℤ) :
    (fillLoop exp st num).2 = st.2.set (st.1 (digitOf num exp) - 1) num := rfl

theorem fillFoldr_spec (exp : ℤ) :
    ∀ (zs : List ℤ) (c : ℕ → ℕ) (out : List ℤ),
    (∀ d, d < 10 → (zs.filter (fun x => decide (digitOf x exp = d))).length ≤ c d) →
    (∀ d1 d2, d1 < d2 → d2 < 10 →
      c d1 + (zs.filter (fun x => decide (digitOf x exp = d2))).length ≤ c d2) →
    (∀ d, d < 10 → c d ≤ out.length) →
    (∀ d, d < 10 →
      (zs.foldr (fun num st => fillLoop exp st num) (c, out)).1 d
        = c d - (zs.filter (fun x => decide (digitOf x exp = d))).length)
    ∧ (zs.foldr (fun num st => fillLoop exp st num) (c, out)).2.length = out.length
    ∧ (∀ p, (∀ d, d < 10 →
          ¬(c d - (zs.filter (fun x => decide (digitOf x exp = d))).length ≤ p ∧ p < c d)) →
        (zs.foldr (fun num st => fillLoop exp st num) (c, out)).2.getD p 0 = out.getD p 0)
    ∧ (∀ d, d < 10 → ∀ m, m < (zs.filter (fun x => decide (digitOf x exp = d))).length →
        (zs.foldr (fun num st => fillLoop exp st num) (c, out)).2.getD
            (c d - (zs.filter (fun x => decide (digitOf x exp = d))).length + m) 0
          = (zs.filter (fun x => decide (digitOf x exp = d))).getD m 0) := by
  intro zs
  induction zs with
  | nil =>
    intro c out hH1 hH2 hH3
    refine ⟨?_, rfl, fun p _ => rfl, ?_⟩
    · intro d _
      simp
    · intro d _ m hm
      simp at hm
  | cons num zs ih =>
    intro c out hH1 hH2 hH3
    have hd0 : digitOf num exp < 10 := digitOf_lt num exp
    have hfA : ∀ d, ((num :: zs).filter (fun x => decide (digitOf x exp = d))).length
        = (zs.filter (fun x => decide (digitOf x exp = d))).length
          + (if digitOf num exp = d then 1 else 0) := by
      intro d
      rw [List.filter_cons]
      by_cases h : digitOf num exp = d
      · rw [if_pos (by simpa using h), if_pos h, List.length_cons]
      · rw [if_neg (by simpa using h), if_neg h, Nat.add_zero]
    have hZ1 : ∀ d, d < 10 →
        (zs.filter (fun x => decide (digitOf x exp = d))).length ≤ c d := by
      intro d hd
      have h2 := hH1 d hd
      rw [hfA d] at h2
      omega
    have hZ2 : ∀ d1 d2, d1 < d2 → d2 < 10 →
        c d1 + (zs.filter (fun x => decide (digitOf x exp = d2))).length ≤ c d2 := by
      intro d1 d2 h12 hd2
      have h2 := hH2 d1 d2 h12 hd2
      rw [hfA d2] at h2
      omega
    obtain ⟨i1, i2, i3, i4⟩ := ih c out hZ1 hZ2 hH3
    rw [List.foldr_cons]
    have hcount : (zs.foldr (fun num st => fillLoop exp st num) (c, out)).1 (digitOf num exp)
        = c (digitOf num exp)
          - (zs.filter (fun x => decide (digitOf x exp = digitOf num exp))).length :=
      i1 (digitOf num exp) hd0
    have hcntA0 : ((num :: zs).filter
          (fun x => decide (digitOf x exp = digitOf num exp))).length
        = (zs.filter (fun x => decide (digitOf x exp = digitOf num exp))).length + 1 := by
      rw [hfA, if_pos rfl]
    have hcZ0 : (zs.filter (fun x => decide (digitOf x exp = digitOf num exp))).length + 1
        ≤ c (digitOf num exp) := by
      have h2 := hH1 (digitOf num exp) hd0
      omega
    refine ⟨?_, ?_, ?_, ?_⟩
    · intro d hd
      rw [fillLoop_fst]
      by_cases h : d = digitOf num exp
      · rw [if_pos h, hcount, hfA, h, if_pos rfl]
        omega
      · rw [if_neg h, i1 d hd, hfA, if_neg (fun hc => h hc.symm), Nat.add_zero]
    · rw [fillLoop_snd, List.length_set]
      exact i2
    · intro p hp
      rw [fillLoop_snd, hcount]
      have hne : c (digitOf num exp)
            - (zs.filter (fun x => decide (digitOf x exp = digitOf num exp))).length - 1
          ≠ p := by
        have hpd0 := hp (digitOf num exp) hd0
        rw [hcntA0] at hpd0
        omega
      rw [getD_set_ne _ _ _ _ _ hne]
      refine i3 p ?_
      intro d hd
      have hpd := hp d hd
      rw [hfA] at hpd
      by_cases h : digitOf num exp = d
      · rw [if_pos h] at hpd
        omega
      · rw [if_neg h] at hpd
        omega
    · intro d hd m hm
      rw [fillLoop_snd]
      by_cases h : digitOf num exp = d
      · rw [h, i1 d hd]
        have hfc : ((num :: zs).filter (fun x => decide (digitOf x exp = d)))
            = num :: (zs.filter (fun x => decide (digitOf x exp = d))) := by
          rw [List.filter_cons, if_pos (by simpa using h)]
        rw [hfc, List.length_cons] at hm
        rw [hfc, List.length_cons]
        have hcZ : (zs.filter (fun x => decide (digitOf x exp = d))).length + 1 ≤ c d := by
          have h2 := hH1 d hd
          rw [hfc, List.length_cons] at h2
          exact h2
        rcases Nat.eq_zero_or_pos m with hm0 | hm0
        · subst hm0
          have hposeq : c d - ((zs.filter (fun x => decide (digitOf x exp = d))).length + 1)
                + 0
              = c d - (zs.filter (fun x => decide (digitOf x exp = d))).length - 1 := by
            omega
          rw [hposeq,
            getD_set_self _ _ _ _ (by rw [i2]; have h3 := hH3 d hd; omega),
            List.getD_cons_zero]
        · obtain ⟨m', rfl⟩ : ∃ m', m = m' + 1 := ⟨m - 1, by omega⟩
          have hposeq : c d - ((zs.filter (fun x => decide (digitOf x exp = d))).length + 1)
                + (m' + 1)
              = c d - (zs.filter (fun x => decide (digitOf x exp = d))).length + m' := by
            omega
          have hne : c d - (zs.filter (fun x => decide (digitOf x exp = d))).length - 1
              ≠ c d - (zs.filter (fun x => decide (digitOf x exp = d))).length + m' := by
            omega
          rw [hposeq, getD_set_ne _ _ _ _ _ hne, i4 d hd m' (by omega),
            List.getD_cons_succ]
      · have hfc : ((num :: zs).filter (fun x => decide (digitOf x exp = d)))
            = zs.filter (fun x => decide (digitOf x exp = d)) := by
          rw [List.filter_cons, if_neg (by simpa using h)]
        rw [hfc] at hm
        rw [hfc, hcount]
        have hne : c (digitOf num exp)
              - (zs.filter (fun x => decide (digitOf x exp = digitOf num exp))).length - 1
            ≠ c d - (zs.filter (fun x => decide (digitOf x exp = d))).length + m := by
          rcases Nat.lt_or_ge (digitOf num exp) d with hlt | hge
          · have h2 := hH2 (digitOf num exp) d hlt hd
            rw [hfc] at h2
            omega
          · have hlt2 : d < digitOf num exp := by omega
            have h2 := hH2 d (digitOf num exp) hlt2 hd0
            rw [hcntA0] at h2
            have h4 := hZ1 d hd
            omega
        rw [getD_set_ne _ _ _ _ _ hne, i4 d hd m hm]

theorem counting_sort_spec (arr out : List ℤ) (exp : ℤ) (hlen : out.length = arr.length) :
    (counting_sort_by_digit arr out exp).length = arr.length
    ∧ counting_sort_by_digit arr out exp
        = (List.range 10).flatMap
            (fun d => arr.filter (fun x => decide (digitOf x exp = d))) := by
  have hcum : ∀ d, d < 10 → cumulative (countDigits arr exp) d
      = ((List.range (d + 1)).map
          (fun j => (arr.filter (fun x => decide (digitOf x exp = j))).length)).sum := by
    intro d hd
    rw [cumulative_eq_sum _ d (by omega)]
    congr 1
    exact List.map_congr_left (fun j _ => countDigits_eq arr exp j)
  have hsplit : ∀ d, ((List.range (d + 1)).map
        (fun j => (arr.filter (fun x => decide (digitOf x exp = j))).length)).sum
      = ((List.range d).map
          (fun j => (arr.filter (fun x => decide (digitOf x exp = j))).length)).sum
        + (arr.filter (fun x => decide (digitOf x exp = d))).length := by
    intro d
    conv_lhs => rw [List.range_succ]
    simp [List.map_append, List.sum_append]
  have htot := filter_digit_total exp arr
  have hSbound : ∀ k, k ≤ 10 → ((List.range k).map
        (fun j => (arr.filter (fun x => decide (digitOf x exp = j))).length)).sum
      ≤ arr.length := by
    intro k hk
    rcases Nat.eq_zero_or_pos k with h0 | h0
    · subst h0
      simp
    · have hmono := sumTo_mono
        (fun j => (arr.filter (fun x => decide (digitOf x exp = j))).length)
        (k - 1) 9 (by omega)
      rw [show k - 1 + 1 = k from by omega] at hmono
      have h10 : (9 : ℕ) + 1 = 10 := rfl
      rw [h10] at hmono
      omega
  have hH1 : ∀ d, d < 10 → (arr.filter (fun x => decide (digitOf x exp = d))).length
      ≤ cumulative (countDigits arr exp) d := by
    intro d hd
    rw [hcum d hd, hsplit d]
    omega
  have hH2 : ∀ d1 d2, d1 < d2 → d2 < 10 →
      cumulative (countDigits arr exp) d1
        + (arr.filter (fun x => decide (digitOf x exp = d2))).length
      ≤ cumulative (countDigits arr exp) d2 := by
    intro d1 d2 h12 hd2
    rw [hcum d1 (by omega), hcum d2 hd2, hsplit d2]
    have hmono := sumTo_mono
      (fun j => (arr.filter (fun x => decide (digitOf x exp = j))).length)
      d1 (d2 - 1) (by omega)
    rw [show d2 - 1 + 1 = d2 from by omega] at hmono
    omega
  have hH3 : ∀ d, d < 10 → cumulative (countDigits arr exp) d ≤ out.length := by
    intro d hd
    rw [hcum d hd, hlen]
    exact hSbound (d + 1) (by omega)
  obtain ⟨f1, f2, f3, f4⟩ := fillFoldr_spec exp arr (cumulative (countDigits arr exp))
    out hH1 hH2 hH3
  have hconv : counting_sort_by_digit arr out exp
      = (arr.foldr (fun num st => fillLoop exp st num)
          (cumulative (countDigits arr exp), out)).2 := by
    rw [counting_sort_by_digit, List.foldl_reverse]
  have hBlen : (counting_sort_by_digit arr out exp).length = arr.length := by
    rw [hconv, f2, hlen]
  refine ⟨hBlen, ?_⟩
  have hassemble : ∀ k, k ≤ 10 →
      (counting_sort_by_digit arr out exp).take
          (((List.range k).map
            (fun j => (arr.filter (fun x => decide (digitOf x exp = j))).length)).sum)
        = (List.range k).flatMap
            (fun d => arr.filter (fun x => decide (digitOf x exp = d))) := by
    intro k
    induction k with
    | zero =>
      intro _
      simp
    | succ k ihk =>
      intro hk
      rw [List.range_succ]
      simp only [List.map_append, List.sum_append, List.map_cons, List.map_nil,
        List.sum_cons, List.sum_nil, List.flatMap_append, List.flatMap_cons,
        List.flatMap_nil, List.append_nil, Nat.add_zero]
      rw [List.take_add, ihk (by omega)]
      congr 1
      have hkb : ((List.range k).map
            (fun j => (arr.filter (fun x => decide (digitOf x exp = j))).length)).sum
          + (arr.filter (fun x => decide (digitOf x exp = k))).length ≤ arr.length := by
        have h2 := hSbound (k + 1) hk
        rw [hsplit k] at h2
        omega
      have hck : cumulative (countDigits arr exp) k
          = ((List.range k).map
              (fun j => (arr.filter (fun x => decide (digitOf x exp = j))).length)).sum
            + (arr.filter (fun x => decide (digitOf x exp = k))).length := by
        rw [hcum k (by omega), hsplit k]
      apply eq_of_getD _ _ (0 : ℤ)
      · simp only [List.length_take, List.length_drop, hBlen]
        omega
      · intro m hm
        simp only [List.length_take, List.length_drop, hBlen] at hm
        rw [getD_take _ _ _ _ (by omega), getD_drop, hconv]
        have hpos : ((List.range k).map
              (fun j => (arr.filter (fun x => decide (digitOf x exp = j))).length)).sum + m
            = cumulative (countDigits arr exp) k
              - (arr.filter (fun x => decide (digitOf x exp = k))).length + m := by
          omega
        rw [hpos, f4 k (by omega) m (by omega)]
  have hfin := hassemble 10 le_rfl
  rw [htot, show arr.length = (counting_sort_by_digit arr out exp).length from hBlen.symm,
    List.take_length] at hfin
  exact hfin

theorem count_flatMap (arr : List ℤ) (exp : ℤ) (y : ℤ) :
    ∀ ds : List ℕ,
    (ds.flatMap (fun d => arr.filter (fun x => decide (digitOf x exp = d)))).count y
      = (ds.map (fun d => (arr.filter (fun x => decide (digitOf x exp = d))).count y)).sum := by
  intro ds
  induction ds with
  | nil => simp
  | cons d ds ih =>
    simp [List.flatMap_cons, List.count_append, ih]

theorem count_filter_digit (arr : List ℤ) (exp : ℤ) (y : ℤ) (d : ℕ) :
    (arr.filter (fun x => decide (digitOf x exp = d))).count y
      = if digitOf y exp = d then arr.count y else 0 := by
  by_cases h : digitOf y exp = d
  · rw [if_pos h, List.count_filter (by simpa using h)]
  · rw [if_neg h, List.count_eq_zero]
    intro hy
    have h2 := List.of_mem_filter hy
    simp only [decide_eq_true_eq] at h2
    exact h h2

theorem flatMap_filter_perm (arr : List ℤ) (exp : ℤ) :
    ((List.range 10).flatMap
      (fun d => arr.filter (fun x => decide (digitOf x exp = d)))).Perm arr := by
  rw [List.perm_iff_count]
  intro y
  rw [count_flatMap]
  have h1 : ∀ d ∈ List.range 10,
      (arr.filter (fun x => decide (digitOf x exp = d))).count y
        = (fun d => if digitOf y exp = d then arr.count y else 0) d := by
    intro d _
    exact count_filter_digit arr exp y d
  rw [List.map_congr_left h1, sum_indicator, if_pos (digitOf_lt y exp)]

theorem pairwise_flatMap (F : ℕ → List ℤ) (R : ℤ → ℤ → Prop)
    (h1 : ∀ d, List.Pairwise R (F d))
    (h2 : ∀ d1 d2, d1 < d2 → ∀ a ∈ F d1, ∀ b ∈ F d2, R a b) :
    ∀ ds : List ℕ, List.Pairwise (fun x y : ℕ => x < y) ds →
      List.Pairwise R (ds.flatMap F) := by
  intro ds
  induction ds with
  | nil =>
    intro _
    simp
  | cons d ds ih =>
    intro hp
    rw [List.flatMap_cons, List.pairwise_append]
    obtain ⟨hd, hp2⟩ := List.pairwise_cons.mp hp
    refine ⟨h1 d, ih hp2, ?_⟩
    intro a ha b hb
    obtain ⟨d2, hd2, hb2⟩ := List.mem_flatMap.mp hb
    exact h2 d d2 (hd d2 hd2) a ha b hb2

/-- For `x ≥ 0`, the next decimal slice: `x mod 10^(t+1)` splits into the
`exp = 10^t` digit and `x mod 10^t`. -/
theorem emod_pow_succ (x : ℤ) (t : ℕ) (hx : 0 ≤ x) :
    x % 10 ^ (t + 1) = (digitOf x (10 ^ t) : ℤ) * 10 ^ t + x % 10 ^ t := by
  have hp : (0:ℤ) < 10 ^ t := by positivity
  rw [digitOf]
  have h1 : x.tdiv (10 ^ t) = x / 10 ^ t := Int.tdiv_eq_ediv hx (le_of_lt hp)
  have h2 : (x / 10 ^ t).tmod 10 = (x / 10 ^ t) % 10 :=
    Int.tmod_eq_emod (Int.ediv_nonneg hx (le_of_lt hp)) (by norm_num)
  have h3 : (0:ℤ) ≤ x / 10 ^ t % 10 := Int.emod_nonneg _ (by norm_num)
  rw [h1, h2, Int.natAbs_of_nonneg h3]
  have hq := Int.ediv_add_emod x (10 ^ t)
  have hq2 := Int.ediv_add_emod (x / 10 ^ t) 10
  have hr2 : x % 10 ^ t < 10 ^ t := Int.emod_lt_of_pos _ hp
  have hr1 : (0:ℤ) ≤ x % 10 ^ t := Int.emod_nonneg _ (ne_of_gt hp)
  have hq4 : x / 10 ^ t % 10 < 10 := Int.emod_lt_of_pos _ (by norm_num)
  have hx2 : x = (x / 10 ^ t % 10 * 10 ^ t + x % 10 ^ t)
      + 10 ^ (t + 1) * (x / 10 ^ t / 10) := by
    calc x = 10 ^ t * (x / 10 ^ t) + x % 10 ^ t := hq.symm
      _ = 10 ^ t * (10 * (x / 10 ^ t / 10) + x / 10 ^ t % 10) + x % 10 ^ t := by
          rw [hq2]
      _ = (x / 10 ^ t % 10 * 10 ^ t + x % 10 ^ t) + 10 ^ (t + 1) * (x / 10 ^ t / 10) := by
          ring
  conv_lhs => rw [hx2]
  rw [Int.add_mul_emod_self_left]
  refine Int.emod_eq_of_lt (by positivity) ?_
  have h5 : x / 10 ^ t % 10 * 10 ^ t ≤ 9 * 10 ^ t := by
    have h6 : x / 10 ^ t % 10 ≤ 9 := by omega
    exact mul_le_mul_of_nonneg_right h6 (le_of_lt hp)
  have h7 : (10:ℤ) ^ (t + 1) = 10 * 10 ^ t := by ring
  linarith

theorem flatMap_filter_sorted (arr : List ℤ) (t : ℕ) (hnn : ∀ x ∈ arr, 0 ≤ x)
    (hs : List.Pairwise (fun a b : ℤ => a % 10 ^ t ≤ b % 10 ^ t) arr) :
    List.Pairwise (fun a b : ℤ => a % 10 ^ (t + 1) ≤ b % 10 ^ (t + 1))
      ((List.range 10).flatMap
        (fun d => arr.filter (fun x => decide (digitOf x (10 ^ t) = d)))) := by
  refine pairwise_flatMap _ _ ?_ ?_ (List.range 10) (List.pairwise_lt_range 10)
  · intro d
    rw [List.pairwise_filter]
    refine List.Pairwise.imp_of_mem ?_ hs
    intro a b ha hb hrel hda hdb
    rw [emod_pow_succ a t (hnn a ha), emod_pow_succ b t (hnn b hb), hda, hdb]
    have hp : (0:ℤ) ≤ 10 ^ t := by positivity
    have h2 : (0:ℤ) ≤ (d : ℤ) * 10 ^ t := by positivity
    linarith
  · intro d1 d2 h12 a ha b hb
    have hda := List.of_mem_filter ha
    have hdb := List.of_mem_filter hb
    simp only [decide_eq_true_eq] at hda hdb
    have hna := hnn a (List.mem_of_mem_filter ha)
    have hnb := hnn b (List.mem_of_mem_filter hb)
    rw [emod_pow_succ a t hna, emod_pow_succ b t hnb, hda, hdb]
    have hp : (0:ℤ) < 10 ^ t := by positivity
    have hra : a % 10 ^ t < 10 ^ t := Int.emod_lt_of_pos _ hp
    have hrb : (0:ℤ) ≤ b % 10 ^ t := Int.emod_nonneg _ (ne_of_gt hp)
    have hd12 : (d1 : ℤ) + 1 ≤ (d2 : ℤ) := by exact_mod_cast h12
    nlinarith

theorem radix_done (arr : List ℤ) (maxVal : ℤ) (t : ℕ)
    (hlt : maxVal < 10 ^ t)
    (hnn : ∀ x ∈ arr, 0 ≤ x) (hub : ∀ x ∈ arr, x ≤ maxVal)
    (hs : List.Pairwise (fun a b : ℤ => a % 10 ^ t ≤ b % 10 ^ t) arr) :
    List.Pairwise (fun a b : ℤ => a ≤ b) arr := by
  refine List.Pairwise.imp_of_mem ?_ hs
  intro a b ha hb hrel
  rwa [Int.emod_eq_of_lt (hnn a ha) (lt_of_le_of_lt (hub a ha) hlt),
    Int.emod_eq_of_lt (hnn b hb) (lt_of_le_of_lt (hub b hb) hlt)] at hrel

theorem radixPasses_spec :
    ∀ (n : ℕ) (arr out : List ℤ) (maxVal : ℤ) (t : ℕ),
    maxVal.toNat + 1 - 10 ^ t ≤ n →
    0 ≤ maxVal →
    (∀ x ∈ arr, 0 ≤ x) → (∀ x ∈ arr, x ≤ maxVal) →
    out.length = arr.length →
    List.Pairwise (fun a b : ℤ => a % 10 ^ t ≤ b % 10 ^ t) arr →
    List.Pairwise (fun a b : ℤ => a ≤ b) (radixPasses arr out maxVal t)
    ∧ (radixPasses arr out maxVal t).Perm arr := by
  intro n
  induction n with
  | zero =>
    intro arr out maxVal t hfuel hmv hnn hub hlen hs
    have hc : ((10 ^ t : ℕ) : ℤ) = (10:ℤ) ^ t := by push_cast; ring
    have hlt : maxVal < 10 ^ t := by omega
    have hg : ¬ 0 < maxVal.tdiv (10 ^ t) := by
      have h2 := Int.tdiv_eq_zero_of_lt hmv hlt
      omega
    rw [radixPasses, if_neg hg]
    exact ⟨radix_done arr maxVal t hlt hnn hub hs, List.Perm.refl _⟩
  | succ n ih =>
    intro arr out maxVal t hfuel hmv hnn hub hlen hs
    rw [radixPasses]
    by_cases hg : 0 < maxVal.tdiv (10 ^ t)
    · rw [if_pos hg]
      have hp : (0:ℤ) < 10 ^ t := by positivity
      have hge : 10 ^ t ≤ maxVal := by
        by_contra hcon
        push_neg at hcon
        have h2 := Int.tdiv_eq_zero_of_lt hmv hcon
        omega
      obtain ⟨plen, pflat⟩ := counting_sort_spec arr out (10 ^ t) hlen
      have hperm : (counting_sort_by_digit arr out (10 ^ t)).Perm arr := by
        rw [pflat]
        exact flatMap_filter_perm arr (10 ^ t)
      have hsort : List.Pairwise (fun a b : ℤ => a % 10 ^ (t + 1) ≤ b % 10 ^ (t + 1))
          (counting_sort_by_digit arr out (10 ^ t)) := by
        rw [pflat]
        exact flatMap_filter_sorted arr t hnn hs
      have hfuel' : maxVal.toNat + 1 - 10 ^ (t + 1) ≤ n := by
        have hc : ((10 ^ t : ℕ) : ℤ) = (10:ℤ) ^ t := by push_cast; ring
        have hd : ((10 ^ (t + 1) : ℕ) : ℤ) = (10:ℤ) ^ (t + 1) := by push_cast; ring
        have he : (10:ℤ) ^ (t + 1) = 10 * 10 ^ t := by ring
        omega
      obtain ⟨r1, r2⟩ := ih (counting_sort_by_digit arr out (10 ^ t))
        (counting_sort_by_digit arr out (10 ^ t)) maxVal (t + 1) hfuel' hmv
        (fun x hx => hnn x (hperm.subset hx)) (fun x hx => hub x (hperm.subset hx))
        rfl hsort
      exact ⟨r1, r2.trans hperm⟩
    · rw [if_neg hg]
      have hlt : maxVal < 10 ^ t := by
        by_contra hcon
        push_neg at hcon
        have h2 : (1:ℤ) ≤ maxVal / 10 ^ t := by
          rw [Int.le_ediv_iff_mul_le (by positivity)]
          linarith
        rw [← Int.tdiv_eq_ediv hmv (by positivity)] at h2
        omega
      exact ⟨radix_done arr maxVal t hlt hnn hub hs, List.Perm.refl _⟩

theorem maxAbs_aux : ∀ (l : List ℤ) (acc : ℤ),
    acc ≤ l.foldl (fun m x => max m |x|) acc
    ∧ ∀ x ∈ l, |x| ≤ l.foldl (fun m x => max m |x|) acc := by
  intro l
  induction l with
  | nil =>
    intro acc
    exact ⟨le_rfl, fun x hx => absurd hx (List.not_mem_nil x)⟩
  | cons y l ih =>
    intro acc
    rw [List.foldl_cons]
    constructor
    · exact le_trans (le_max_left acc |y|) (ih (max acc |y|)).1
    · intro x hx
      rcases List.mem_cons.mp hx with rfl | hx2
      · exact le_trans (le_max_right acc |x|) (ih (max acc |x|)).1
      · exact (ih (max acc |y|)).2 x hx2

theorem radixsort_i32_nonneg (l : List ℤ) (h : ∀ x ∈ l, 0 ≤ x) :
    List.Pairwise (fun a b : ℤ => a ≤ b) (radixsort_i32 l)
    ∧ (radixsort_i32 l).Perm l := by
  rw [radixsort_i32]
  by_cases h0 : l.length = 0
  · rw [if_pos h0]
    have hnil : l = [] := List.length_eq_zero.mp h0
    subst hnil
    exact ⟨List.Pairwise.nil, List.Perm.refl _⟩
  · rw [if_neg h0]
    have hub : ∀ x ∈ l, x ≤ maxAbs l := by
      intro x hx
      exact le_trans (le_abs_self x) ((maxAbs_aux l 0).2 x hx)
    have hmv : (0:ℤ) ≤ maxAbs l := (maxAbs_aux l 0).1
    have hs0 : List.Pairwise (fun a b : ℤ => a % 10 ^ 0 ≤ b % 10 ^ 0) l := by
      refine List.pairwise_iff_getElem.mpr ?_
      intro i j hi hj hij
      simp [Int.emod_one]
    exact radixPasses_spec ((maxAbs l).toNat + 1) l (List.replicate l.length 0)
      (maxAbs l) 0 (by omega) hmv h hub (by simp) hs0

theorem radixsort_mixed_compute : radixsort_i32 [1, -2] = [1, -2] := by
  rw [radixsort_i32, if_neg (by decide),
    show maxAbs [1, -2] = 2 from by decide,
    radixPasses, if_pos (by decide),
    show counting_sort_by_digit [1, -2]
      (List.replicate (List.length ([1, -2] : List ℤ)) 0) (10 ^ 0) = [1, -2] from by decide,
    radixPasses, if_neg (by decide)]

/-- C2: `radixsort_i32` sorts every all-non-negative array into a
non-decreasing permutation of the input, while a mixed-sign array exists
(here `[1, -2]`, returned unchanged because `-2` wins the larger
absolute-value digit bucket) whose output is not non-decreasing. -/
theorem c2_radixsort_nonneg_and_mixed_sign (l : List ℤ) (hnn : ∀ x ∈ l, 0 ≤ x) :
    (List.Pairwise (fun a b : ℤ => a ≤ b) (radixsort_i32 l)
      ∧ (radixsort_i32 l).Perm l)
    ∧ ∃ bad : List ℤ, (∃ x ∈ bad, x < 0) ∧ (∃ x ∈ bad, 0 < x)
        ∧ ¬ List.Pairwise (fun a b : ℤ => a ≤ b) (radixsort_i32 bad) := by
  refine ⟨radixsort_i32_nonneg l hnn, [1, -2], ⟨-2, by norm_num, by norm_num⟩,
    ⟨1, by norm_num, by norm_num⟩, ?_⟩
  rw [radixsort_mixed_compute]
  decide

/-- Witness for C2 at the non-negative array `[170, 45, 75, 90]`. -/
theorem c2_radixsort_nonneg_and_mixed_sign_witness :
    (∀ x ∈ ([170, 45, 75, 90] : List ℤ), 0 ≤ x)
    ∧ ((List.Pairwise (fun a b : ℤ => a ≤ b) (radixsort_i32 [170, 45, 75, 90])
        ∧ (radixsort_i32 [170, 45, 75, 90]).Perm [170, 45, 75, 90])
      ∧ ∃ bad : List ℤ, (∃ x ∈ bad, x < 0) ∧ (∃ x ∈ bad, 0 < x)
          ∧ ¬ List.Pairwise (fun a b : ℤ => a ≤ b) (radixsort_i32 bad)) :=
  ⟨by decide, c2_radixsort_nonneg_and_mixed_sign [170, 45, 75, 90] (by decide)⟩

/-! ## Box blur on uniform images (claim C8) -/

theorem clampI_toNat_lt (v : ℤ) (n : ℕ) (hn : 1 ≤ n) :
    (clampI v 0 ((n : ℤ) - 1)).toNat < n := by
  rw [clampI]
  omega

theorem blurAdd_uniform (src : List ℕ) (w h radius x y : ℕ) (u : ℕ → ℕ)
    (hw : 1 ≤ w) (hh : 1 ≤ h)
    (huni : ∀ i, i < w * h * 4 → src.getD i 0 = u (i % 4))
    (s : ℕ × ℕ × ℕ × ℕ) (dyi dxi : ℕ) :
    blurAdd src w h radius x y s dyi dxi
      = ((s.1 + u 0) % 2 ^ 32, (s.2.1 + u 1) % 2 ^ 32,
         (s.2.2.1 + u 2) % 2 ^ 32, (s.2.2.2 + u 3) % 2 ^ 32) := by
  rw [blurAdd]
  set nx := (clampI ((x : ℤ) + ((dxi : ℤ) - radius)) 0 ((w : ℤ) - 1)).toNat with hnx
  set ny := (clampI ((y : ℤ) + ((dyi : ℤ) - radius)) 0 ((h : ℤ) - 1)).toNat with hny
  have hnxw : nx < w := clampI_toNat_lt _ w hw
  have hnyh : ny < h := clampI_toNat_lt _ h hh
  have hpix : ny * w + nx < w * h := by
    calc ny * w + nx < ny * w + w := by omega
    _ = (ny + 1) * w := by ring
    _ ≤ h * w := Nat.mul_le_mul_right w hnyh
    _ = w * h := Nat.mul_comm h w
  have hread : ∀ c : ℕ, c < 4 → src.getD ((ny * w + nx) * 4 + c) 0 = u c := by
    intro c hc
    have hi : (ny * w + nx) * 4 + c < w * h * 4 := by
      set P := ny * w + nx
      set Q := w * h
      omega
    rw [huni _ hi]
    congr 1
    set P := ny * w + nx
    omega
  have hread0 : src.getD ((ny * w + nx) * 4) 0 = u 0 := by
    have := hread 0 (by omega)
    simpa using this
  rw [hread0, hread 1 (by omega), hread 2 (by omega), hread 3 (by omega)]

theorem blurInner_uniform (src : List ℕ) (w h radius x y : ℕ) (u : ℕ → ℕ)
    (hw : 1 ≤ w) (hh : 1 ≤ h)
    (huni : ∀ i, i < w * h * 4 → src.getD i 0 = u (i % 4)) (dyi : ℕ) :
    ∀ (l : List ℕ) (a b c d : ℕ),
    l.foldl (fun s dxi => blurAdd src w h radius x y s dyi dxi)
        (a % 2 ^ 32, b % 2 ^ 32, c % 2 ^ 32, d % 2 ^ 32)
      = ((a + l.length * u 0) % 2 ^ 32, (b + l.length * u 1) % 2 ^ 32,
         (c + l.length * u 2) % 2 ^ 32, (d + l.length * u 3) % 2 ^ 32) := by
  intro l
  induction l with
  | nil => intro a b c d; simp
  | cons dxi l ih =>
    intro a b c d
    rw [List.foldl_cons, blurAdd_uniform src w h radius x y u hw hh huni _ dyi dxi]
    simp only [Nat.mod_add_mod]
    rw [ih (a + u 0) (b + u 1) (c + u 2) (d + u 3)]
    refine congrArg₂ _ ?_ (congrArg₂ _ ?_ (congrArg₂ _ ?_ ?_)) <;>
      (congr 1; rw [List.length_cons]; ring)

theorem blurSums_uniform (src : List ℕ) (w h radius x y : ℕ) (u : ℕ → ℕ)
    (hw : 1 ≤ w) (hh : 1 ≤ h)
    (huni : ∀ i, i < w * h * 4 → src.getD i 0 = u (i % 4)) :
    blurSums src w h radius x y
      = (((2 * radius + 1) * (2 * radius + 1) * u 0) % 2 ^ 32,
         ((2 * radius + 1) * (2 * radius + 1) * u 1) % 2 ^ 32,
         ((2 * radius + 1) * (2 * radius + 1) * u 2) % 2 ^ 32,
         ((2 * radius + 1) * (2 * radius + 1) * u 3) % 2 ^ 32) := by
  have houter : ∀ (l : List ℕ) (a b c d : ℕ),
      l.foldl (fun s dyi => (List.range (2 * radius + 1)).foldl
          (fun s dxi => blurAdd src w h radius x y s dyi dxi) s)
          (a % 2 ^ 32, b % 2 ^ 32, c % 2 ^ 32, d % 2 ^ 32)
        = ((a + l.length * ((2 * radius + 1) * u 0)) % 2 ^ 32,
           (b + l.length * ((2 * radius + 1) * u 1)) % 2 ^ 32,
           (c + l.length * ((2 * radius + 1) * u 2)) % 2 ^ 32,
           (d + l.length * ((2 * radius + 1) * u 3)) % 2 ^ 32) := by
    intro l
    induction l with
    | nil => intro a b c d; simp
    | cons dyi l ih =>
      intro a b c d
      rw [List.foldl_cons,
        blurInner_uniform src w h radius x y u hw hh huni dyi _ a b c d]
      simp only [List.length_range]
      rw [ih (a + (2 * radius + 1) * u 0) (b + (2 * radius + 1) * u 1)
        (c + (2 * radius + 1) * u 2) (d + (2 * radius + 1) * u 3)]
      refine congrArg₂ _ ?_ (congrArg₂ _ ?_ (congrArg₂ _ ?_ ?_)) <;>
        (congr 1; rw [List.length_cons]; ring)
  have h0 : ((0 : ℕ), (0 : ℕ), (0 : ℕ), (0 : ℕ))
      = ((0 : ℕ) % 2 ^ 32, (0 : ℕ) % 2 ^ 32, (0 : ℕ) % 2 ^ 32, (0 : ℕ) % 2 ^ 32) := by
    norm_num
  rw [blurSums, h0, houter (List.range (2 * radius + 1)) 0 0 0 0]
  simp only [List.length_range, Nat.zero_add]
  refine congrArg₂ _ ?_ (congrArg₂ _ ?_ (congrArg₂ _ ?_ ?_)) <;> (congr 1; ring)

theorem blurByte_uniform (radius : ℕ) (hr : radius ≤ 127) (v : ℕ) (hv : v < 256) :
    toU8 (f32div (roundF32 ((((2 * radius + 1) * (2 * radius + 1) * v) % 2 ^ 32 : ℕ) : ℚ))
      (blurArea radius)) = v := by
  have hd : 2 * radius + 1 ≤ 255 := by omega
  have hdd : (2 * radius + 1) * (2 * radius + 1) ≤ 65025 :=
    Nat.mul_le_mul hd hd
  have hN : (2 * radius + 1) * (2 * radius + 1) * v < 2 ^ 24 := by
    calc (2 * radius + 1) * (2 * radius + 1) * v ≤ 65025 * 255 :=
      Nat.mul_le_mul hdd (by omega)
    _ < 2 ^ 24 := by norm_num
  have hmod : ((2 * radius + 1) * (2 * radius + 1) * v) % 2 ^ 32
      = (2 * radius + 1) * (2 * radius + 1) * v :=
    Nat.mod_eq_of_lt (lt_trans hN (by norm_num))
  rw [hmod, roundF32_natCast _ hN, blurArea,
    roundF32_natCast _ (lt_of_le_of_lt hdd (by norm_num)), f32div]
  have hdq : (((2 * radius + 1) * (2 * radius + 1) : ℕ) : ℚ) ≠ 0 := by
    push_cast
    positivity
  have hquot : (((2 * radius + 1) * (2 * radius + 1) * v : ℕ) : ℚ)
      / (((2 * radius + 1) * (2 * radius + 1) : ℕ) : ℚ) = (v : ℚ) := by
    push_cast at hdq ⊢
    field_simp
  rw [hquot, roundF32_natCast v (by omega), toU8]
  simp only [Int.floor_natCast, Int.toNat_natCast]
  omega

theorem blurWritePixel_getD (src : List ℕ) (w h radius : ℕ) (u : ℕ → ℕ)
    (d : List ℕ) (hw : 1 ≤ w) (hh : 1 ≤ h) (hr : radius ≤ 127)
    (huni : ∀ i, i < w * h * 4 → src.getD i 0 = u (i % 4))
    (hu : ∀ c, c < 4 → u c < 256)
    (x y : ℕ) (hx : x < w) (hy : y < h) (hd : d.length = w * h * 4) :
    (blurWritePixel src w h radius d x y).length = d.length ∧
    (∀ c, c < 4 →
      (blurWritePixel src w h radius d x y).getD ((y * w + x) * 4 + c) 0 = u c) ∧
    (∀ y' x' c', y' < h → x' < w → c' < 4 → y' * w + x' ≠ y * w + x →
      (blurWritePixel src w h radius d x y).getD ((y' * w + x') * 4 + c') 0
        = d.getD ((y' * w + x') * 4 + c') 0) := by
  have hpix : y * w + x < w * h := by
    calc y * w + x < y * w + w := by omega
    _ = (y + 1) * w := by ring
    _ ≤ h * w := Nat.mul_le_mul_right w hy
    _ = w * h := Nat.mul_comm h w
  have hbv : ∀ c, c < 4 → (y * w + x) * 4 + c < d.length := by
    intro c hc
    rw [hd]
    set P := y * w + x
    set Q := w * h
    omega
  have hsums := blurSums_uniform src w h radius x y u hw hh huni
  have hval : ∀ c, c < 4 → toU8 (f32div
      (roundF32 ((((2 * radius + 1) * (2 * radius + 1) * u c) % 2 ^ 32 : ℕ) : ℚ))
      (blurArea radius)) = u c :=
    fun c hc => blurByte_uniform radius hr (u c) (hu c hc)
  refine ⟨by simp [blurWritePixel], ?_, ?_⟩
  · intro c hc
    have hne : ∀ a b : ℕ, a < 4 → b < 4 → a ≠ b →
        (y * w + x) * 4 + a ≠ (y * w + x) * 4 + b := by
      intro a b _ _ hab
      set P := y * w + x
      omega
    rw [blurWritePixel, hsums]
    interval_cases c
    · rw [getD_set_ne _ _ _ _ _ (by have := hne 3 0; set P := y * w + x; omega),
        getD_set_ne _ _ _ _ _ (by set P := y * w + x; omega),
        getD_set_ne _ _ _ _ _ (by set P := y * w + x; omega)]
      have hb0 : (y * w + x) * 4 < d.length := by
        have := hbv 0 (by omega)
        set P := y * w + x
        omega
      rw [show (y * w + x) * 4 + 0 = (y * w + x) * 4 by omega, getD_set_self _ _ _ _ hb0]
      exact hval 0 (by omega)
    · rw [getD_set_ne _ _ _ _ _ (by set P := y * w + x; omega),
        getD_set_ne _ _ _ _ _ (by set P := y * w + x; omega),
        getD_set_self _ _ _ _ (by simpa using hbv 1 (by omega))]
      exact hval 1 (by omega)
    · rw [getD_set_ne _ _ _ _ _ (by set P := y * w + x; omega),
        getD_set_self _ _ _ _ (by simpa using hbv 2 (by omega))]
      exact hval 2 (by omega)
    · rw [getD_set_self _ _ _ _ (by simpa using hbv 3 (by omega))]
      exact hval 3 (by omega)
  · intro y' x' c' _ _ hc' hne
    have hbyte : ∀ a : ℕ, a < 4 → (y * w + x) * 4 + a ≠ (y' * w + x') * 4 + c' := by
      intro a _
      set P := y * w + x
      set P2 := y' * w + x'
      omega
    rw [blurWritePixel,
      getD_set_ne _ _ _ _ _ (hbyte 3 (by omega)),
      getD_set_ne _ _ _ _ _ (hbyte 2 (by omega)),
      getD_set_ne _ _ _ _ _ (hbyte 1 (by omega)),
      getD_set_ne _ _ _ _ _ (by have := hbyte 0 (by omega); set P := y * w + x; set P2 := y' * w + x'; omega)]

theorem blurRow_uniform (src : List ℕ) (w h radius : ℕ) (u : ℕ → ℕ)
    (hw : 1 ≤ w) (hh : 1 ≤ h) (hr : radius ≤ 127)
    (huni : ∀ i, i < w * h * 4 → src.getD i 0 = u (i % 4))
    (hu : ∀ c, c < 4 → u c < 256) (y : ℕ) (hy : y < h) :
    ∀ (t : ℕ), t ≤ w → ∀ (d : List ℕ), d.length = w * h * 4 →
    (((List.range t).foldl (fun d x => blurWritePixel src w h radius d x y) d).length
      = w * h * 4) ∧
    (∀ y' x' c, y' < h → x' < w → c < 4 →
      ((List.range t).foldl (fun d x => blurWritePixel src w h radius d x y) d).getD
          ((y' * w + x') * 4 + c) 0
        = if y' = y ∧ x' < t then u c else d.getD ((y' * w + x') * 4 + c) 0) := by
  intro t
  induction t with
  | zero =>
    intro _ d hd
    refine ⟨by simpa using hd, ?_⟩
    intro y' x' c _ _ _
    simp
  | succ t ih =>
    intro ht d hd
    obtain ⟨ihl, ihv⟩ := ih (by omega) d hd
    rw [List.range_succ, List.foldl_append]
    simp only [List.foldl_cons, List.foldl_nil]
    set F := (List.range t).foldl (fun d x => blurWritePixel src w h radius d x y) d
      with hF
    obtain ⟨wl, wv, wq⟩ := blurWritePixel_getD src w h radius u F hw hh hr huni hu
      t y (by omega) hy ihl
    refine ⟨by rw [wl, ihl], ?_⟩
    intro y' x' c hy' hx' hc
    rcases eq_or_ne (y' * w + x') (y * w + t) with hpe | hpe
    · have hy1 : y' = y := by
        by_contra hne2
        exact absurd hpe (rowIdx_ne hx' (by omega) hne2)
      subst hy1
      have hx1 : x' = t := Nat.add_left_cancel hpe
      subst hx1
      rw [hpe, wv c hc, if_pos ⟨rfl, Nat.lt_succ_self x'⟩]
    · rw [wq y' x' c hy' hx' hc hpe, ihv y' x' c hy' hx' hc]
      rcases eq_or_ne y' y with hyy | hyy
      · subst hyy
        have hxt : x' ≠ t := by
          intro hxe
          subst hxe
          exact hpe rfl
        by_cases hxlt : x' < t
        · rw [if_pos ⟨rfl, hxlt⟩, if_pos ⟨rfl, by omega⟩]
        · rw [if_neg (fun hcon => hxlt hcon.2), if_neg (fun hcon => by omega)]
      · rw [if_neg (fun hcon => hyy hcon.1), if_neg (fun hcon => hyy hcon.1)]

theorem blurRows_uniform (src : List ℕ) (w h radius : ℕ) (u : ℕ → ℕ)
    (hw : 1 ≤ w) (hh : 1 ≤ h) (hr : radius ≤ 127)
    (huni : ∀ i, i < w * h * 4 → src.getD i 0 = u (i % 4))
    (hu : ∀ c, c < 4 → u c < 256) :
    ∀ (r : ℕ), r ≤ h → ∀ (d : List ℕ), d.length = w * h * 4 →
    (((List.range r).foldl (fun d y => (List.range w).foldl
        (fun d x => blurWritePixel src w h radius d x y) d) d).length = w * h * 4) ∧
    (∀ y' x' c, y' < h → x' < w → c < 4 →
      ((List.range r).foldl (fun d y => (List.range w).foldl
          (fun d x => blurWritePixel src w h radius d x y) d) d).getD
          ((y' * w + x') * 4 + c) 0
        = if y' < r then u c else d.getD ((y' * w + x') * 4 + c) 0) := by
  intro r
  induction r with
  | zero =>
    intro _ d hd
    refine ⟨by simpa using hd, ?_⟩
    intro y' x' c _ _ _
    simp
  | succ r ih =>
    intro hrh d hd
    obtain ⟨ihl, ihv⟩ := ih (by omega) d hd
    rw [List.range_succ, List.foldl_append]
    simp only [List.foldl_cons, List.foldl_nil]
    set F := (List.range r).foldl (fun d y => (List.range w).foldl
      (fun d x => blurWritePixel src w h radius d x y) d) d with hF
    obtain ⟨rl, rv⟩ := blurRow_uniform src w h radius u hw hh hr huni hu r
      (by omega) w le_rfl F ihl
    refine ⟨rl, ?_⟩
    intro y' x' c hy' hx' hc
    rw [rv y' x' c hy' hx' hc]
    rcases eq_or_ne y' r with hyr | hyr
    · subst hyr
      rw [if_pos ⟨rfl, hx'⟩, if_pos (Nat.lt_succ_self y')]
    · rw [if_neg (fun hcon => hyr hcon.1), ihv y' x' c hy' hx' hc]
      by_cases hylt : y' < r
      · rw [if_pos hylt, if_pos (by omega)]
      · rw [if_neg hylt, if_neg (by omega)]

theorem idx_decompose (w h : ℕ) (hw : 1 ≤ w) (i : ℕ) (hi : i < w * h * 4) :
    ∃ y x c, y < h ∧ x < w ∧ c < 4 ∧ i = (y * w + x) * 4 + c := by
  refine ⟨i / 4 / w, i / 4 % w, i % 4, ?_, Nat.mod_lt _ (by omega), by omega, ?_⟩
  · have h1 : i / 4 < w * h := by
      set Q := w * h
      omega
    rw [Nat.div_lt_iff_lt_mul (by omega : 0 < w)]
    calc i / 4 < w * h := h1
    _ = h * w := Nat.mul_comm w h
  · rw [Nat.div_add_mod' (i / 4) w, Nat.div_add_mod' i 4]

/-- C8 amended: for every `radius ≤ 127` (window sums exactly
representable in `f32`), blurring a uniform image writes a destination
identical to the source. -/
theorem c8_box_blur_uniform (src dst : List ℕ) (w h radius : ℕ) (u : ℕ → ℕ)
    (hw : 1 ≤ w) (hh : 1 ≤ h) (hr : radius ≤ 127)
    (hsrc : src.length = w * h * 4) (hdst : dst.length = w * h * 4)
    (huni : ∀ i, i < w * h * 4 → src.getD i 0 = u (i % 4))
    (hu : ∀ c, c < 4 → u c < 256) :
    box_blur src dst w h radius = src := by
  obtain ⟨hl, hv⟩ := blurRows_uniform src w h radius u hw hh hr huni hu h
    le_rfl dst hdst
  rw [box_blur]
  apply List.ext_getElem?
  intro n
  set R := (List.range h).foldl (fun d y => (List.range w).foldl
    (fun d x => blurWritePixel src w h radius d x y) d) dst with hR
  by_cases hn : n < w * h * 4
  · obtain ⟨y, x, c, hy, hx, hc, hni⟩ := idx_decompose w h hw n hn
    have hRval : R.getD n 0 = u c := by
      rw [hni, hv y x c hy hx hc, if_pos hy]
    have hsval : src.getD n 0 = u c := by
      rw [huni n hn]
      congr 1
      rw [hni]
      set P := y * w + x
      omega
    have hnR : n < R.length := by rw [hl]; exact hn
    have hnS : n < src.length := by rw [hsrc]; exact hn
    rw [List.getElem?_eq_getElem hnR, List.getElem?_eq_getElem hnS]
    have e1 : R[n] = R.getD n 0 := by
      rw [List.getD_eq_getElem?_getD, List.getElem?_eq_getElem hnR]
      rfl
    have e2 : src[n] = src.getD n 0 := by
      rw [List.getD_eq_getElem?_getD, List.getElem?_eq_getElem hnS]
      rfl
    rw [e1, e2, hRval, hsval]
  · rw [List.getElem?_eq_none (by rw [hl]; omega),
      List.getElem?_eq_none (by rw [hsrc]; omega)]

/-- Witness for C8's amended theorem: a 1×1 image, radius 1. -/
theorem c8_box_blur_uniform_witness :
    box_blur [10, 20, 30, 40] [0, 0, 0, 0] 1 1 1 = [10, 20, 30, 40] :=
  c8_box_blur_uniform [10, 20, 30, 40] [0, 0, 0, 0] 1 1 1
    (fun c => [10, 20, 30, 40].getD c 0) (by omega) (by omega) (by omega)
    (by simp) (by simp) (by decide) (by decide)

/-- C8 counterexample: radius 365 on a uniform white 1×1 image.  The
window sum `731² · 255 = 136 262 055` exceeds `2²⁴`, `as f32` rounds it
to `136 262 048`, the quotient by the (exact) area `534 361` is just
below 255, and the `as u8` cast truncates it to 254. -/
theorem c8_counterexample :
    box_blur [255, 255, 255, 255] [0, 0, 0, 0] 1 1 365 ≠ [255, 255, 255, 255] := by
  have hsums := blurSums_uniform [255, 255, 255, 255] 1 1 365 0 0
    (fun _ => 255) (by omega) (by omega) (by decide)
  have hsum : (2 * 365 + 1) * (2 * 365 + 1) * 255 % 2 ^ 32 = 136262055 := by norm_num
  have hround : roundF32 (136262055 : ℚ) = 136262048 := by
    rw [roundF32_eq_of _ 27 8516378 (by norm_num) (by norm_num) (by norm_num)
        (by norm_num) (by norm_num [rneInt])]
    norm_num
  have harea : blurArea 365 = 534361 := by
    rw [blurArea, roundF32_natCast _ (by norm_num)]
    norm_num
  have hdiv : f32div (136262048 : ℚ) 534361 = 16711679 / 65536 := by
    rw [f32div,
      roundF32_eq_of _ 7 16711679 (by norm_num) (by norm_num) (by norm_num)
        (by norm_num) (by norm_num [rneInt])]
    norm_num
  have hbyte : toU8 (16711679 / 65536) = 254 := by
    rw [toU8]
    norm_num
    decide
  have hwrite : box_blur [255, 255, 255, 255] [0, 0, 0, 0] 1 1 365
      = [254, 254, 254, 254] := by
    rw [box_blur]
    simp only [List.range_succ, List.range_zero, List.nil_append, List.foldl_cons,
      List.foldl_nil]
    rw [blurWritePixel, hsums]
    simp only [hsum]
    push_cast
    rw [hround, harea, hdiv, hbyte]
    rfl
  rw [hwrite]
  simp

/-- Witness for C5 at concrete matrices. -/
theorem c5_matrix_multiply_correct_witness :
    (matrix_multiply (α := ℤ) (· + ·) (· * ·) 0
        (fun idx => [1, 2, 3, 4].getD idx 0) (fun idx => [5, 6, 7, 8].getD idx 0)
        2 2 2 [9, 9, 9, 9]).getD (1 * 2 + 1) 0
      = matMulEntry (α := ℤ) (· + ·) (· * ·) 0
          (fun idx => [1, 2, 3, 4].getD idx 0) (fun idx => [5, 6, 7, 8].getD idx 0)
          2 2 1 1 :=
  (c5_matrix_multiply_correct (α := ℤ) (· + ·) (· * ·) 0
      (fun idx => [1, 2, 3, 4].getD idx 0) (fun idx => [5, 6, 7, 8].getD idx 0)
      2 2 2 [9, 9, 9, 9] (by decide)).1.2 1 1 (by decide) (by decide)

end Elide
